import Mathlib

/-!
# OpenSSE schemes: TETHYS residual max-flow graph, DIANA server search, TETHYS value encoder,
JANUS client requests, DIANE server search

Shallow embedding of
* `lib/oceanus/tethys.cpp` (`TethysGraph`),
* `lib/include/sse/schemes/diana/diana_server.hpp` (`DianaServer`),
* `test/debug_tethys.cpp` (`ValueEncoder::encode`, the graphs of `test_dfs` and `test_graphs`),
* `src/janus/janus_client.cpp` (`JanusClient::insertion_request`, `deletion_request`,
  `search_request`),
* `src/diane/diane_server.cpp` (`DianeServer::search`),
followed by the properties proved about them.

Conventions: `ssize_t`/`size_t` values are integers / naturals with the machine range stated
where it matters; loops that the C++ code does not bound take a fuel argument and return `none`
when the fuel runs out; C++ exceptions are values of `TethysError`.
-/

namespace Tethys

/-! ## Data model -/

/-- Modelled from the spec: `VertexPtr` (declared in the header `tethys.hpp`, not in the sources
at hand) is either one of the sentinels `kSourcePtr`, `kSinkPtr` or a pair `(table, offset)`
with `table ∈ {0, 1}`; `table = false` is table 0 and `table = true` is table 1. -/
inductive VertexPtr where
  | source : VertexPtr
  | sink : VertexPtr
  | node (table : Bool) (index : Nat) : VertexPtr
  deriving DecidableEq, Repr

/-- Modelled from the spec: `EdgePtr` (declared in `tethys.hpp`) is an opaque handle on an entry
of the edge table plus a reciprocal flag; `null` is `kNullEdgePtr`. -/
inductive EdgePtr where
  | null : EdgePtr
  | ptr (index : Nat) (is_reciprocal : Bool) : EdgePtr
  deriving DecidableEq, Repr

/-- Modelled from the spec: `EdgePtr::reciprocal()` flips the direction-of-traversal bit. -/
def EdgePtr.reciprocal : EdgePtr → EdgePtr
  | .null => .null
  | .ptr i r => .ptr i (!r)

/-- Modelled from the spec: `Edge` is `{ value_index, capacity, rec_capacity = 0, start, end }`;
the capacities are `ssize_t`. -/
structure Edge where
  value_index : Nat
  capacity : Int
  rec_capacity : Int
  start : VertexPtr
  end_ : VertexPtr
  deriving DecidableEq, Repr

instance : Inhabited Edge := ⟨⟨0, 0, 0, .source, .source⟩⟩

/-- Modelled from the spec: a `Vertex` stores its outgoing and incoming edge lists and the
mutable `parent_edge` marker used by the path search. -/
structure Vertex where
  out_edges : List EdgePtr
  in_edges : List EdgePtr
  parent_edge : EdgePtr
  deriving DecidableEq, Repr

instance : Inhabited Vertex := ⟨⟨[], [], .null⟩⟩

/-- Graph state `Building → ResidualComputed → MaxFlowComputed`. -/
inductive State where
  | Building | ResidualComputed | MaxFlowComputed
  deriving DecidableEq, Repr

/-- Orientation argument of `add_edge`. -/
inductive EdgeOrientation where
  | ForcedLeft | ForcedRight
  deriving DecidableEq, Repr

/-- The two exceptions thrown by `TethysGraph`. -/
inductive TethysError where
  | invalid_argument | out_of_range
  deriving DecidableEq, Repr

/-- The class `TethysGraph`: `vertices0`/`vertices1` are the two tables `vertices[0]`,
`vertices[1]` of the `VertexVec`, each of `graph_size` vertices. -/
structure TethysGraph where
  graph_size : Nat
  state : State
  edges : List Edge
  source : Vertex
  sink : Vertex
  vertices0 : List Vertex
  vertices1 : List Vertex
  deriving DecidableEq, Repr

/-- Write access to the `n`-th cell of a `std::vector`: replaces `l[n]` by `f l[n]`. -/
def modify_nth {α : Type} (f : α → α) : List α → Nat → List α
  | [], _ => []
  | a :: l, 0 => f a :: l
  | a :: l, n + 1 => a :: modify_nth f l n

/-- `SSIZE_MAX` on a 64-bit platform. -/
def SSIZE_MAX : Int := 2 ^ 63 - 1

/-- Modelled from the spec: the constructor `TethysGraph(graph_size)` (in `tethys.hpp`): two
tables of `graph_size` isolated vertices, no edge, state `Building`. -/
def TethysGraph.mk_empty (graph_size : Nat) : TethysGraph :=
  { graph_size := graph_size, state := .Building, edges := [],
    source := default, sink := default,
    vertices0 := List.replicate graph_size default,
    vertices1 := List.replicate graph_size default }

/-- `TethysGraph::get_vertex`. -/
def get_vertex (g : TethysGraph) (ptr : VertexPtr) : Vertex :=
  match ptr with
  | .sink => g.sink
  | .source => g.source
  | .node false i => g.vertices0.getD i default
  | .node true i => g.vertices1.getD i default

/-- Write access through the reference returned by `get_vertex`: replaces the vertex at `ptr`
by `f` of it. -/
def modify_vertex (g : TethysGraph) (ptr : VertexPtr) (f : Vertex → Vertex) : TethysGraph :=
  match ptr with
  | .sink => { g with sink := f g.sink }
  | .source => { g with source := f g.source }
  | .node false i => { g with vertices0 := modify_nth f g.vertices0 i }
  | .node true i => { g with vertices1 := modify_nth f g.vertices1 i }

/-- Modelled from the spec: `edges[e_ptr]` (`EdgeVec::operator[]`, in `tethys.hpp`): the edge
table stores only forward edges, a handle designates the stored edge whatever its flag. -/
def edge_at (g : TethysGraph) (p : EdgePtr) : Edge :=
  match p with
  | .null => default
  | .ptr i _ => g.edges.getD i default

/-- Modelled from the spec: `EdgeVec::edge_capacity`: a forward handle contributes `capacity`,
a reciprocal handle contributes `rec_capacity`. -/
def edge_capacity (g : TethysGraph) (p : EdgePtr) : Int :=
  match p with
  | .null => 0
  | .ptr i false => (g.edges.getD i default).capacity
  | .ptr i true => (g.edges.getD i default).rec_capacity

/-- Moves `c` units of residual of an edge from `capacity` to `rec_capacity`. -/
def Edge.shift (e : Edge) (c : Int) : Edge :=
  { e with capacity := e.capacity - c, rec_capacity := e.rec_capacity + c }

/-- Moves `c` units of residual of an edge from `rec_capacity` to `capacity`. -/
def Edge.unshift (e : Edge) (c : Int) : Edge :=
  { e with capacity := e.capacity + c, rec_capacity := e.rec_capacity - c }

/-- Modelled from the spec: `EdgeVec::update_capacity`: an augmentation through a handle
decreases the residual in the handle's direction by `c` and increases the opposite one. -/
def update_capacity (g : TethysGraph) (p : EdgePtr) (c : Int) : TethysGraph :=
  match p with
  | .null => g
  | .ptr i false => { g with edges := modify_nth (fun e => e.shift c) g.edges i }
  | .ptr i true => { g with edges := modify_nth (fun e => e.unshift c) g.edges i }

/-! ## Structural operations -/

/-- `EdgeVec::push_back` followed by the two `push_back` on the adjacency lists: appends `e`
to the edge table and its handle to `out_edges` of `e.start` and `in_edges` of `e.end`. -/
def push_edge (g : TethysGraph) (e : Edge) : TethysGraph :=
  let e_ptr := EdgePtr.ptr g.edges.length false
  let g1 := { g with edges := g.edges ++ [e] }
  let g2 := modify_vertex g1 e.start (fun v => { v with out_edges := v.out_edges ++ [e_ptr] })
  modify_vertex g2 e.end_ (fun v => { v with in_edges := v.in_edges ++ [e_ptr] })

/-- `TethysGraph::add_edge`. -/
def add_edge (g : TethysGraph) (value_index : Nat) (cap : Int) (start end_ : Nat)
    (orientation : EdgeOrientation) : Except TethysError TethysGraph :=
  if g.state ≠ .Building then .error .invalid_argument
  else if start ≥ g.graph_size then .error .out_of_range
  else if end_ ≥ g.graph_size then .error .out_of_range
  else
    let e : Edge :=
      match orientation with
      | .ForcedLeft => ⟨value_index, cap, 0, .node true start, .node false end_⟩
      | .ForcedRight => ⟨value_index, cap, 0, .node false start, .node true end_⟩
    .ok (push_edge g e)

/-- `TethysGraph::add_edge_from_source`; `table` is a `uint8_t`. -/
def add_edge_from_source (g : TethysGraph) (value_index : Nat) (cap : Int) (end_ : Nat)
    (table : Nat) : Except TethysError TethysGraph :=
  if g.state ≠ .Building then .error .invalid_argument
  else if end_ ≥ g.graph_size then .error .out_of_range
  else if table > 1 then .error .out_of_range
  else
    let e : Edge :=
      if table = 0 then ⟨value_index, cap, 0, .source, .node false end_⟩
      else ⟨value_index, cap, 0, .source, .node true end_⟩
    .ok (push_edge g e)

/-- `TethysGraph::add_edge_to_sink`; `table` is a `uint8_t`. -/
def add_edge_to_sink (g : TethysGraph) (value_index : Nat) (cap : Int) (start : Nat)
    (table : Nat) : Except TethysError TethysGraph :=
  if g.state ≠ .Building then .error .invalid_argument
  else if start ≥ g.graph_size then .error .out_of_range
  else if table > 1 then .error .out_of_range
  else
    let e : Edge :=
      if table = 0 then ⟨value_index, cap, 0, .node false start, .sink⟩
      else ⟨value_index, cap, 0, .node true start, .sink⟩
    .ok (push_edge g e)

/-! ## Augmenting-path search -/

/-- `TethysGraph::reset_parent_edges` (with `VertexVec::reset_parent_edges`). -/
def reset_parent_edges (g : TethysGraph) : TethysGraph :=
  { g with
    sink := { g.sink with parent_edge := .null }
    source := { g.source with parent_edge := .null }
    vertices0 := g.vertices0.map (fun v => { v with parent_edge := .null })
    vertices1 := g.vertices1.map (fun v => { v with parent_edge := .null }) }

/-- The variables of the search loop of `find_source_sink_path`: the graph (whose `parent_edge`
markers the loop writes), the deque and the early-exit flag. -/
structure SearchState where
  g : TethysGraph
  queue : List VertexPtr
  found_sink : Bool
  deriving DecidableEq, Repr

/-- The loop `for (EdgePtr e_ptr : out_edges)` of `find_source_sink_path`; the `break` ends the
recursion. -/
def scan_out_edges : List EdgePtr → SearchState → SearchState
  | [], s => s
  | e_ptr :: rest, s =>
    let e := edge_at s.g e_ptr
    if e.capacity > 0 then
      let dest_ptr := e.end_
      if (get_vertex s.g dest_ptr).parent_edge = .null ∧ dest_ptr ≠ .source then
        let s1 : SearchState :=
          { g := modify_vertex s.g dest_ptr (fun d => { d with parent_edge := e_ptr }),
            queue := dest_ptr :: s.queue, found_sink := s.found_sink }
        if dest_ptr = .sink then { s1 with found_sink := true }
        else scan_out_edges rest s1
      else scan_out_edges rest s
    else scan_out_edges rest s

/-- The loop `for (EdgePtr e_ptr : in_edges)` of `find_source_sink_path` (the reciprocal
graph). -/
def scan_in_edges : List EdgePtr → SearchState → SearchState
  | [], s => s
  | e_ptr :: rest, s =>
    let e := edge_at s.g e_ptr
    if e.rec_capacity > 0 then
      let dest_ptr := e.start
      if (get_vertex s.g dest_ptr).parent_edge = .null ∧ dest_ptr ≠ .source then
        let s1 : SearchState :=
          { g := modify_vertex s.g dest_ptr
                   (fun d => { d with parent_edge := e_ptr.reciprocal }),
            queue := dest_ptr :: s.queue, found_sink := s.found_sink }
        if dest_ptr = .sink then { s1 with found_sink := true }
        else scan_in_edges rest s1
      else scan_in_edges rest s
    else scan_in_edges rest s

/-- The loop `while (!found_sink)` of `find_source_sink_path`; `none` when the fuel runs out. -/
def search_loop : Nat → SearchState → Option SearchState
  | 0, _ => none
  | fuel + 1, s =>
    if s.found_sink then some s
    else
      match s.queue with
      | [] => some s
      | front :: rest =>
        let s1 := scan_out_edges (get_vertex s.g front).out_edges { s with queue := rest }
        let s2 := scan_in_edges (get_vertex s1.g front).in_edges s1
        search_loop fuel s2

/-- First backtracking loop of `find_source_sink_path`: walks from `cur` along `parent_edge`
and computes the size of the path and its capacity; `none` when the fuel runs out. -/
def path_size_capacity (g : TethysGraph) : Nat → VertexPtr → Int → Nat → Option (Int × Nat)
  | 0, _, _, _ => none
  | fuel + 1, cur, capacity, size =>
    match (get_vertex g cur).parent_edge with
    | .null => some (capacity, size)
    | p =>
      let e := edge_at g p
      path_size_capacity g fuel e.start (min (edge_capacity g p) capacity) (size + 1)

/-- Second backtracking loop of `find_source_sink_path`: writes `path[size - i - 1]`; `none`
when the fuel runs out. -/
def fill_path (g : TethysGraph) (size : Nat) :
    Nat → VertexPtr → Nat → List EdgePtr → Option (List EdgePtr)
  | 0, _, _, _ => none
  | fuel + 1, cur, i, path =>
    match (get_vertex g cur).parent_edge with
    | .null => some path
    | p =>
      let e := edge_at g p
      fill_path g size fuel e.start (i + 1) (path.set (size - i - 1) p)

/-- `TethysGraph::find_source_sink_path`: returns the path, the value written to
`*path_capacity` and the graph with the `parent_edge` markers the search left; `none` when
the fuel runs out in one of the loops. -/
def find_source_sink_path (fuel : Nat) (g : TethysGraph) :
    Option (List EdgePtr × Int × TethysGraph) :=
  match search_loop fuel ⟨reset_parent_edges g, [.source], false⟩ with
  | none => none
  | some s =>
    if s.g.sink.parent_edge ≠ .null then
      match path_size_capacity s.g fuel .sink SSIZE_MAX 0 with
      | none => none
      | some (capacity, size) =>
        match fill_path s.g size fuel .sink 0 (List.replicate size .null) with
        | none => none
        | some path => some (path, capacity, s.g)
    else some ([], 0, s.g)

/-- The loop `while (true)` of `compute_residual_maxflow`; `inner` is the fuel of each path
search, the first argument the number of iterations allowed. -/
def maxflow_loop (inner : Nat) : Nat → TethysGraph → Option TethysGraph
  | 0, _ => none
  | fuel + 1, g =>
    match find_source_sink_path inner g with
    | none => none
    | some (path, path_capacity, g1) =>
      if path.length = 0 then some g1
      else maxflow_loop inner fuel (path.foldl (fun h e_ptr => update_capacity h e_ptr path_capacity) g1)

/-- `TethysGraph::compute_residual_maxflow`; `none` when the fuel runs out. -/
def compute_residual_maxflow (fuel : Nat) (g : TethysGraph) :
    Option (Except TethysError TethysGraph) :=
  if g.state ≠ .Building then some (.error .invalid_argument)
  else
    match maxflow_loop fuel fuel g with
    | none => none
    | some g1 => some (.ok { g1 with state := .ResidualComputed })

/-- `TethysGraph::transform_residual_to_flow`. -/
def transform_residual_to_flow (g : TethysGraph) : Except TethysError TethysGraph :=
  if g.state ≠ .ResidualComputed then .error .invalid_argument
  else
    .ok { g with
          edges := g.edges.map (fun e => { e with capacity := e.rec_capacity, rec_capacity := 0 })
          state := .MaxFlowComputed }

end Tethys

namespace Diana

/-! ## DIANA server -/

/-- `2^64`, the number of values of a `size_t` / `uint64_t`. -/
def SIZE_MOD : Nat := 2 ^ 64

/-- A 32-byte leaf token (`search_token_key_type`), as the number its bytes encode. -/
abbrev search_token_key_type := Nat

/-- A 16-byte update token (`update_token_type`), as the number its bytes encode. -/
abbrev update_token_type := Nat

/-- The index payload `T` (`index_type`), as the number its bytes encode. -/
abbrev index_type := Nat

/-- Modelled from the spec: `xor_mask(masked_index, mask)` (declared in `diana_common.hpp`) is
the byte-wise XOR of the two values. -/
def xor_mask (index mask : index_type) : index_type := index ^^^ mask

/-- Modelled from the spec: the DIANA `SearchRequest` is `{ add_count, constrained_rcprf }`
(declared in `diana/types.hpp`); the constrained RCPRF is an external collaborator known by its
two methods `max_leaf()` and `eval(i)`. The spec gives `add_count` 64 bits; the server handles it
as a 32-bit count (`std::min<uint32_t>(threads_count, req.add_count)`), so the theorems about
`search_parallel` take `add_count < 2^32`. -/
structure SearchRequest where
  add_count : Nat
  max_leaf : Nat
  eval : Nat → search_token_key_type

/-- Modelled from the spec: the DIANA `UpdateRequest` is `{ token, index }`. -/
structure UpdateRequest where
  token : update_token_type
  index : index_type

/-- Modelled from the spec: the encrypted database `sophos::RockDBWrapper` is an external
key-value store known by its contract: `get` returns the value last `put` under the token if it
was not removed since, `put` overwrites, `remove` deletes. -/
abbrev EDB := update_token_type → Option index_type

/-- Contract of `edb_.get`. -/
def EDB.get (edb : EDB) (key : update_token_type) : Option index_type := edb key

/-- Contract of `edb_.put`. -/
def EDB.put (edb : EDB) (key : update_token_type) (value : index_type) : EDB :=
  fun k => if k = key then some value else edb k

/-- Contract of `edb_.remove`. -/
def EDB.remove (edb : EDB) (key : update_token_type) : EDB :=
  fun k => if k = key then none else edb k

/-- The empty database. -/
def EDB.empty : EDB := fun _ => none

/-- The failure of `search_parallel` that is not a C++ exception: the integer division
`req.add_count / threads_count` by zero. -/
inductive DianaError where
  | division_by_zero
  deriving DecidableEq, Repr

/-- The loop header `for (size_t i = lo; i <= hi; i++)`: the values the body sees. A `size_t`
counter cannot exceed `hi = SIZE_MAX`, in which case the loop does not terminate (`none`). -/
def leaf_range (lo hi : Nat) : Option (List Nat) :=
  if hi + 1 ≥ SIZE_MOD then none else some (List.range' lo (hi + 1 - lo))

section Server

/- The leaf derivation `gen_update_token_mask<T>` (declared in `diana_common.hpp`) is an external
hash of the two halves of the leaf: it is a parameter of the server functions. -/
variable (gen_update_token_mask : search_token_key_type → update_token_type × index_type)

/-- `DianaServer::retrieve_entry`: returns `found`, the content of `index` and the database. -/
def retrieve_entry (edb : EDB) (key : update_token_type) (index : index_type)
    (delete_key : Bool) : Bool × index_type × EDB :=
  match edb.get key with
  | some v => (true, v, if delete_key then edb.remove key else edb)
  | none => (false, index, edb)

/-- `DianaServer::get_unmask`: returns `found`, the content of `index` and the database. -/
def get_unmask (edb : EDB) (key : search_token_key_type) (index : index_type)
    (delete_key : Bool) : Bool × index_type × EDB :=
  let (ut, mask) := gen_update_token_mask key
  let (found, index, edb) := retrieve_entry edb ut index delete_key
  if found then (true, xor_mask index mask, edb) else (false, index, edb)

/-- Body of the per-leaf loop of `search` and of the `job` of `search_parallel`: the state is
the list of indices passed to the callback so far and the database. -/
def leaf_step (req : SearchRequest) (delete_results : Bool)
    (st : List index_type × EDB) (i : Nat) : List index_type × EDB :=
  let r := get_unmask gen_update_token_mask st.2 (req.eval i) 0 delete_results
  if r.1 then (st.1 ++ [r.2.1], r.2.2) else (st.1, r.2.2)

/-- `DianaServer::search` (callback version): the indices passed to `post_callback`, in
order, and the database after the search; `none` when the loop does not terminate. -/
def search (req : SearchRequest) (delete_results : Bool) (edb : EDB) :
    Option (List index_type × EDB) :=
  match leaf_range 0 req.max_leaf with
  | none => none
  | some leaves => some (leaves.foldl (leaf_step gen_update_token_mask req delete_results) ([], edb))

/-- The clamp `std::min<uint8_t>(std::min<uint32_t>(threads_count, req.add_count), 0xFF)`: each
`std::min<U>` converts its two arguments to `U` first. -/
def clamp_threads (threads_count add_count : Nat) : Nat :=
  let m32 := min (threads_count % 2 ^ 32) (add_count % 2 ^ 32)
  min (m32 % 2 ^ 8) (0xFF % 2 ^ 8)

/-- One iteration of the loop `for (uint8_t t = 0; t < threads_count; t++)` of
`search_parallel`: the state is `(min, max, arguments of the jobs started so far)`; a job gets
`(t, min, std::min<size_t>(max, add_count) - 1)`. -/
def spawn_step (add_count step remaining : Nat) (st : Nat × Nat × List (Nat × Nat × Nat))
    (t : Nat) : Nat × Nat × List (Nat × Nat × Nat) :=
  let mx := if t < remaining then (st.2.1 + 1) % SIZE_MOD else st.2.1
  let max_index := (min mx add_count + SIZE_MOD - 1) % SIZE_MOD
  (mx, (mx + step) % SIZE_MOD, st.2.2 ++ [(t, st.1, max_index)])

/-- The arguments `(t_id, min_index, max_index)` of the jobs `search_parallel` starts, in the
order of their start, for the clamped `threads_count`. -/
def thread_ranges (add_count threads_count : Nat) : List (Nat × Nat × Nat) :=
  let step := add_count / threads_count
  let remaining := add_count % threads_count
  ((List.range threads_count).foldl (spawn_step add_count step remaining) (0, step, [])).2.2

/-- The lambda `job` of `search_parallel`: the indices it passes to `post_callback` with its
`t_id`, in order, and the database; `none` when its loop does not terminate. -/
def job (req : SearchRequest) (delete_results : Bool) (edb : EDB) (min_index max_index : Nat) :
    Option (List index_type × EDB) :=
  match leaf_range min_index max_index with
  | none => none
  | some leaves => some (leaves.foldl (leaf_step gen_update_token_mask req delete_results) ([], edb))

/-- Runs the jobs one after the other, in the order of their start: one of the schedules of the
threads. The result lists the indices each `t_id` passed to the callback. -/
def run_jobs (req : SearchRequest) (delete_results : Bool) :
    List (Nat × Nat × Nat) → EDB → Option (List (Nat × List index_type) × EDB)
  | [], edb => some ([], edb)
  | (t, lo, hi) :: rest, edb =>
    match job gen_update_token_mask req delete_results edb lo hi with
    | none => none
    | some (out, edb1) =>
      match run_jobs req delete_results rest edb1 with
      | none => none
      | some (outs, edb2) => some ((t, out) :: outs, edb2)

/-- `DianaServer::search_parallel` (version with the callback `(index, thread_id)`): for each
thread the indices it passed to the callback, and the database; `none` when a job does not
terminate, `division_by_zero` when the clamped `threads_count` is `0`. The
`assert(threads_count > 0)` is a precondition on the argument and is not part of the result. -/
def search_parallel (req : SearchRequest) (threads_count : Nat) (delete_results : Bool)
    (edb : EDB) : Option (Except DianaError (List (Nat × List index_type) × EDB)) :=
  if req.add_count = 0 then some (.ok ([], edb))
  else
    let threads_count := clamp_threads threads_count req.add_count
    if threads_count = 0 then some (.error .division_by_zero)
    else
      match run_jobs gen_update_token_mask req delete_results
          (thread_ranges req.add_count threads_count) edb with
      | none => none
      | some r => some (.ok r)

/-- `DianaServer::insert`. -/
def insert (edb : EDB) (req : UpdateRequest) : EDB := edb.put req.token req.index

end Server

end Diana

namespace Encoder

/-! ## `ValueEncoder` of `test/debug_tethys.cpp` -/

/-- The memory behind `uint8_t* buffer`: the byte at each offset. -/
abbrev Buffer := Nat → Nat

/-- `std::copy(src, src + n, buffer + offset)` of the `n` bytes of an object whose bytes are
`src`. -/
def copy_bytes (src : List Nat) (n : Nat) (buffer : Buffer) (offset : Nat) : Buffer :=
  fun a => if offset ≤ a ∧ a < offset + n then src.getD (a - offset) 0 else buffer a

/-- `std::fill(buffer + first, buffer + last, v)`. -/
def fill_bytes (buffer : Buffer) (first last v : Nat) : Buffer :=
  fun a => if first ≤ a ∧ a < last then v else buffer a

/-- The object representation of a `size_t` (little-endian, 8 bytes). -/
def size_t_bytes (n : Nat) : List Nat := (List.range 8).map (fun k => n / 256 ^ k % 256)

/-- Subtraction of `size_t` values. -/
def size_sub (a b : Nat) : Nat := (a + 2 ^ 64 - b % 2 ^ 64) % 2 ^ 64

/-- Modelled from the spec: `edge_orientation` of `TethysAssignmentInfo` (declared in
`tethys_store.hpp`): incoming or outgoing at the bucket. -/
inductive EdgeOrientation where
  | IncomingEdge | OutgoingEdge
  deriving DecidableEq, Repr

/-- Modelled from the spec: `TethysAssignmentInfo` (declared in `tethys_store.hpp`), with the
fields `encode` reads. -/
structure TethysAssignmentInfo where
  list_length : Nat
  assigned_list_length : Nat
  dual_assigned_list_length : Nat
  edge_orientation : EdgeOrientation
  deriving DecidableEq, Repr

/-- The sizes the template `ValueEncoder<Key, T>` depends on: `sizeof(Key)`, `sizeof(T)`,
`sizeof(TethysAssignmentInfo::list_length)` and `sizeof(infos.assigned_list_length)`. -/
structure Sizes where
  sizeof_Key : Nat
  sizeof_T : Nat
  sizeof_list_length : Nat
  sizeof_assigned : Nat
  deriving DecidableEq, Repr

/-- `ValueEncoder::kAdditionalKeyEntriesNumber`. -/
def kAdditionalKeyEntriesNumber (z : Sizes) : Nat :=
  z.sizeof_Key / z.sizeof_T + (if z.sizeof_Key % z.sizeof_T = 0 then 0 else 1)

/-- `ValueEncoder::kListLengthEntriesNumber`. -/
def kListLengthEntriesNumber (z : Sizes) : Nat :=
  z.sizeof_list_length / z.sizeof_T + (if z.sizeof_list_length % z.sizeof_T = 0 then 0 else 1)

/-- `ValueEncoder::kControlBlockSizeEntries`. -/
def kControlBlockSizeEntries (z : Sizes) : Nat :=
  2 * (kAdditionalKeyEntriesNumber z + kListLengthEntriesNumber z)

/-- The computation of `encoded_list_size` in `encode` (reached when
`assigned_list_length >= K_e + L_e`). -/
def encoded_list_size (z : Sizes) (infos : TethysAssignmentInfo) : Nat :=
  let h := kAdditionalKeyEntriesNumber z + kListLengthEntriesNumber z
  let n := size_sub infos.assigned_list_length h
  if infos.dual_assigned_list_length < h then
    size_sub n (size_sub h infos.dual_assigned_list_length)
  else n

/-- The computation of `encoded_list_offset` in `encode`. -/
def encoded_list_offset (z : Sizes) (infos : TethysAssignmentInfo) : Nat :=
  let h := kAdditionalKeyEntriesNumber z + kListLengthEntriesNumber z
  if infos.edge_orientation = .IncomingEdge then
    if infos.dual_assigned_list_length < h then 0
    else size_sub infos.dual_assigned_list_length h
  else 0

/-- One iteration of the loop `for (auto it = it_start; it != it_start + encoded_list_size; ++it)`
of `encode`: the state is the buffer and `offset`; `values` holds the bytes of each value. -/
def copy_value (z : Sizes) (values : List (List Nat)) (it_start : Nat) (st : Buffer × Nat)
    (j : Nat) : Buffer × Nat :=
  (copy_bytes (values.getD (it_start + j) []) z.sizeof_T st.1 st.2, st.2 + z.sizeof_T)

/-- `ValueEncoder::encode`: the buffer after the call and the value returned; `key` holds the
bytes of the key and `values` the bytes of each value. -/
def encode (z : Sizes) (buffer : Buffer) (key : List Nat) (values : List (List Nat))
    (infos : TethysAssignmentInfo) : Buffer × Nat :=
  let h := kAdditionalKeyEntriesNumber z + kListLengthEntriesNumber z
  if infos.assigned_list_length < h then (buffer, 0)
  else
    let size := encoded_list_size z infos
    let it_start := encoded_list_offset z infos
    let offset := 0
    let b1 := copy_bytes key z.sizeof_Key buffer offset
    let offset := offset + z.sizeof_Key
    let b2 := fill_bytes b1 offset (kAdditionalKeyEntriesNumber z * z.sizeof_T) 0x11
    let offset := kAdditionalKeyEntriesNumber z * z.sizeof_T
    let b3 := copy_bytes (size_t_bytes size) z.sizeof_assigned b2 offset
    let offset := offset + z.sizeof_assigned
    let b4 := fill_bytes b3 offset (kControlBlockSizeEntries z * z.sizeof_T) 0x22
    let offset := h * z.sizeof_T
    (List.range size).foldl (copy_value z values it_start) (b4, offset)

end Encoder

namespace Janus

/-! ## JANUS client (`src/janus/janus_client.cpp`) -/

/-- The type `index_type` of `janus/types.hpp`: a `uint64_t`. -/
abbrev index_type := Nat

/-- The external collaborators of `JanusClient`, taken as parameters: `hex_string` of an index,
the puncturable encryption `crypto::PuncturableEncryption` built from a key (`encrypt`,
`inc_puncture`), and the methods `update_request` and `get_match_count` of the two DIANA clients,
whose state has type `S`. Keys, tags, ciphertexts and key shares are the numbers their bytes
encode. -/
structure Collaborators (S : Type) where
  hex_string : index_type → String
  encrypt : Nat → index_type → Nat → Nat
  inc_puncture : Nat → Nat → Nat → Nat
  insertion_update_request : S → String → Nat → Diana.UpdateRequest × S
  deletion_update_request : S → String → Nat → Diana.UpdateRequest × S
  get_match_count : S → String → Nat

/-- The members of `JanusClient` the requests read: the two PRFs `tag_prf_` and
`punct_enc_master_prf_` (keyed functions of a string) and the two DIANA clients. -/
structure JanusClient (S : Type) where
  tag_prf_ : String → Nat
  punct_enc_master_prf_ : String → Nat
  insertion_client_ : S
  deletion_client_ : S

/-- The function `keyword_doc_string`. -/
def keyword_doc_string (hex_string : index_type → String) (kw : String) (ind : index_type) :
    String :=
  hex_string ind ++ "||" ++ kw

/-- `JanusClient::insertion_request`: the request returned and the client after the call. -/
def insertion_request {S : Type} (x : Collaborators S) (c : JanusClient S) (keyword : String)
    (index : index_type) : Diana.UpdateRequest × JanusClient S :=
  let punct_encryption := c.punct_enc_master_prf_ keyword
  let tag := c.tag_prf_ (keyword_doc_string x.hex_string keyword index)
  let ct := x.encrypt punct_encryption index tag
  let r := x.insertion_update_request c.insertion_client_ keyword ct
  (r.1, { c with insertion_client_ := r.2 })

/-- `JanusClient::deletion_request`: the request returned and the client after the call; `n_del`
is a `uint32_t`. -/
def deletion_request {S : Type} (x : Collaborators S) (c : JanusClient S) (keyword : String)
    (index : index_type) : Diana.UpdateRequest × JanusClient S :=
  let punct_encryption := c.punct_enc_master_prf_ keyword
  let n_del := x.get_match_count c.deletion_client_ keyword % 2 ^ 32
  let tag := c.tag_prf_ (keyword_doc_string x.hex_string keyword index)
  let ks := x.inc_puncture punct_encryption ((n_del + 1) % 2 ^ 32) tag
  let r := x.deletion_update_request c.deletion_client_ keyword ks
  (r.1, { c with deletion_client_ := r.2 })

end Janus

namespace Diana

/-! ## DIANA server: the list and vector versions of `search_parallel` -/

section Variants

variable (gen_update_token_mask : search_token_key_type → update_token_type × index_type)

/-- The content of `result_lists[t]` after the search: the indices the callback
`result_lists[thread_id].push_back(i)` received with `thread_id = t`. -/
def result_list (outs : List (Nat × List index_type)) (t : Nat) : List index_type :=
  ((outs.filter (fun o => decide (o.1 = t))).map Prod.snd).flatten

/-- `DianaServer::search_parallel` (version returning a `std::list`): one list per thread,
spliced in the order `0, ..., threads_count - 1`. -/
def search_parallel_list (req : SearchRequest) (threads_count : Nat) (delete_results : Bool)
    (edb : EDB) : Option (Except DianaError (List index_type × EDB)) :=
  match search_parallel gen_update_token_mask req threads_count delete_results edb with
  | none => none
  | some (.error e) => some (.error e)
  | some (.ok (outs, edb1)) =>
    some (.ok (((List.range threads_count).map (result_list outs)).flatten, edb1))

/-- The callback `results[r_index++] = i` of the vector version: the state is the vector and
the atomic counter `r_index` (a `uint64_t`). -/
def sink_step (st : List index_type × Nat) (i : index_type) : List index_type × Nat :=
  (st.1.set st.2 i, (st.2 + 1) % 2 ^ 64)

/-- The `results.resize(req.add_count)` made when `results.size() < req.add_count`: the new
elements are value-initialised. -/
def resize_results (results : List index_type) (add_count : Nat) : List index_type :=
  if results.length < add_count then
    results ++ List.replicate (add_count - results.length) 0
  else results

/-- `DianaServer::search_parallel` (version writing into `std::vector<index_type>& results`):
the vector and the database after the call; the callback receives the indices of the workers in
the order in which `run_jobs` runs them. -/
def search_parallel_vector (req : SearchRequest) (threads_count : Nat)
    (results : List index_type) (delete_results : Bool) (edb : EDB) :
    Option (Except DianaError (List index_type × EDB)) :=
  let results := resize_results results req.add_count
  match search_parallel gen_update_token_mask req threads_count delete_results edb with
  | none => none
  | some (.error e) => some (.error e)
  | some (.ok (outs, edb1)) =>
    some (.ok (((outs.map Prod.snd).flatten.foldl sink_step (results, 0)).1, edb1))

end Variants

end Diana

namespace Janus

/-! ## JANUS client: `search_request` -/

/-- `janus::SearchRequest` of `janus/types.hpp`; the token and the key share are the numbers
their bytes encode. -/
structure SearchRequest where
  keyword_token : Nat
  insertion_search_request : Diana.SearchRequest
  deletion_search_request : Diana.SearchRequest
  first_key_share : Nat

/-- The external collaborators of `JanusClient::search_request`, taken as parameters:
`search_request` of the insertion client, `search_request(keyword, log_not_found)` of the
deletion client, and `initial_keyshare` of the puncturable encryption built from a key. -/
structure SearchCollaborators (S : Type) where
  insertion_search_request : S → String → Diana.SearchRequest
  deletion_search_request : S → String → Bool → Diana.SearchRequest
  initial_keyshare : Nat → Nat → Nat

/-- `JanusClient::search_request`: the request returned and whether the error line
"was inserted ... times and deleted ... times" was logged. The function never writes
`req.keyword_token`: `keyword_token` is the content the declaration `SearchRequest req;` left
in that field. -/
def search_request {S : Type} (x : SearchCollaborators S) (c : JanusClient S)
    (keyword : String) (keyword_token : Nat) : SearchRequest × Bool :=
  let insertion_search_request := x.insertion_search_request c.insertion_client_ keyword
  let deletion_search_request := x.deletion_search_request c.deletion_client_ keyword false
  let punct_encryption := c.punct_enc_master_prf_ keyword
  let first_key_share := x.initial_keyshare punct_encryption deletion_search_request.add_count
  let logged := decide (insertion_search_request.add_count < deletion_search_request.add_count)
  (⟨keyword_token, insertion_search_request, deletion_search_request, first_key_share⟩, logged)

end Janus

namespace Diane

/-! ## DIANE server (`src/diane/diane_server.cpp`) -/

/-- A node of the token tree (`TokenTree::token_type`), as the number its bytes encode. -/
abbrev token_type := Nat

/-- The fields of the DIANE `SearchRequest` that `DianeServer::search` reads: `kw_token`,
`add_count` and `token_list`, whose entries are pairs of a node and its depth (a `uint8_t`). -/
structure SearchRequest where
  kw_token : Nat
  token_list : List (token_type × Nat)
  add_count : Nat

/-- The failure of `DianeServer::search` that is not a C++ exception: a shift of an `int` by at
least its width, which is undefined. -/
inductive DianeError where
  | undefined_shift
  deriving DecidableEq, Repr

/-- The C++ expression `1 << d` for a `uint8_t` `d`: both operands are promoted to `int` (32
bits). Below 31 the value is `2^d`; at 31 it is the `int` congruent to `2^31`, that is `-2^31`;
from 32 on the shift is undefined (`none`). -/
def shl_one_int (d : Nat) : Option Int :=
  if d < 31 then some (2 ^ d)
  else if d = 31 then some (-(2 ^ 31))
  else none

/-- The local `uint64_t count = 1 << it_token->second` of `DianeServer::search`: the `int` is
converted to `uint64_t`. -/
def count (depth : Nat) : Option Nat :=
  (shl_one_int depth).map (fun v => (v % 2 ^ 64).toNat)

section Server

/- `TokenTree::derive_node(node, i, depth)` and the two `crypto::BlockHash::hash` calls on the
halves of a leaf (update token and mask) are external: they are parameters of the server
functions. -/
variable (derive_node : token_type → Nat → Nat → token_type)
variable (hash_token : token_type → Diana.update_token_type)
variable (hash_mask : token_type → Diana.index_type)

/-- Body of the loop `for (uint64_t i = 0; i < count; i++)` of `DianeServer::search`: the state
is the list of indices passed to the callback and the list of update tokens passed to
`edb_.get`, in order. -/
def leaf_step (edb : Diana.EDB) (node : token_type) (depth : Nat)
    (st : List Diana.index_type × List Diana.update_token_type) (i : Nat) :
    List Diana.index_type × List Diana.update_token_type :=
  let t := derive_node node i depth
  let ut := hash_token t
  let mask := hash_mask t
  match edb.get ut with
  | some r => (st.1 ++ [Diana.xor_mask r mask], st.2 ++ [ut])
  | none => (st.1, st.2 ++ [ut])

/-- The loop over `req.token_list` of `DianeServer::search`. -/
def search_tokens (edb : Diana.EDB) :
    List (token_type × Nat) → List Diana.index_type × List Diana.update_token_type →
      Except DianeError (List Diana.index_type × List Diana.update_token_type)
  | [], st => .ok st
  | (node, depth) :: rest, st =>
    match count depth with
    | none => .error .undefined_shift
    | some c =>
      search_tokens edb rest
        ((List.range c).foldl (leaf_step derive_node hash_token hash_mask edb node depth) st)

/-- `DianeServer::search` (callback version): the indices passed to `post_callback` and the
update tokens looked up in the store, in order. -/
def search (req : SearchRequest) (edb : Diana.EDB) :
    Except DianeError (List Diana.index_type × List Diana.update_token_type) :=
  search_tokens derive_node hash_token hash_mask edb req.token_list ([], [])

end Server

end Diane

namespace Tethys

/-! ## Notions used to state the properties of the graph -/

/-- The `parent_edge` marker of the vertex at `v`. -/
def parent (g : TethysGraph) (v : VertexPtr) : EdgePtr := (get_vertex g v).parent_edge

/-- A vertex pointer designates a vertex of the graph: a sentinel or an offset inside its
table. -/
def ValidV (g : TethysGraph) : VertexPtr → Prop
  | .source => True
  | .sink => True
  | .node false i => i < g.vertices0.length
  | .node true i => i < g.vertices1.length

/-- A handle designates an entry of the edge table. -/
def ValidPtr (g : TethysGraph) : EdgePtr → Prop
  | .null => False
  | .ptr i _ => i < g.edges.length

/-- The vertex a handle leaves when it is traversed: a forward handle is traversed from `start`
to `end`, a reciprocal handle from `end` to `start`. -/
def handle_src (g : TethysGraph) : EdgePtr → VertexPtr
  | .null => .source
  | .ptr i false => (g.edges.getD i default).start
  | .ptr i true => (g.edges.getD i default).end_

/-- The vertex a handle enters when it is traversed. -/
def handle_dst (g : TethysGraph) : EdgePtr → VertexPtr
  | .null => .source
  | .ptr i false => (g.edges.getD i default).end_
  | .ptr i true => (g.edges.getD i default).start

/-- One move in the residual graph: along an out-edge of `v` with `capacity > 0`, or backwards
along an in-edge of `v` with `rec_capacity > 0`. -/
def Step (g : TethysGraph) (v w : VertexPtr) : Prop :=
  (∃ p ∈ (get_vertex g v).out_edges, (edge_at g p).capacity > 0 ∧ (edge_at g p).end_ = w)
  ∨ (∃ p ∈ (get_vertex g v).in_edges, (edge_at g p).rec_capacity > 0 ∧ (edge_at g p).start = w)

/-- There is a path from `v` to `w` in the residual graph. -/
def Reach (g : TethysGraph) (v w : VertexPtr) : Prop := Relation.ReflTransGen (Step g) v w

/-- The handles `path` form a walk from `a` to `b`: each designates an edge, leaves the vertex
where the previous one arrived (the first leaves `a`) and the last arrives at `b`. -/
def IsWalk (g : TethysGraph) : List EdgePtr → VertexPtr → VertexPtr → Prop
  | [], a, b => a = b
  | p :: rest, a, b => ValidPtr g p ∧ handle_src g p = a ∧ IsWalk g rest (handle_dst g p) b

/-- The structural invariant of a graph: the tables have `graph_size` vertices, the endpoints of
the edges are vertices, no edge enters the source or leaves the sink, and the adjacency lists of a
vertex hold the forward handles of the edges that leave it, respectively enter it, in the order
of the edge table. -/
structure WellFormed (g : TethysGraph) : Prop where
  len0 : g.vertices0.length = g.graph_size
  len1 : g.vertices1.length = g.graph_size
  edge_valid : ∀ e ∈ g.edges, ValidV g e.start ∧ ValidV g e.end_
  no_in_source : ∀ e ∈ g.edges, e.end_ ≠ .source
  no_out_sink : ∀ e ∈ g.edges, e.start ≠ .sink
  out_edges : ∀ v, ValidV g v → (get_vertex g v).out_edges
    = ((List.range g.edges.length).filter
        (fun i => decide ((g.edges.getD i default).start = v))).map (fun i => EdgePtr.ptr i false)
  in_edges : ∀ v, ValidV g v → (get_vertex g v).in_edges
    = ((List.range g.edges.length).filter
        (fun i => decide ((g.edges.getD i default).end_ = v))).map (fun i => EdgePtr.ptr i false)

/-- A value fits in `ssize_t`. -/
def InSsize (c : Int) : Prop := -(2 : Int) ^ 63 ≤ c ∧ c ≤ SSIZE_MAX

/-- The graphs in state `Building` a program can have: obtained from the constructor by calls of
`add_edge`, `add_edge_from_source` and `add_edge_to_sink` that return. -/
inductive Built : TethysGraph → Prop
  | empty (graph_size : Nat) : Built (TethysGraph.mk_empty graph_size)
  | edge {g g1 : TethysGraph} (value_index : Nat) (cap : Int) (start end_ : Nat)
      (orientation : EdgeOrientation) :
      Built g → InSsize cap → add_edge g value_index cap start end_ orientation = .ok g1 →
      Built g1
  | from_source {g g1 : TethysGraph} (value_index : Nat) (cap : Int) (end_ : Nat) (table : Nat) :
      Built g → InSsize cap → add_edge_from_source g value_index cap end_ table = .ok g1 →
      Built g1
  | to_sink {g g1 : TethysGraph} (value_index : Nat) (cap : Int) (start : Nat) (table : Nat) :
      Built g → InSsize cap → add_edge_to_sink g value_index cap start table = .ok g1 →
      Built g1

/-- All capacities of the edge table are non-negative. -/
def NonNegCapacities (g : TethysGraph) : Prop := ∀ e ∈ g.edges, 0 ≤ e.capacity

/-- The residuals of the edge table fit in `ssize_t`. -/
def ResidualsInRange (g : TethysGraph) : Prop :=
  ∀ e ∈ g.edges, e.capacity ≤ SSIZE_MAX ∧ e.rec_capacity ≤ SSIZE_MAX

/-- Graph `g` differs from `g0` by the `parent_edge` markers (and the state) only. -/
structure SameStructure (g0 g : TethysGraph) : Prop where
  edges : g.edges = g0.edges
  graph_size : g.graph_size = g0.graph_size
  len0 : g.vertices0.length = g0.vertices0.length
  len1 : g.vertices1.length = g0.vertices1.length
  out_edges : ∀ v, (get_vertex g v).out_edges = (get_vertex g0 v).out_edges
  in_edges : ∀ v, (get_vertex g v).in_edges = (get_vertex g0 v).in_edges

/-- Graph `g` differs from `g0` by the residuals `capacity` / `rec_capacity`, the markers and the
state only:
same vertices, same adjacency lists, same edges between the same endpoints. -/
structure SameTopology (g0 g : TethysGraph) : Prop where
  graph_size : g.graph_size = g0.graph_size
  len0 : g.vertices0.length = g0.vertices0.length
  len1 : g.vertices1.length = g0.vertices1.length
  out_edges : ∀ v, (get_vertex g v).out_edges = (get_vertex g0 v).out_edges
  in_edges : ∀ v, (get_vertex g v).in_edges = (get_vertex g0 v).in_edges
  length : g.edges.length = g0.edges.length
  start : ∀ i, (g.edges.getD i default).start = (g0.edges.getD i default).start
  end_ : ∀ i, (g.edges.getD i default).end_ = (g0.edges.getD i default).end_
  value_index : ∀ i, (g.edges.getD i default).value_index = (g0.edges.getD i default).value_index

/-- The search has reached `v`: it is the source or its marker is set. -/
def Reached (g : TethysGraph) (v : VertexPtr) : Prop := v = .source ∨ parent g v ≠ .null

/-- The loops over `out_edges` and `in_edges` of `find_source_sink_path` seen as one loop over the
handles traversed from the current vertex (forward handles for `out_edges`, reciprocal handles
for `in_edges`). -/
def scan_handles : List EdgePtr → SearchState → SearchState
  | [], s => s
  | h :: rest, s =>
    if edge_capacity s.g h > 0 then
      let dest_ptr := handle_dst s.g h
      if (get_vertex s.g dest_ptr).parent_edge = .null ∧ dest_ptr ≠ .source then
        let s1 : SearchState :=
          { g := modify_vertex s.g dest_ptr (fun d => { d with parent_edge := h }),
            queue := dest_ptr :: s.queue, found_sink := s.found_sink }
        if dest_ptr = .sink then { s1 with found_sink := true }
        else scan_handles rest s1
      else scan_handles rest s
    else scan_handles rest s

/-- What a set marker `p` of the vertex `v` records during the search on `g0`: `p` designates an
edge, is traversed towards `v`, has a positive residual, and leaves a vertex the search has
reached. -/
def ParentOK (g0 g : TethysGraph) (v : VertexPtr) (p : EdgePtr) : Prop :=
  ValidPtr g0 p ∧ handle_dst g0 p = v ∧ 0 < edge_capacity g0 p ∧ Reached g (handle_src g0 p)

/-- Invariant of the search loop of `find_source_sink_path` started on `g0`. -/
structure SearchInv (g0 : TethysGraph) (s : SearchState) : Prop where
  same : SameStructure g0 s.g
  source_null : parent s.g .source = .null
  parent_ok : ∀ v, parent s.g v ≠ .null → ParentOK g0 s.g v (parent s.g v)
  queue_ok : ∀ v ∈ s.queue, ValidV g0 v ∧ Reached s.g v
  found_iff : s.found_sink = true ↔ parent s.g .sink ≠ .null
  reach : ∀ v, Reached s.g v → Reach g0 .source v

/-- The handles the search traverses from `v`: the handles of `out_edges` and the reciprocals of
the handles of `in_edges`. -/
def handles_from (g : TethysGraph) (v : VertexPtr) : List EdgePtr :=
  (get_vertex g v).out_edges ++ (get_vertex g v).in_edges.map EdgePtr.reciprocal

/-- Every vertex the search has reached and that has left the queue has all its residual
neighbours reached. -/
def Closed (g0 : TethysGraph) (s : SearchState) : Prop :=
  ∀ u, Reached s.g u → u ∉ s.queue → ∀ w, Step g0 u w → Reached s.g w

/-- The handle is a forward handle. -/
def IsForward : EdgePtr → Prop
  | .ptr _ false => True
  | _ => False

/-- The vertices other than the source. -/
def all_vertices (g : TethysGraph) : List VertexPtr :=
  .sink :: ((List.range g.vertices0.length).map (VertexPtr.node false)
    ++ (List.range g.vertices1.length).map (VertexPtr.node true))

/-- Number of vertices other than the source whose marker is null. -/
def unmarked (g : TethysGraph) : Nat :=
  ((all_vertices g).filter (fun v => decide (parent g v = .null))).length

/-- The walk of the two backtracking loops of `find_source_sink_path`: the markers met from
`cur`, in the order they are met. -/
def parent_chain (g : TethysGraph) : Nat → VertexPtr → Option (List EdgePtr)
  | 0, _ => none
  | fuel + 1, cur =>
    match (get_vertex g cur).parent_edge with
    | .null => some []
    | p =>
      match parent_chain g fuel (edge_at g p).start with
      | none => none
      | some l => some (p :: l)

/-- The writes `path[size - i - 1] = p` of the second backtracking loop for the markers `l` met
from position `i` on. -/
def place_path (size : Nat) : Nat → List EdgePtr → List EdgePtr → List EdgePtr
  | _, [], path => path
  | i, p :: l, path => place_path size (i + 1) l (path.set (size - i - 1) p)

/-- The capacity the first backtracking loop computes from the markers `l`, starting with `c`. -/
def chain_capacity (g : TethysGraph) (l : List EdgePtr) (c : Int) : Int :=
  l.foldl (fun c p => min (edge_capacity g p) c) c

/-- Sum of `f` over the edges selected by `sel`. -/
def edge_sum (g : TethysGraph) (sel : Edge → Bool) (f : Edge → Int) : Int :=
  (g.edges.map (fun e => if sel e then f e else 0)).sum

/-- Facts about the edge a successful structural operation appends. -/
structure GoodEdge (g : TethysGraph) (e : Edge) (cap : Int) : Prop where
  start_valid : ValidV g e.start
  end_valid : ValidV g e.end_
  end_ne_source : e.end_ ≠ .source
  start_ne_sink : e.start ≠ .sink
  capacity : e.capacity = cap
  rec_capacity : e.rec_capacity = 0

/-- The body of the loop `for (EdgePtr e_ptr : path)` of `compute_residual_maxflow`. -/
def augment (g : TethysGraph) (path : List EdgePtr) (c : Int) : TethysGraph :=
  path.foldl (fun h e_ptr => update_capacity h e_ptr c) g

/-- Invariant of the loop of `compute_residual_maxflow` started on `g0`: the graph keeps its
structure, the residuals stay non-negative and share out the original capacity of each edge, and
the flow that leaves the source is the flow that enters the sink. -/
structure FlowInv (g0 g : TethysGraph) : Prop where
  wf : WellFormed g
  topo : SameTopology g0 g
  nonneg : ∀ i, i < g.edges.length →
    0 ≤ (g.edges.getD i default).capacity ∧ 0 ≤ (g.edges.getD i default).rec_capacity
  conserve : ∀ i, i < g.edges.length →
    (g.edges.getD i default).capacity + (g.edges.getD i default).rec_capacity
      = (g0.edges.getD i default).capacity
  balance : edge_sum g (fun e => decide (e.start = .source)) Edge.rec_capacity
    = edge_sum g (fun e => decide (e.end_ = .sink)) Edge.rec_capacity

/-- Sum of `f` over the edges designated by a list of handles. -/
def handle_sum (g : TethysGraph) (hs : List EdgePtr) (f : Edge → Int) : Int :=
  (hs.map (fun p => f (edge_at g p))).sum

/-- The graph `compute_residual_maxflow` leaves when it returns normally (`g` otherwise). -/
def residual_graph (fuel : Nat) (g : TethysGraph) : TethysGraph :=
  match compute_residual_maxflow fuel g with
  | some (.ok g1) => g1
  | _ => g

/-- The graph `find_source_sink_path` leaves when it returns (`g` otherwise). -/
def searched_graph (fuel : Nat) (g : TethysGraph) : TethysGraph :=
  match find_source_sink_path fuel g with
  | some r => r.2.2
  | none => g

/-- The graph `transform_residual_to_flow` returns after `compute_residual_maxflow` (`g` if one of
them fails). -/
def flow_graph (fuel : Nat) (g : TethysGraph) : TethysGraph :=
  match transform_residual_to_flow (residual_graph fuel g) with
  | .ok g2 => g2
  | .error _ => g

/-- A small graph used to instantiate the theorems: `source → (0, 0)` of capacity 2,
`(0, 0) → (1, 0)` of capacity 1 and `(1, 0) → sink` of capacity 1. -/
def line_graph : TethysGraph :=
  push_edge (push_edge (push_edge (TethysGraph.mk_empty 1)
    ⟨0, 2, 0, .source, .node false 0⟩) ⟨1, 1, 0, .node false 0, .node true 0⟩)
    ⟨2, 1, 0, .node true 0, .sink⟩

end Tethys

namespace Diana

/-! ## Notions used to state the properties of the DIANA server -/

/-- The database after `insert` of the update `{ut_i, xor_mask(x_i, m_i)}` for the leaves
`i = 0, ..., n - 1` of `req`, in this order, where `(ut_i, m_i)` is derived from leaf `i`. -/
def insert_leaves (gen_update_token_mask : search_token_key_type → update_token_type × index_type)
    (req : SearchRequest) (x : Nat → index_type) (n : Nat) (edb : EDB) : EDB :=
  (List.range n).foldl
    (fun db i => insert db ⟨(gen_update_token_mask (req.eval i)).1,
      xor_mask (x i) (gen_update_token_mask (req.eval i)).2⟩) edb

/-- The database the lookup of leaf `i` sees during a search started on `edb`: with
`delete_results` the tokens of the leaves before `i` have been removed. -/
def store_before (gen_update_token_mask : search_token_key_type → update_token_type × index_type)
    (req : SearchRequest) (delete_results : Bool) (edb : EDB) (i : Nat) : EDB :=
  if delete_results then
    (List.range i).foldl (fun db j => db.remove (gen_update_token_mask (req.eval j)).1) edb
  else edb

/-- The first leaf of worker `k` when `add_count` leaves are split between `t` workers, the
first `add_count mod t` of which get one more leaf. -/
def range_start (add_count t k : Nat) : Nat := k * (add_count / t) + min k (add_count % t)

/-- What the lookup of leaf `i` emits when nothing is removed. -/
def lookup (gen_update_token_mask : search_token_key_type → update_token_type × index_type)
    (req : SearchRequest) (edb : EDB) (i : Nat) : Option index_type :=
  (edb (gen_update_token_mask (req.eval i)).1).map
    (fun v => xor_mask v (gen_update_token_mask (req.eval i)).2)

/-- A leaf derivation used to instantiate the theorems: the token is the leaf itself and the
mask is `5`. -/
def sample_gen : search_token_key_type → update_token_type × index_type := fun k => (k, 5)

/-- A request of three leaves used to instantiate the theorems: leaf `i` is `10 + i`. -/
def sample_request : SearchRequest := ⟨3, 2, fun i => 10 + i⟩

/-- A database used to instantiate the theorems: it holds the tokens `10` and `12`. -/
def sample_edb : EDB := (EDB.empty.put 10 7).put 12 9

end Diana

namespace Encoder

/-! ## Notions used to state the properties of the encoder -/

/-- The values found in the value area of a bucket `buffer` for which `encode` returned `ret`:
the entries of `sizeof(T)` bytes from offset `(K_e + L_e) * sizeof(T)` up to `ret`. -/
def written_values (z : Sizes) (buffer : Buffer) (ret : Nat) : List (List Nat) :=
  (List.range (ret / z.sizeof_T - (kAdditionalKeyEntriesNumber z + kListLengthEntriesNumber z))).map
    (fun j => (List.range z.sizeof_T).map
      (fun k => buffer ((kAdditionalKeyEntriesNumber z + kListLengthEntriesNumber z + j)
        * z.sizeof_T + k)))

/-- The sizes of the instance `ValueEncoder<key_type, size_t>` of the test: a key of 16 bytes,
values and lengths of 8 bytes. -/
def sample_sizes : Sizes := ⟨16, 8, 8, 8⟩

/-- A list of two values of 8 bytes used to instantiate the theorems. -/
def sample_values : List (List Nat) := [[1, 2, 3, 4, 5, 6, 7, 8], [9, 10, 11, 12, 13, 14, 15, 16]]

end Encoder

namespace Tethys

/-- The graph object after a call that returned `r`: the graph the call built, or the graph as it
was when the call threw (the exceptions are thrown before any write). -/
def graph_after (g : TethysGraph) (r : Except TethysError TethysGraph) : TethysGraph :=
  match r with
  | .ok g1 => g1
  | .error _ => g

/-- The position of a state in the life cycle `Building`, `ResidualComputed`,
`MaxFlowComputed`. -/
def State.rank : State → Nat
  | .Building => 0
  | .ResidualComputed => 1
  | .MaxFlowComputed => 2

/-- A call of one of the five mutating methods of `TethysGraph`, with its arguments. -/
inductive Call where
  | add_edge (value_index : Nat) (cap : Int) (start end_ : Nat) (orientation : EdgeOrientation)
  | add_edge_from_source (value_index : Nat) (cap : Int) (end_ : Nat) (table : Nat)
  | add_edge_to_sink (value_index : Nat) (cap : Int) (start : Nat) (table : Nat)
  | compute_residual_maxflow
  | transform_residual_to_flow
  deriving DecidableEq, Repr

/-- The result of the call `c` on the graph `g`; `none` when the fuel of
`compute_residual_maxflow` runs out. -/
def run_call (fuel : Nat) (g : TethysGraph) : Call → Option (Except TethysError TethysGraph)
  | .add_edge value_index cap start end_ orientation =>
    some (add_edge g value_index cap start end_ orientation)
  | .add_edge_from_source value_index cap end_ table =>
    some (add_edge_from_source g value_index cap end_ table)
  | .add_edge_to_sink value_index cap start table =>
    some (add_edge_to_sink g value_index cap start table)
  | .compute_residual_maxflow => compute_residual_maxflow fuel g
  | .transform_residual_to_flow => some (transform_residual_to_flow g)

/-- The graph object after a sequence of calls, each exception being caught by the caller;
`none` when the fuel of a `compute_residual_maxflow` runs out. -/
def run_calls (fuel : Nat) : TethysGraph → List Call → Option TethysGraph
  | g, [] => some g
  | g, c :: rest =>
    match run_call fuel g c with
    | none => none
    | some r => run_calls fuel (graph_after g r) rest

/-- The capacities of the edges, in the order of the edge table. -/
def edge_capacities (g : TethysGraph) : List Int :=
  g.edges.map Edge.capacity

/-- The `value_index` of the edges of a path (the `std::transform` of `test_dfs`). -/
def path_value_indices (g : TethysGraph) (path : List EdgePtr) : List Nat :=
  path.map (fun e => (edge_at g e).value_index)

/-- The seven calls of `test_dfs` and `test_graphs` on `TethysGraph graph(6)`, with
`mid_graph = 3`; `c` is the capacity of the source edge (2 in `test_dfs`, 1 in `test_graphs`).
The tests leave out the orientation and table arguments; they are given here so that the vertices
`0, 1, 2` are those of table 0 and the vertices `0 + mid_graph, 1 + mid_graph` those of table 1:
`e0 : source → v0`, `e1 : v0 → v3`, `e2 : v3 → v1`, `e3 : v1 → sink`, `e4 : v3 → v2`,
`e5 : v2 → v4`, `e6 : v4 → sink`. -/
def test_build (c : Int) : Except TethysError TethysGraph := do
  let g ← add_edge_from_source (TethysGraph.mk_empty 6) 0 c 0 0
  let g ← add_edge g 1 c 0 (0 + 3) .ForcedRight
  let g ← add_edge g 2 1 (0 + 3) 1 .ForcedLeft
  let g ← add_edge_to_sink g 3 1 1 0
  let g ← add_edge g 4 1 (0 + 3) 2 .ForcedLeft
  let g ← add_edge g 5 1 2 (1 + 3) .ForcedRight
  add_edge_to_sink g 6 1 (1 + 3) 1

/-- The graph `test_build c` returns. -/
def test_graph (c : Int) : TethysGraph :=
  graph_after (TethysGraph.mk_empty 6) (test_build c)

/-- The seven calls that build `expected_graph` in `test_graphs`, with the same orientation and
table arguments as in `test_build`. -/
def expected_build : Except TethysError TethysGraph := do
  let g ← add_edge_from_source (TethysGraph.mk_empty 6) 0 1 0 0
  let g ← add_edge g 1 1 0 (0 + 3) .ForcedRight
  let g ← add_edge g 2 1 (0 + 3) 1 .ForcedLeft
  let g ← add_edge_to_sink g 3 1 1 0
  let g ← add_edge g 4 0 (0 + 3) 2 .ForcedLeft
  let g ← add_edge g 5 0 2 (1 + 3) .ForcedRight
  add_edge_to_sink g 6 0 (1 + 3) 1

/-- The graph `expected_graph` of `test_graphs`. -/
def expected_graph : TethysGraph :=
  graph_after (TethysGraph.mk_empty 6) expected_build

/-- The graph of `test_dfs`. -/
def test_dfs_graph : TethysGraph := test_graph 2

/-- The graph of `test_graphs`. -/
def test_graphs_graph : TethysGraph := test_graph 1

end Tethys

namespace Diana

/-- A request with `add_count = 0` whose constrained RCPRF has the single leaf 0, evaluated
to `10`. -/
def zero_count_request : SearchRequest := ⟨0, 0, fun i => 10 + i⟩

/-- The request of scenario S1: one leaf, evaluated to `10`; with `sample_gen` its update token
is `10` and its mask is `5`. -/
def s1_request : SearchRequest := ⟨1, 0, fun _ => 10⟩

/-- The update of scenario S1, for the token `10`. -/
def s1_update : UpdateRequest := ⟨10, 0xCAFEBABE00000001⟩

end Diana

namespace Tethys

/-- Graph `g1` has the vertices, the adjacency lists, the edges (in the same order, with the same
`capacity` and `rec_capacity`), the size and the state of `g`; the `parent_edge` markers of the
two graphs are arbitrary. -/
structure SameUpToMarkers (g g1 : TethysGraph) : Prop where
  graph_size : g1.graph_size = g.graph_size
  state : g1.state = g.state
  edges : g1.edges = g.edges
  source_out : g1.source.out_edges = g.source.out_edges
  source_in : g1.source.in_edges = g.source.in_edges
  sink_out : g1.sink.out_edges = g.sink.out_edges
  sink_in : g1.sink.in_edges = g.sink.in_edges
  vertices0 : g1.vertices0.map (fun v => (v.out_edges, v.in_edges))
    = g.vertices0.map (fun v => (v.out_edges, v.in_edges))
  vertices1 : g1.vertices1.map (fun v => (v.out_edges, v.in_edges))
    = g.vertices1.map (fun v => (v.out_edges, v.in_edges))

/-- The flow through the vertex `v` is conserved: the `rec_capacity` of the edges that enter `v`
and of the edges that leave `v` have the same sum. -/
def ConservedAt (g : TethysGraph) (v : VertexPtr) : Prop :=
  edge_sum g (fun e => decide (e.end_ = v)) Edge.rec_capacity
    = edge_sum g (fun e => decide (e.start = v)) Edge.rec_capacity

/-- The endpoints `add_edge` gives to an edge from `start` to `end_`: `start` in table 1 and
`end_` in table 0 for `ForcedLeft`, `start` in table 0 and `end_` in table 1 for
`ForcedRight`. -/
def oriented (start end_ : Nat) : EdgeOrientation → VertexPtr × VertexPtr
  | .ForcedLeft => (.node true start, .node false end_)
  | .ForcedRight => (.node false start, .node true end_)

/-- Seven calls on `TethysGraph graph(2)` that build a graph on which the second augmenting path
goes backwards through an edge: `e0 : source → (0, 0)`, `e1 : source → (0, 1)`,
`e2 : (0, 0) → (1, 0)`, `e3 : (0, 1) → (1, 1)`, `e4 : (0, 1) → (1, 0)`, `e5 : (1, 0) → sink`,
`e6 : (1, 1) → sink`, all of capacity 1 (`(t, i)` is the vertex `i` of table `t`). -/
def crossing_build : Except TethysError TethysGraph := do
  let g ← add_edge_from_source (TethysGraph.mk_empty 2) 0 1 0 0
  let g ← add_edge_from_source g 1 1 1 0
  let g ← add_edge g 2 1 0 0 .ForcedRight
  let g ← add_edge g 3 1 1 1 .ForcedRight
  let g ← add_edge g 4 1 1 0 .ForcedRight
  let g ← add_edge_to_sink g 5 1 0 1
  add_edge_to_sink g 6 1 1 1

/-- The graph `crossing_build` returns. -/
def crossing_graph : TethysGraph :=
  graph_after (TethysGraph.mk_empty 2) crossing_build

/-- The graph `crossing_graph` after the first augmentation of `compute_residual_maxflow`, along
the path `e1, e4, e5`. -/
def crossing_graph_1 : TethysGraph :=
  augment (searched_graph 4 crossing_graph)
    [.ptr 1 false, .ptr 4 false, .ptr 5 false] 1

/-- The state of the search loop of `find_source_sink_path` on `crossing_graph_1` when the loop
ends. -/
def crossing_search : SearchState :=
  match search_loop 6 ⟨reset_parent_edges crossing_graph_1, [.source], false⟩ with
  | some s => s
  | none => ⟨crossing_graph_1, [], false⟩

end Tethys

namespace Janus

/-- The character is a hexadecimal digit. -/
def IsHexDigit (c : Char) : Prop :=
  ('0' ≤ c ∧ c ≤ '9') ∨ ('a' ≤ c ∧ c ≤ 'f') ∨ ('A' ≤ c ∧ c ≤ 'F')

/-- A `hex_string` used to instantiate the theorems: the hexadecimal digits of the index, most
significant first. -/
def sample_hex_string (n : index_type) : String :=
  String.mk ((Nat.digits 16 n).reverse.map Nat.digitChar)

end Janus

namespace Diane

/-- The update tokens `DianeServer::search` looks up for a token-list entry when its loop runs
over the leaves `0, ..., c - 1`. -/
def entry_lookups (derive_node : token_type → Nat → Nat → token_type)
    (hash_token : token_type → Diana.update_token_type) (node : token_type) (depth c : Nat) :
    List Diana.update_token_type :=
  (List.range c).map (fun i => hash_token (derive_node node i depth))

/-- A node derivation used to instantiate the theorems. -/
def sample_derive_node : token_type → Nat → Nat → token_type :=
  fun node i depth => node + 100 * depth + i

end Diane

/-! # Theorems -/

set_option maxRecDepth 100000

namespace Tethys

/-! ## Frame lemmas -/

theorem length_modify_nth {α : Type} (f : α → α) (l : List α) (n : Nat) :
    (modify_nth f l n).length = l.length := by
  induction l generalizing n with
  | nil => rfl
  | cons a l ih =>
    cases n with
    | zero => rfl
    | succ n => simp [modify_nth, ih]

theorem getD_modify_nth_self {α : Type} (f : α → α) (l : List α) (n : Nat) (d : α)
    (h : n < l.length) : (modify_nth f l n).getD n d = f (l.getD n d) := by
  induction l generalizing n with
  | nil => simp at h
  | cons a l ih =>
    cases n with
    | zero => simp [modify_nth]
    | succ n =>
      simp only [modify_nth, List.getD_cons_succ]
      exact ih n (by simpa using h)

theorem getD_modify_nth_ne {α : Type} (f : α → α) (l : List α) (n m : Nat) (d : α)
    (h : m ≠ n) : (modify_nth f l n).getD m d = l.getD m d := by
  induction l generalizing n m with
  | nil => rfl
  | cons a l ih =>
    cases n with
    | zero =>
      cases m with
      | zero => exact absurd rfl h
      | succ m => simp [modify_nth]
    | succ n =>
      cases m with
      | zero => simp [modify_nth]
      | succ m =>
        simp only [modify_nth, List.getD_cons_succ]
        exact ih n m (by omega)

theorem modify_nth_of_le {α : Type} (f : α → α) (l : List α) (n : Nat) (h : l.length ≤ n) :
    modify_nth f l n = l := by
  induction l generalizing n with
  | nil => rfl
  | cons a l ih =>
    cases n with
    | zero => simp at h
    | succ n =>
      simp only [modify_nth]
      rw [ih n (by simpa using h)]

theorem get_vertex_modify_self (g : TethysGraph) (p : VertexPtr) (f : Vertex → Vertex)
    (h : ValidV g p) : get_vertex (modify_vertex g p f) p = f (get_vertex g p) := by
  cases p with
  | source => rfl
  | sink => rfl
  | node b i =>
    cases b
    · exact getD_modify_nth_self f _ i default h
    · exact getD_modify_nth_self f _ i default h

theorem get_vertex_modify_ne (g : TethysGraph) (p q : VertexPtr) (f : Vertex → Vertex)
    (h : q ≠ p) : get_vertex (modify_vertex g p f) q = get_vertex g q := by
  cases p with
  | source => cases q with
    | source => exact absurd rfl h
    | sink => rfl
    | node b i => cases b <;> rfl
  | sink => cases q with
    | source => rfl
    | sink => exact absurd rfl h
    | node b i => cases b <;> rfl
  | node b i =>
    cases q with
    | source => cases b <;> rfl
    | sink => cases b <;> rfl
    | node c j =>
      cases b <;> cases c
      · exact getD_modify_nth_ne f _ i j default (fun e => h (by rw [e]))
      · rfl
      · rfl
      · exact getD_modify_nth_ne f _ i j default (fun e => h (by rw [e]))

theorem modify_vertex_invalid (g : TethysGraph) (p : VertexPtr) (f : Vertex → Vertex)
    (h : ¬ ValidV g p) : modify_vertex g p f = g := by
  cases p with
  | source => exact absurd trivial h
  | sink => exact absurd trivial h
  | node b i =>
    cases b
    · simp only [modify_vertex]
      rw [modify_nth_of_le f _ i (by simpa [ValidV] using h)]
    · simp only [modify_vertex]
      rw [modify_nth_of_le f _ i (by simpa [ValidV] using h)]

theorem modify_vertex_edges (g : TethysGraph) (p : VertexPtr) (f : Vertex → Vertex) :
    (modify_vertex g p f).edges = g.edges ∧ (modify_vertex g p f).graph_size = g.graph_size
      ∧ (modify_vertex g p f).state = g.state
      ∧ (modify_vertex g p f).vertices0.length = g.vertices0.length
      ∧ (modify_vertex g p f).vertices1.length = g.vertices1.length := by
  cases p with
  | source => exact ⟨rfl, rfl, rfl, rfl, rfl⟩
  | sink => exact ⟨rfl, rfl, rfl, rfl, rfl⟩
  | node b i =>
    cases b
    · exact ⟨rfl, rfl, rfl, length_modify_nth _ _ _, rfl⟩
    · exact ⟨rfl, rfl, rfl, rfl, length_modify_nth _ _ _⟩

/-- A property of vertices that `f` keeps is kept at every vertex by `modify_vertex`. -/
theorem get_vertex_modify_keep {β : Type} (g : TethysGraph) (p q : VertexPtr)
    (f : Vertex → Vertex) (proj : Vertex → β) (hf : ∀ d, proj (f d) = proj d) :
    proj (get_vertex (modify_vertex g p f) q) = proj (get_vertex g q) := by
  by_cases hv : ValidV g p
  · by_cases hq : q = p
    · subst hq
      rw [get_vertex_modify_self g q f hv, hf]
    · rw [get_vertex_modify_ne g p q f hq]
  · rw [modify_vertex_invalid g p f hv]

theorem SameStructure.refl (g : TethysGraph) : SameStructure g g :=
  ⟨rfl, rfl, rfl, rfl, fun _ => rfl, fun _ => rfl⟩

theorem SameStructure.trans {g0 g1 g2 : TethysGraph} (h1 : SameStructure g0 g1)
    (h2 : SameStructure g1 g2) : SameStructure g0 g2 :=
  ⟨h2.edges.trans h1.edges, h2.graph_size.trans h1.graph_size,
    h2.len0.trans h1.len0, h2.len1.trans h1.len1,
    fun v => (h2.out_edges v).trans (h1.out_edges v),
    fun v => (h2.in_edges v).trans (h1.in_edges v)⟩

theorem SameStructure.symm {g0 g1 : TethysGraph} (h : SameStructure g0 g1) :
    SameStructure g1 g0 :=
  ⟨h.edges.symm, h.graph_size.symm, h.len0.symm, h.len1.symm,
    fun v => (h.out_edges v).symm, fun v => (h.in_edges v).symm⟩

theorem sameStructure_set_parent (g : TethysGraph) (p : VertexPtr) (h : EdgePtr) :
    SameStructure g (modify_vertex g p (fun d => { d with parent_edge := h })) := by
  obtain ⟨e1, e2, e3, e4, e5⟩ :=
    modify_vertex_edges g p (fun d => { d with parent_edge := h })
  exact ⟨e1, e2, e4, e5,
    fun v => get_vertex_modify_keep g p v _ Vertex.out_edges (fun _ => rfl),
    fun v => get_vertex_modify_keep g p v _ Vertex.in_edges (fun _ => rfl)⟩

theorem getD_map_default {α : Type} (f : α → α) (l : List α) (i : Nat) (d : α)
    (hd : f d = d) : (l.map f).getD i d = f (l.getD i d) := by
  simp only [List.getD_eq_getElem?_getD, List.getElem?_map]
  cases l[i]? <;> simp [hd]

theorem get_vertex_reset (g : TethysGraph) (v : VertexPtr) :
    get_vertex (reset_parent_edges g) v = { get_vertex g v with parent_edge := .null } := by
  cases v with
  | source => rfl
  | sink => rfl
  | node b i =>
    cases b
    · exact getD_map_default (fun v : Vertex => { v with parent_edge := .null }) _ i default rfl
    · exact getD_map_default (fun v : Vertex => { v with parent_edge := .null }) _ i default rfl

theorem sameStructure_reset (g : TethysGraph) : SameStructure g (reset_parent_edges g) :=
  ⟨rfl, rfl, by simp [reset_parent_edges], by simp [reset_parent_edges],
    fun v => by rw [get_vertex_reset], fun v => by rw [get_vertex_reset]⟩

theorem parent_reset (g : TethysGraph) (v : VertexPtr) :
    parent (reset_parent_edges g) v = .null := by
  unfold parent
  rw [get_vertex_reset]

theorem SameStructure.validV {g0 g : TethysGraph} (h : SameStructure g0 g) (v : VertexPtr) :
    ValidV g v ↔ ValidV g0 v := by
  cases v with
  | source => exact Iff.rfl
  | sink => exact Iff.rfl
  | node b i => cases b <;> simp [ValidV, h.len0, h.len1]

theorem SameStructure.edge_at {g0 g : TethysGraph} (h : SameStructure g0 g) (p : EdgePtr) :
    edge_at g p = edge_at g0 p := by
  cases p with
  | null => rfl
  | ptr i r => simp [Tethys.edge_at, h.edges]

theorem SameStructure.edge_capacity {g0 g : TethysGraph} (h : SameStructure g0 g)
    (p : EdgePtr) : edge_capacity g p = edge_capacity g0 p := by
  cases p with
  | null => rfl
  | ptr i r => cases r <;> simp [Tethys.edge_capacity, h.edges]

theorem SameStructure.handle_dst {g0 g : TethysGraph} (h : SameStructure g0 g)
    (p : EdgePtr) : handle_dst g p = handle_dst g0 p := by
  cases p with
  | null => rfl
  | ptr i r => cases r <;> simp [Tethys.handle_dst, h.edges]

theorem SameStructure.handle_src {g0 g : TethysGraph} (h : SameStructure g0 g)
    (p : EdgePtr) : handle_src g p = handle_src g0 p := by
  cases p with
  | null => rfl
  | ptr i r => cases r <;> simp [Tethys.handle_src, h.edges]

theorem SameStructure.validPtr {g0 g : TethysGraph} (h : SameStructure g0 g)
    (p : EdgePtr) : ValidPtr g p ↔ ValidPtr g0 p := by
  cases p with
  | null => exact Iff.rfl
  | ptr i r => simp [ValidPtr, h.edges]

theorem SameStructure.step {g0 g : TethysGraph} (h : SameStructure g0 g) (v w : VertexPtr) :
    Step g v w ↔ Step g0 v w := by
  unfold Step
  simp only [h.out_edges, h.in_edges, h.edge_at]

theorem SameStructure.reach {g0 g : TethysGraph} (h : SameStructure g0 g) (v w : VertexPtr) :
    Reach g v w ↔ Reach g0 v w := by
  have : Step g = Step g0 := by
    funext a b
    exact propext (h.step a b)
  unfold Reach
  rw [this]

theorem SameStructure.isWalk {g0 g : TethysGraph} (h : SameStructure g0 g)
    (path : List EdgePtr) (a b : VertexPtr) : IsWalk g path a b ↔ IsWalk g0 path a b := by
  induction path generalizing a with
  | nil => exact Iff.rfl
  | cons p rest ih =>
    simp only [IsWalk, h.validPtr, h.handle_src, h.handle_dst, ih]

theorem SameStructure.wellFormed {g0 g : TethysGraph} (h : SameStructure g0 g)
    (wf : WellFormed g0) : WellFormed g := by
  refine ⟨h.len0.trans (wf.len0.trans h.graph_size.symm),
    h.len1.trans (wf.len1.trans h.graph_size.symm), ?_, ?_, ?_, ?_, ?_⟩
  · intro e he
    rw [h.edges] at he
    exact ⟨(h.validV _).mpr (wf.edge_valid e he).1, (h.validV _).mpr (wf.edge_valid e he).2⟩
  · intro e he
    rw [h.edges] at he
    exact wf.no_in_source e he
  · intro e he
    rw [h.edges] at he
    exact wf.no_out_sink e he
  · intro v hv
    rw [h.out_edges, h.edges]
    exact wf.out_edges v ((h.validV v).mp hv)
  · intro v hv
    rw [h.in_edges, h.edges]
    exact wf.in_edges v ((h.validV v).mp hv)

end Tethys

namespace Tethys

/-! ## The search loop -/

theorem parent_ne_null_valid (g : TethysGraph) (v : VertexPtr) (h : parent g v ≠ .null) :
    ValidV g v := by
  cases v with
  | source => trivial
  | sink => trivial
  | node b i =>
    cases b
    · by_contra hv
      apply h
      have : g.vertices0.length ≤ i := by simpa [ValidV] using hv
      simp [parent, get_vertex, List.getD_eq_getElem?_getD, List.getElem?_eq_none this]
      rfl
    · by_contra hv
      apply h
      have : g.vertices1.length ≤ i := by simpa [ValidV] using hv
      simp [parent, get_vertex, List.getD_eq_getElem?_getD, List.getElem?_eq_none this]
      rfl

theorem parent_set_self (g : TethysGraph) (d : VertexPtr) (h : EdgePtr) (hv : ValidV g d) :
    parent (modify_vertex g d (fun x => { x with parent_edge := h })) d = h := by
  unfold parent
  rw [get_vertex_modify_self g d _ hv]

theorem parent_set_ne (g : TethysGraph) (d u : VertexPtr) (h : EdgePtr) (hu : u ≠ d) :
    parent (modify_vertex g d (fun x => { x with parent_edge := h })) u = parent g u := by
  unfold parent
  rw [get_vertex_modify_ne g d u _ hu]

theorem getD_mem {α : Type} (l : List α) (i : Nat) (d : α) (h : i < l.length) :
    l.getD i d ∈ l := by
  simp only [List.getD_eq_getElem?_getD, List.getElem?_eq_getElem h, Option.getD_some]
  exact List.getElem_mem h

theorem WellFormed.valid_dst {g : TethysGraph} (wf : WellFormed g) (h : EdgePtr)
    (hv : ValidPtr g h) : ValidV g (handle_dst g h) ∧ ValidV g (handle_src g h) := by
  cases h with
  | null => exact absurd hv id
  | ptr i r =>
    have := wf.edge_valid _ (getD_mem g.edges i default hv)
    cases r
    · exact ⟨this.2, this.1⟩
    · exact ⟨this.1, this.2⟩

theorem filter_length_lt {α : Type} (l : List α) (p q : α → Bool) (d : α) (hd : d ∈ l)
    (hpd : p d = true) (hqd : q d = false) (hqp : ∀ x, q x = true → p x = true) :
    (l.filter q).length + 1 ≤ (l.filter p).length := by
  induction l with
  | nil => simp at hd
  | cons a l ih =>
    have hle : ∀ (l : List α), (l.filter q).length ≤ (l.filter p).length := by
      intro l
      induction l with
      | nil => simp
      | cons b l ihl =>
        simp only [List.filter_cons]
        cases hq : q b
        · simp only [Bool.false_eq_true, if_false]
          split
          · simp; omega
          · exact ihl
        · simp [hqp b hq, ihl]
    simp only [List.filter_cons]
    rcases List.mem_cons.mp hd with h1 | h1
    · subst h1
      simp only [hpd, hqd, if_true, Bool.false_eq_true, if_false, List.length_cons]
      have := hle l
      omega
    · have := ih h1
      cases hq : q a
      · simp only [Bool.false_eq_true, if_false]
        split
        · simp; omega
        · exact this
      · simp [hqp a hq, this]

theorem mem_all_vertices (g : TethysGraph) (v : VertexPtr) (hv : ValidV g v)
    (hs : v ≠ .source) : v ∈ all_vertices g := by
  unfold all_vertices
  cases v with
  | source => exact absurd rfl hs
  | sink => simp
  | node b i =>
    cases b
    · simp only [List.mem_cons, List.mem_append, List.mem_map, List.mem_range]
      right; left
      exact ⟨i, hv, rfl⟩
    · simp only [List.mem_cons, List.mem_append, List.mem_map, List.mem_range]
      right; right
      exact ⟨i, hv, rfl⟩

theorem unmarked_set_parent (g : TethysGraph) (d : VertexPtr) (h : EdgePtr) (hv : ValidV g d)
    (hs : d ≠ .source) (hnull : parent g d = .null) (hh : h ≠ .null) :
    unmarked (modify_vertex g d (fun x => { x with parent_edge := h })) + 1 ≤ unmarked g := by
  unfold unmarked
  have hall : all_vertices (modify_vertex g d (fun x => { x with parent_edge := h }))
      = all_vertices g := by
    unfold all_vertices
    obtain ⟨_, _, _, e4, e5⟩ := modify_vertex_edges g d (fun x => { x with parent_edge := h })
    rw [e4, e5]
  rw [hall]
  apply filter_length_lt _ _ _ d (mem_all_vertices g d hv hs)
  · simpa using hnull
  · simp only [decide_eq_false_iff_not]
    rw [parent_set_self g d h hv]
    exact hh
  · intro x hx
    simp only [decide_eq_true_eq] at hx ⊢
    by_cases hxd : x = d
    · subst hxd; exact hnull
    · rwa [parent_set_ne g d x h hxd] at hx

/-- Effect of marking a new vertex `dest` reached through the handle `h`. -/
theorem mark_spec (g0 : TethysGraph) (wf : WellFormed g0) (s : SearchState) (h : EdgePtr)
    (inv : SearchInv g0 s) (hvalid : ValidPtr g0 h) (hsrc : Reached s.g (handle_src g0 h))
    (hcap : 0 < edge_capacity g0 h) (hstep : Step g0 (handle_src g0 h) (handle_dst g0 h))
    (hnull : parent s.g (handle_dst g0 h) = .null)
    (hns : handle_dst g0 h ≠ .source) (fnd : Bool)
    (hfnd : fnd = if handle_dst g0 h = .sink then true else s.found_sink) :
    SearchInv g0 ⟨modify_vertex s.g (handle_dst g0 h) (fun x => { x with parent_edge := h }),
        handle_dst g0 h :: s.queue, fnd⟩
      ∧ (∀ u, Reached (modify_vertex s.g (handle_dst g0 h)
            (fun x => { x with parent_edge := h })) u ↔ (Reached s.g u ∨ u = handle_dst g0 h))
      ∧ unmarked (modify_vertex s.g (handle_dst g0 h) (fun x => { x with parent_edge := h })) + 1
          ≤ unmarked s.g := by
  have hne : h ≠ .null := by
    intro e; rw [e] at hvalid; exact hvalid
  have hdv0 : ValidV g0 (handle_dst g0 h) := (wf.valid_dst h hvalid).1
  have hdv : ValidV s.g (handle_dst g0 h) := (inv.same.validV _).mpr hdv0
  have hreached : ∀ u, Reached (modify_vertex s.g (handle_dst g0 h)
      (fun x => { x with parent_edge := h })) u ↔ (Reached s.g u ∨ u = handle_dst g0 h) := by
    intro u
    unfold Reached
    by_cases hu : u = handle_dst g0 h
    · subst hu
      rw [parent_set_self _ _ _ hdv]
      simp [hne]
    · rw [parent_set_ne _ _ _ _ hu]
      simp [hu]
  refine ⟨?_, hreached, unmarked_set_parent s.g _ h hdv hns hnull hne⟩
  refine ⟨inv.same.trans (sameStructure_set_parent _ _ _), ?_, ?_, ?_, ?_, ?_⟩
  · show parent (modify_vertex _ _ _) .source = .null
    rw [parent_set_ne _ _ _ _ (Ne.symm hns)]
    exact inv.source_null
  · intro v hv
    show ParentOK g0 (modify_vertex _ _ _) v (parent (modify_vertex _ _ _) v)
    have hv' : parent (modify_vertex s.g (handle_dst g0 h)
        (fun x => { x with parent_edge := h })) v ≠ .null := hv
    by_cases hvd : v = handle_dst g0 h
    · subst hvd
      rw [parent_set_self _ _ _ hdv]
      exact ⟨hvalid, rfl, hcap, (hreached _).mpr (Or.inl hsrc)⟩
    · rw [parent_set_ne _ _ _ _ hvd] at hv' ⊢
      obtain ⟨a1, a2, a3, a4⟩ := inv.parent_ok v hv'
      exact ⟨a1, a2, a3, (hreached _).mpr (Or.inl a4)⟩
  · intro v hv
    rcases List.mem_cons.mp hv with h1 | h1
    · subst h1
      exact ⟨hdv0, (hreached _).mpr (Or.inr rfl)⟩
    · exact ⟨(inv.queue_ok v h1).1, (hreached _).mpr (Or.inl (inv.queue_ok v h1).2)⟩
  · show fnd = true ↔ parent (modify_vertex _ _ _) .sink ≠ .null
    by_cases hsink : handle_dst g0 h = .sink
    · rw [hfnd, if_pos hsink]
      have : parent (modify_vertex s.g (handle_dst g0 h)
          (fun x => { x with parent_edge := h })) .sink = h :=
        (congrArg (parent _) hsink.symm).trans (parent_set_self s.g (handle_dst g0 h) h hdv)
      rw [this]
      simp [hne]
    · rw [hfnd, if_neg hsink, parent_set_ne _ _ _ _ (Ne.symm hsink)]
      exact inv.found_iff
  · intro v hv
    rcases (hreached v).mp hv with h1 | h1
    · exact inv.reach v h1
    · subst h1
      exact Relation.ReflTransGen.tail (inv.reach _ hsrc) hstep

theorem out_edges_mem {g : TethysGraph} (wf : WellFormed g) (v : VertexPtr) (hv : ValidV g v)
    (p : EdgePtr) :
    p ∈ (get_vertex g v).out_edges
      ↔ ∃ i, i < g.edges.length ∧ (g.edges.getD i default).start = v ∧ p = .ptr i false := by
  rw [wf.out_edges v hv]
  simp only [List.mem_map, List.mem_filter, List.mem_range, decide_eq_true_eq]
  constructor
  · rintro ⟨i, ⟨h1, h2⟩, h3⟩; exact ⟨i, h1, h2, h3.symm⟩
  · rintro ⟨i, h1, h2, h3⟩; exact ⟨i, ⟨h1, h2⟩, h3.symm⟩

theorem in_edges_mem {g : TethysGraph} (wf : WellFormed g) (v : VertexPtr) (hv : ValidV g v)
    (p : EdgePtr) :
    p ∈ (get_vertex g v).in_edges
      ↔ ∃ i, i < g.edges.length ∧ (g.edges.getD i default).end_ = v ∧ p = .ptr i false := by
  rw [wf.in_edges v hv]
  simp only [List.mem_map, List.mem_filter, List.mem_range, decide_eq_true_eq]
  constructor
  · rintro ⟨i, ⟨h1, h2⟩, h3⟩; exact ⟨i, h1, h2, h3.symm⟩
  · rintro ⟨i, h1, h2, h3⟩; exact ⟨i, ⟨h1, h2⟩, h3.symm⟩

theorem handles_from_mem {g : TethysGraph} (wf : WellFormed g) (v : VertexPtr)
    (hv : ValidV g v) (h : EdgePtr) :
    h ∈ handles_from g v ↔ ValidPtr g h ∧ handle_src g h = v := by
  unfold handles_from
  rw [List.mem_append, out_edges_mem wf v hv, List.mem_map]
  constructor
  · rintro (⟨i, h1, h2, h3⟩ | ⟨p, hp, h3⟩)
    · subst h3; exact ⟨h1, h2⟩
    · obtain ⟨i, h1, h2, h4⟩ := (in_edges_mem wf v hv p).mp hp
      subst h4; subst h3
      exact ⟨h1, h2⟩
  · rintro ⟨h1, h2⟩
    cases h with
    | null => exact absurd h1 id
    | ptr i r =>
      cases r
      · left; exact ⟨i, h1, h2, rfl⟩
      · right
        exact ⟨.ptr i false, (in_edges_mem wf v hv _).mpr ⟨i, h1, h2, rfl⟩, rfl⟩

theorem step_iff_handle {g : TethysGraph} (wf : WellFormed g) (v w : VertexPtr)
    (hv : ValidV g v) :
    Step g v w ↔ ∃ h, ValidPtr g h ∧ handle_src g h = v ∧ 0 < edge_capacity g h
      ∧ handle_dst g h = w := by
  unfold Step
  constructor
  · rintro (⟨p, hp, h1, h2⟩ | ⟨p, hp, h1, h2⟩)
    · obtain ⟨i, a1, a2, a3⟩ := (out_edges_mem wf v hv p).mp hp
      subst a3
      exact ⟨.ptr i false, a1, a2, h1, h2⟩
    · obtain ⟨i, a1, a2, a3⟩ := (in_edges_mem wf v hv p).mp hp
      subst a3
      exact ⟨.ptr i true, a1, a2, h1, h2⟩
  · rintro ⟨h, h1, h2, h3, h4⟩
    cases h with
    | null => exact absurd h1 id
    | ptr i r =>
      cases r
      · left
        exact ⟨.ptr i false, (out_edges_mem wf v hv _).mpr ⟨i, h1, h2, rfl⟩, h3, h4⟩
      · right
        exact ⟨.ptr i false, (in_edges_mem wf v hv _).mpr ⟨i, h1, h2, rfl⟩, h3, h4⟩

/-- The loop over `out_edges` is the loop over the forward handles. -/
theorem scan_out_edges_eq (es : List EdgePtr) (s : SearchState)
    (hes : ∀ p ∈ es, ∃ i, p = .ptr i false) : scan_out_edges es s = scan_handles es s := by
  induction es generalizing s with
  | nil => rfl
  | cons p rest ih =>
    obtain ⟨i, hp⟩ := hes p (List.mem_cons_self _ _)
    subst hp
    have ih' := fun s => ih s (fun q hq => hes q (List.mem_cons_of_mem _ hq))
    simp only [scan_out_edges, scan_handles, edge_at, edge_capacity, handle_dst, ih']

/-- The loop over `in_edges` is the loop over the reciprocals of the handles. -/
theorem scan_in_edges_eq (es : List EdgePtr) (s : SearchState)
    (hes : ∀ p ∈ es, ∃ i, p = .ptr i false) :
    scan_in_edges es s = scan_handles (es.map EdgePtr.reciprocal) s := by
  induction es generalizing s with
  | nil => rfl
  | cons p rest ih =>
    obtain ⟨i, hp⟩ := hes p (List.mem_cons_self _ _)
    subst hp
    have ih' := fun s => ih s (fun q hq => hes q (List.mem_cons_of_mem _ hq))
    simp only [scan_in_edges, scan_handles, edge_at, edge_capacity, handle_dst, ih',
      List.map_cons, EdgePtr.reciprocal, Bool.not_false]

theorem scan_handles_cons (h : EdgePtr) (rest : List EdgePtr) (s : SearchState) :
    scan_handles (h :: rest) s
      = if 0 < edge_capacity s.g h ∧ parent s.g (handle_dst s.g h) = .null
            ∧ handle_dst s.g h ≠ .source then
          (if handle_dst s.g h = .sink then
            ⟨modify_vertex s.g (handle_dst s.g h) (fun d => { d with parent_edge := h }),
              handle_dst s.g h :: s.queue, true⟩
          else scan_handles rest
            ⟨modify_vertex s.g (handle_dst s.g h) (fun d => { d with parent_edge := h }),
              handle_dst s.g h :: s.queue, s.found_sink⟩)
        else scan_handles rest s := by
  by_cases h1 : edge_capacity s.g h > 0
  · by_cases h2 : (get_vertex s.g (handle_dst s.g h)).parent_edge = EdgePtr.null
        ∧ handle_dst s.g h ≠ VertexPtr.source
    · have h3 : 0 < edge_capacity s.g h ∧ parent s.g (handle_dst s.g h) = .null
          ∧ handle_dst s.g h ≠ .source := ⟨h1, h2⟩
      rw [if_pos h3]
      simp only [scan_handles]
      rw [if_pos h1, if_pos h2]
    · have h3 : ¬ (0 < edge_capacity s.g h ∧ parent s.g (handle_dst s.g h) = .null
          ∧ handle_dst s.g h ≠ .source) := fun c => h2 c.2
      rw [if_neg h3]
      simp only [scan_handles]
      rw [if_pos h1, if_neg h2]
  · have h3 : ¬ (0 < edge_capacity s.g h ∧ parent s.g (handle_dst s.g h) = .null
        ∧ handle_dst s.g h ≠ .source) := fun c => h1 c.1
    rw [if_neg h3]
    simp only [scan_handles]
    rw [if_neg h1]

/-- What one of the two inner loops of the search does, from the vertex `v` being expanded. -/
theorem scan_handles_spec (g0 : TethysGraph) (wf : WellFormed g0) (v : VertexPtr)
    (hvv : ValidV g0 v) (hs : List EdgePtr)
    (hfrom : ∀ h ∈ hs, ValidPtr g0 h ∧ handle_src g0 h = v) :
    ∀ s, SearchInv g0 s → Reached s.g v →
      SearchInv g0 (scan_handles hs s)
      ∧ (∀ u, Reached s.g u → Reached (scan_handles hs s).g u)
      ∧ (∀ u ∈ s.queue, u ∈ (scan_handles hs s).queue)
      ∧ (∀ u, Reached (scan_handles hs s).g u →
          Reached s.g u ∨ u ∈ (scan_handles hs s).queue)
      ∧ ((scan_handles hs s).found_sink = false → ∀ h ∈ hs, 0 < edge_capacity g0 h →
          Reached (scan_handles hs s).g (handle_dst g0 h))
      ∧ (scan_handles hs s).queue.length + unmarked (scan_handles hs s).g
          ≤ s.queue.length + unmarked s.g := by
  induction hs with
  | nil =>
    intro s inv _
    exact ⟨inv, fun _ h => h, fun _ h => h, fun _ h => Or.inl h,
      fun _ h hh => absurd hh (List.not_mem_nil _), le_refl _⟩
  | cons h rest ih =>
    intro s inv hv
    have ih' := ih (fun x hx => hfrom x (List.mem_cons_of_mem _ hx))
    obtain ⟨hvalid, hsrc⟩ := hfrom h (List.mem_cons_self _ _)
    rw [scan_handles_cons, inv.same.edge_capacity, inv.same.handle_dst]
    by_cases c : 0 < edge_capacity g0 h ∧ parent s.g (handle_dst g0 h) = .null
        ∧ handle_dst g0 h ≠ .source
    · rw [if_pos c]
      obtain ⟨c1, c2, c3⟩ := c
      have hstep : Step g0 (handle_src g0 h) (handle_dst g0 h) := by
        rw [hsrc]
        exact (step_iff_handle wf v _ hvv).mpr ⟨h, hvalid, hsrc, c1, rfl⟩
      by_cases c4 : handle_dst g0 h = .sink
      · rw [if_pos c4]
        obtain ⟨m1, m2, m3⟩ := mark_spec g0 wf s h inv hvalid (hsrc ▸ hv) c1 hstep c2 c3 true
          (by rw [if_pos c4])
        refine ⟨m1, fun u hu => (m2 u).mpr (Or.inl hu),
          fun u hu => List.mem_cons_of_mem _ hu, ?_, ?_, ?_⟩
        · intro u hu
          rcases (m2 u).mp hu with h1 | h1
          · exact Or.inl h1
          · exact Or.inr (by rw [h1]; exact List.mem_cons_self _ _)
        · intro hf; simp at hf
        · simp only [List.length_cons]; omega
      · rw [if_neg c4]
        obtain ⟨m1, m2, m3⟩ := mark_spec g0 wf s h inv hvalid (hsrc ▸ hv) c1 hstep c2 c3
          s.found_sink (by rw [if_neg c4])
        obtain ⟨i1, i2, i3, i4, i5, i6⟩ := ih' _ m1 ((m2 v).mpr (Or.inl hv))
        refine ⟨i1, fun u hu => i2 u ((m2 u).mpr (Or.inl hu)),
          fun u hu => i3 u (List.mem_cons_of_mem _ hu), ?_, ?_, ?_⟩
        · intro u hu
          rcases i4 u hu with h1 | h1
          · rcases (m2 u).mp h1 with h2 | h2
            · exact Or.inl h2
            · exact Or.inr (i3 u (by rw [h2]; exact List.mem_cons_self _ _))
          · exact Or.inr h1
        · intro hf x hx hcx
          rcases List.mem_cons.mp hx with h1 | h1
          · subst h1
            exact i2 _ ((m2 _).mpr (Or.inr rfl))
          · exact i5 hf x h1 hcx
        · simp only [List.length_cons] at i6; omega
    · rw [if_neg c]
      obtain ⟨i1, i2, i3, i4, i5, i6⟩ := ih' s inv hv
      refine ⟨i1, i2, i3, i4, ?_, i6⟩
      intro hf x hx hcx
      rcases List.mem_cons.mp hx with h1 | h1
      · subst h1
        apply i2
        by_contra hnr
        apply c
        refine ⟨hcx, ?_, ?_⟩
        · by_contra hp
          exact hnr (Or.inr hp)
        · intro hsrc'
          exact hnr (Or.inl hsrc')
      · exact i5 hf x h1 hcx

end Tethys

namespace Tethys

theorem forward_of_out_edges {g : TethysGraph} (wf : WellFormed g) (v : VertexPtr)
    (hv : ValidV g v) : ∀ p ∈ (get_vertex g v).out_edges, ∃ i, p = .ptr i false := by
  intro p hp
  obtain ⟨i, _, _, h⟩ := (out_edges_mem wf v hv p).mp hp
  exact ⟨i, h⟩

theorem forward_of_in_edges {g : TethysGraph} (wf : WellFormed g) (v : VertexPtr)
    (hv : ValidV g v) : ∀ p ∈ (get_vertex g v).in_edges, ∃ i, p = .ptr i false := by
  intro p hp
  obtain ⟨i, _, _, h⟩ := (in_edges_mem wf v hv p).mp hp
  exact ⟨i, h⟩

theorem SearchInv.found_of_reached_sink {g0 : TethysGraph} {s : SearchState}
    (inv : SearchInv g0 s) (h : Reached s.g .sink) : s.found_sink = true := by
  rcases h with h | h
  · cases h
  · exact inv.found_iff.mpr h

theorem SearchInv.reached_sink_of_found {g0 : TethysGraph} {s : SearchState}
    (inv : SearchInv g0 s) (h : s.found_sink = true) : Reached s.g .sink :=
  Or.inr (inv.found_iff.mp h)

/-- One iteration of the loop `while (!found_sink)`. -/
theorem expand_spec (g0 : TethysGraph) (wf : WellFormed g0) (s : SearchState)
    (front : VertexPtr) (rest : List VertexPtr) (hq : s.queue = front :: rest)
    (inv : SearchInv g0 s) (hclosed : Closed g0 s) :
    let s1 := scan_out_edges (get_vertex s.g front).out_edges { s with queue := rest }
    let s2 := scan_in_edges (get_vertex s1.g front).in_edges s1
    SearchInv g0 s2 ∧ (s2.found_sink = false → Closed g0 s2)
      ∧ s2.queue.length + unmarked s2.g + 1 ≤ s.queue.length + unmarked s.g := by
  intro s1 s2
  have hfq := inv.queue_ok front (by rw [hq]; exact List.mem_cons_self _ _)
  have hfv : ValidV g0 front := hfq.1
  have inv_pop : SearchInv g0 { s with queue := rest } :=
    ⟨inv.same, inv.source_null, inv.parent_ok,
      fun v hv => inv.queue_ok v (by rw [hq]; exact List.mem_cons_of_mem _ hv),
      inv.found_iff, inv.reach⟩
  -- first loop
  have e1 : s1 = scan_handles (get_vertex g0 front).out_edges { s with queue := rest } := by
    show scan_out_edges _ _ = _
    rw [inv.same.out_edges]
    exact scan_out_edges_eq _ _ (forward_of_out_edges wf front hfv)
  have hfrom1 : ∀ h ∈ (get_vertex g0 front).out_edges,
      ValidPtr g0 h ∧ handle_src g0 h = front := by
    intro h hh
    exact (handles_from_mem wf front hfv h).mp (List.mem_append_left _ hh)
  obtain ⟨a1, a2, a3, a4, a5, a6⟩ :=
    scan_handles_spec g0 wf front hfv _ hfrom1 _ inv_pop hfq.2
  rw [← e1] at a1 a2 a3 a4 a5 a6
  -- second loop
  have e2 : s2 = scan_handles ((get_vertex g0 front).in_edges.map EdgePtr.reciprocal) s1 := by
    show scan_in_edges _ _ = _
    rw [a1.same.in_edges]
    exact scan_in_edges_eq _ _ (forward_of_in_edges wf front hfv)
  have hfrom2 : ∀ h ∈ (get_vertex g0 front).in_edges.map EdgePtr.reciprocal,
      ValidPtr g0 h ∧ handle_src g0 h = front := by
    intro h hh
    exact (handles_from_mem wf front hfv h).mp (List.mem_append_right _ hh)
  obtain ⟨b1, b2, b3, b4, b5, b6⟩ :=
    scan_handles_spec g0 wf front hfv _ hfrom2 s1 a1 (a2 _ hfq.2)
  rw [← e2] at b1 b2 b3 b4 b5 b6
  refine ⟨b1, ?_, ?_⟩
  · intro hf2 u hu hnq w hstep
    have hf1 : s1.found_sink = false := by
      by_contra hc
      have : s1.found_sink = true := by simpa using hc
      have := b1.found_of_reached_sink (b2 _ (a1.reached_sink_of_found this))
      rw [hf2] at this
      cases this
    by_cases huf : u = front
    · subst huf
      obtain ⟨h, h1, h2, h3, h4⟩ := (step_iff_handle wf u w hfv).mp hstep
      have hmem := (handles_from_mem wf u hfv h).mpr ⟨h1, h2⟩
      rw [← h4]
      rcases List.mem_append.mp hmem with hm | hm
      · exact b2 _ (a5 hf1 h hm h3)
      · exact b5 hf2 h hm h3
    · have hu1 : Reached s1.g u := by
        rcases b4 u hu with h | h
        · exact h
        · exact absurd h hnq
      have hu0 : Reached s.g u := by
        rcases a4 u hu1 with h | h
        · exact h
        · exact absurd (b3 u h) hnq
      have hnq0 : u ∉ s.queue := by
        rw [hq]
        intro hmem
        rcases List.mem_cons.mp hmem with h | h
        · exact huf h
        · exact hnq (b3 u (a3 u h))
      exact b2 _ (a2 _ (hclosed u hu0 hnq0 w hstep))
  · rw [hq]
    simp only [List.length_cons]
    simp only at a6
    omega

/-- The search loop keeps its invariant, and stops with an empty queue and every reached vertex
expanded when the sink was not found. -/
theorem search_loop_spec (g0 : TethysGraph) (wf : WellFormed g0) (fuel : Nat) :
    ∀ s s', SearchInv g0 s → (s.found_sink = false → Closed g0 s) →
      search_loop fuel s = some s' →
      SearchInv g0 s' ∧ (s'.found_sink = false → Closed g0 s' ∧ s'.queue = []) := by
  induction fuel with
  | zero => intro s s' _ _ h; simp [search_loop] at h
  | succ fuel ih =>
    intro s s' inv hcl h
    unfold search_loop at h
    by_cases hf : s.found_sink = true
    · rw [if_pos hf] at h
      cases h
      exact ⟨inv, fun c => by rw [hf] at c; cases c⟩
    · rw [if_neg hf] at h
      have hf' : s.found_sink = false := by simpa using hf
      cases hq : s.queue with
      | nil =>
        rw [hq] at h
        simp only at h
        cases h
        exact ⟨inv, fun _ => ⟨hcl hf', hq⟩⟩
      | cons front rest =>
        rw [hq] at h
        simp only at h
        obtain ⟨c1, c2, _⟩ := expand_spec g0 wf s front rest hq inv (hcl hf')
        exact ih _ s' c1 c2 h

/-- The search loop returns when the fuel exceeds the length of the queue plus the number of
vertices not marked yet. -/
theorem search_loop_terminates (g0 : TethysGraph) (wf : WellFormed g0) (fuel : Nat) :
    ∀ s, SearchInv g0 s → (s.found_sink = false → Closed g0 s) →
      s.queue.length + unmarked s.g < fuel → ∃ s', search_loop fuel s = some s' := by
  induction fuel with
  | zero => intro s _ _ h; omega
  | succ fuel ih =>
    intro s inv hcl hm
    unfold search_loop
    by_cases hf : s.found_sink = true
    · rw [if_pos hf]; exact ⟨s, rfl⟩
    · rw [if_neg hf]
      have hf' : s.found_sink = false := by simpa using hf
      cases hq : s.queue with
      | nil => exact ⟨s, rfl⟩
      | cons front rest =>
        simp only
        obtain ⟨c1, c2, c3⟩ := expand_spec g0 wf s front rest hq inv (hcl hf')
        exact ih _ c1 c2 (by omega)

theorem searchInv_init (g : TethysGraph) :
    SearchInv (reset_parent_edges g) ⟨reset_parent_edges g, [.source], false⟩
      ∧ Closed (reset_parent_edges g) ⟨reset_parent_edges g, [.source], false⟩ := by
  have hr : ∀ v, Reached (reset_parent_edges g) v → v = .source := by
    intro v hv
    rcases hv with h | h
    · exact h
    · exact absurd (parent_reset g v) h
  refine ⟨⟨SameStructure.refl _, parent_reset g _, ?_, ?_, ?_, ?_⟩, ?_⟩
  · intro v hv
    exact absurd (parent_reset g v) hv
  · intro v hv
    have : v = .source := by simpa using hv
    subst this
    exact ⟨trivial, Or.inl rfl⟩
  · show false = true ↔ _
    constructor
    · intro h; cases h
    · intro h; exact absurd (parent_reset g _) h
  · intro v hv
    rw [hr v hv]
    exact Relation.ReflTransGen.refl
  · intro u hu hnq
    rw [hr u hu] at hnq
    exact absurd (List.mem_cons_self _ _) hnq

theorem unmarked_le (g : TethysGraph) :
    unmarked g ≤ 1 + g.vertices0.length + g.vertices1.length := by
  unfold unmarked
  refine le_trans (List.length_filter_le _ _) ?_
  simp [all_vertices]
  omega

/-- When the search stops without having found the sink, the sink is not reachable in the
residual graph. -/
theorem no_path_of_not_found (g0 : TethysGraph) (s : SearchState) (inv : SearchInv g0 s)
    (hcl : Closed g0 s) (hq : s.queue = []) (hf : s.found_sink = false) :
    ¬ Reach g0 .source .sink := by
  intro hreach
  have key : ∀ w, Reach g0 .source w → Reached s.g w := by
    intro w hw
    induction hw with
    | refl => exact Or.inl rfl
    | tail _ hstep ih => exact hcl _ ih (by rw [hq]; exact List.not_mem_nil _) _ hstep
  have := inv.found_of_reached_sink (key _ hreach)
  rw [hf] at this
  cases this

end Tethys

namespace Tethys

/-! ## The backtracking loops -/

theorem parent_chain_null (g : TethysGraph) (fuel : Nat) (cur : VertexPtr)
    (h : parent g cur = .null) : parent_chain g (fuel + 1) cur = some [] := by
  unfold parent at h
  simp only [parent_chain, h]

theorem parent_chain_ptr (g : TethysGraph) (fuel : Nat) (cur : VertexPtr) (i : Nat) (r : Bool)
    (h : parent g cur = .ptr i r) :
    parent_chain g (fuel + 1) cur
      = (parent_chain g fuel (edge_at g (.ptr i r)).start).map (fun l => .ptr i r :: l) := by
  unfold parent at h
  simp only [parent_chain, h]
  cases parent_chain g fuel (edge_at g (.ptr i r)).start <;> rfl

theorem parent_chain_mono (g : TethysGraph) (fuel : Nat) :
    ∀ cur l, parent_chain g fuel cur = some l → parent_chain g (fuel + 1) cur = some l := by
  induction fuel with
  | zero => intro cur l h; simp [parent_chain] at h
  | succ fuel ih =>
    intro cur l h
    cases hp : parent g cur with
    | null =>
      rw [parent_chain_null g _ cur hp] at h ⊢
      exact h
    | ptr i r =>
      rw [parent_chain_ptr g _ cur i r hp] at h ⊢
      cases hc : parent_chain g fuel (edge_at g (.ptr i r)).start with
      | none => rw [hc] at h; simp at h
      | some l' =>
        rw [hc] at h
        rw [ih _ l' hc]
        exact h

theorem parent_chain_mono_le (g : TethysGraph) (f1 f2 : Nat) (hle : f1 ≤ f2)
    (cur : VertexPtr) (l : List EdgePtr) (h : parent_chain g f1 cur = some l) :
    parent_chain g f2 cur = some l := by
  induction hle with
  | refl => exact h
  | step _ ih => exact parent_chain_mono g _ cur l ih

theorem parent_chain_det (g : TethysGraph) (f1 f2 : Nat) (cur : VertexPtr)
    (l1 l2 : List EdgePtr) (h1 : parent_chain g f1 cur = some l1)
    (h2 : parent_chain g f2 cur = some l2) : l1 = l2 := by
  have a := parent_chain_mono_le g f1 (max f1 f2) (Nat.le_max_left _ _) cur l1 h1
  have b := parent_chain_mono_le g f2 (max f1 f2) (Nat.le_max_right _ _) cur l2 h2
  rw [a] at b
  exact Option.some.inj b

theorem path_size_capacity_eq (g : TethysGraph) (fuel : Nat) :
    ∀ cur c sz, path_size_capacity g fuel cur c sz
      = (parent_chain g fuel cur).map (fun l => (chain_capacity g l c, sz + l.length)) := by
  induction fuel with
  | zero => intro cur c sz; rfl
  | succ fuel ih =>
    intro cur c sz
    cases hp : parent g cur with
    | null =>
      rw [parent_chain_null g _ cur hp]
      unfold parent at hp
      simp [path_size_capacity, hp, chain_capacity]
    | ptr i r =>
      rw [parent_chain_ptr g _ cur i r hp]
      unfold parent at hp
      simp only [path_size_capacity, hp, ih, Option.map_map]
      congr 1
      funext l
      simp [chain_capacity, Nat.add_comm, Nat.add_left_comm]

theorem fill_path_eq (g : TethysGraph) (size fuel : Nat) :
    ∀ cur i path, fill_path g size fuel cur i path
      = (parent_chain g fuel cur).map (fun l => place_path size i l path) := by
  induction fuel with
  | zero => intro cur i path; rfl
  | succ fuel ih =>
    intro cur i path
    cases hp : parent g cur with
    | null =>
      rw [parent_chain_null g _ cur hp]
      unfold parent at hp
      simp [fill_path, hp, place_path]
    | ptr j r =>
      rw [parent_chain_ptr g _ cur j r hp]
      unfold parent at hp
      simp only [fill_path, hp, ih, Option.map_map]
      rfl

theorem drop_set_self {α : Type} (l : List α) (k : Nat) (a : α) (h : k < l.length) :
    (l.set k a).drop k = a :: l.drop (k + 1) := by
  induction l generalizing k with
  | nil => simp at h
  | cons b l ih =>
    cases k with
    | zero => simp
    | succ k =>
      simp only [List.set_cons_succ, List.drop_succ_cons]
      exact ih k (by simpa using h)

theorem place_path_eq (size : Nat) (l : List EdgePtr) :
    ∀ i path, i + l.length = size → path.length = size →
      place_path size i l path = l.reverse ++ path.drop (size - i) := by
  induction l with
  | nil =>
    intro i path hi hlen
    simp only [List.length_nil, Nat.add_zero] at hi
    simp [place_path, hi]
  | cons p l ih =>
    intro i path hi hlen
    simp only [List.length_cons] at hi
    rw [place_path, ih (i + 1) _ (by omega) (by simpa using hlen)]
    have h1 : size - (i + 1) = size - i - 1 := by omega
    rw [h1, drop_set_self path (size - i - 1) p (by omega)]
    have h2 : size - i - 1 + 1 = size - i := by omega
    rw [h2]
    simp

theorem place_path_full (l : List EdgePtr) :
    place_path l.length 0 l (List.replicate l.length .null) = l.reverse := by
  rw [place_path_eq l.length l 0 _ (by omega) (by simp)]
  simp

/-- What `find_source_sink_path` returns, in terms of the search loop and of the markers met from
the sink. -/
theorem find_source_sink_path_eq (fuel : Nat) (g : TethysGraph) (path : List EdgePtr)
    (cap : Int) (g1 : TethysGraph) (h : find_source_sink_path fuel g = some (path, cap, g1)) :
    ∃ s, search_loop fuel ⟨reset_parent_edges g, [.source], false⟩ = some s ∧ g1 = s.g
      ∧ ((parent s.g .sink = .null ∧ path = [] ∧ cap = 0)
        ∨ (parent s.g .sink ≠ .null ∧ ∃ l, parent_chain s.g fuel .sink = some l
            ∧ path = l.reverse ∧ cap = chain_capacity s.g l SSIZE_MAX)) := by
  unfold find_source_sink_path at h
  cases hs : search_loop fuel ⟨reset_parent_edges g, [.source], false⟩ with
  | none => rw [hs] at h; simp at h
  | some s =>
    rw [hs] at h
    simp only at h
    refine ⟨s, rfl, ?_⟩
    by_cases hp : s.g.sink.parent_edge ≠ .null
    · rw [if_pos hp] at h
      rw [path_size_capacity_eq] at h
      cases hc : parent_chain s.g fuel .sink with
      | none => rw [hc] at h; simp at h
      | some l =>
        rw [hc] at h
        simp only [Option.map_some', Nat.zero_add] at h
        rw [fill_path_eq, hc] at h
        simp only [Option.map_some', place_path_full, Option.some.injEq, Prod.mk.injEq] at h
        obtain ⟨h1, h2, h3⟩ := h
        exact ⟨h3.symm, Or.inr ⟨hp, l, rfl, h1.symm, h2.symm⟩⟩
    · rw [if_neg hp] at h
      simp only [Option.some.injEq, Prod.mk.injEq] at h
      obtain ⟨h1, h2, h3⟩ := h
      have hp' : parent s.g .sink = .null := by
        simpa [parent, get_vertex] using hp
      exact ⟨h3.symm, Or.inl ⟨hp', h1.symm, h2.symm⟩⟩

end Tethys

namespace Tethys

theorem isWalk_append (g : TethysGraph) (p1 : List EdgePtr) (h : EdgePtr) (a b : VertexPtr) :
    IsWalk g (p1 ++ [h]) a b
      ↔ IsWalk g p1 a (handle_src g h) ∧ ValidPtr g h ∧ handle_dst g h = b := by
  induction p1 generalizing a with
  | nil =>
    simp only [List.nil_append, IsWalk]
    constructor
    · rintro ⟨h1, h2, h3⟩; exact ⟨h2.symm, h1, h3⟩
    · rintro ⟨h1, h2, h3⟩; exact ⟨h2, h1.symm, h3⟩
  | cons p rest ih =>
    show (ValidPtr g p ∧ handle_src g p = a ∧ IsWalk g (rest ++ [h]) (handle_dst g p) b) ↔ _
    rw [ih]
    simp only [IsWalk]
    constructor
    · rintro ⟨h1, h2, h3, h4, h5⟩; exact ⟨⟨h1, h2, h3⟩, h4, h5⟩
    · rintro ⟨⟨h1, h2, h3⟩, h4, h5⟩; exact ⟨h1, h2, h3, h4, h5⟩

theorem parent_chain_mem (g : TethysGraph) (fuel : Nat) :
    ∀ cur l h, parent_chain g fuel cur = some l → h ∈ l →
      ∃ x f l2, parent g x = h ∧ parent_chain g f x = some l2 ∧ l2.length ≤ l.length := by
  induction fuel with
  | zero => intro cur l h hc; simp [parent_chain] at hc
  | succ fuel ih =>
    intro cur l h hc hmem
    cases hp : parent g cur with
    | null =>
      rw [parent_chain_null g _ cur hp] at hc
      cases hc
      exact absurd hmem (List.not_mem_nil _)
    | ptr i r =>
      have hc0 := hc
      rw [parent_chain_ptr g _ cur i r hp] at hc
      cases hn : parent_chain g fuel (edge_at g (.ptr i r)).start with
      | none => rw [hn] at hc; simp at hc
      | some l' =>
        rw [hn] at hc
        simp only [Option.map_some', Option.some.injEq] at hc
        subst hc
        rcases List.mem_cons.mp hmem with h1 | h1
        · exact ⟨cur, fuel + 1, _, by rw [hp, h1], hc0, le_refl _⟩
        · obtain ⟨x, f, l2, a1, a2, a3⟩ := ih _ l' h hn h1
          exact ⟨x, f, l2, a1, a2, by simp only [List.length_cons]; omega⟩

/-- The markers met from a reached vertex, when the walk along them ends: they are forward
handles of positive residual, pairwise distinct, and read backwards they form a walk from the
source. -/
theorem parent_chain_props (g0 : TethysGraph) (s : SearchState) (inv : SearchInv g0 s)
    (fuel : Nat) :
    ∀ v l, Reached s.g v → parent_chain s.g fuel v = some l →
      (∀ h ∈ l, IsForward h ∧ ValidPtr g0 h ∧ 0 < edge_capacity g0 h)
      ∧ IsWalk g0 l.reverse .source v ∧ l.Nodup := by
  induction fuel with
  | zero => intro v l _ hc; simp [parent_chain] at hc
  | succ fuel ih =>
    intro v l hv hc
    cases hp : parent s.g v with
    | null =>
      rw [parent_chain_null _ _ v hp] at hc
      cases hc
      have : v = .source := by
        rcases hv with h | h
        · exact h
        · exact absurd hp h
      subst this
      exact ⟨fun h hh => absurd hh (List.not_mem_nil _), rfl, List.nodup_nil⟩
    | ptr i r =>
      have hc0 := hc
      have pok := inv.parent_ok v (by rw [hp]; exact fun c => by cases c)
      rw [hp] at pok
      obtain ⟨p1, p2, p3, p4⟩ := pok
      rw [parent_chain_ptr _ _ v i r hp, inv.same.edge_at] at hc
      cases r with
      | true =>
        -- a reciprocal marker sends the walk back to the same vertex: it never ends
        exfalso
        have hstart : (edge_at g0 (.ptr i true)).start = v := p2
        rw [hstart] at hc
        cases hn : parent_chain s.g fuel v with
        | none => rw [hn] at hc; simp at hc
        | some l' =>
          rw [hn] at hc
          simp only [Option.map_some', Option.some.injEq] at hc
          have := parent_chain_det s.g fuel (fuel + 1) v l' l hn hc0
          rw [← hc] at this
          have hlen := congrArg List.length this
          simp at hlen
      | false =>
        have hstart : (edge_at g0 (.ptr i false)).start = handle_src g0 (.ptr i false) := rfl
        rw [hstart] at hc
        cases hn : parent_chain s.g fuel (handle_src g0 (.ptr i false)) with
        | none => rw [hn] at hc; simp at hc
        | some l' =>
          rw [hn] at hc
          simp only [Option.map_some', Option.some.injEq] at hc
          subst hc
          obtain ⟨q1, q2, q3⟩ := ih _ l' p4 hn
          refine ⟨?_, ?_, ?_⟩
          · intro h hh
            rcases List.mem_cons.mp hh with h1 | h1
            · subst h1; exact ⟨trivial, p1, p3⟩
            · exact q1 h h1
          · rw [List.reverse_cons, isWalk_append]
            exact ⟨q2, p1, p2⟩
          · rw [List.nodup_cons]
            refine ⟨?_, q3⟩
            intro hmem
            obtain ⟨x, f, l2, a1, a2, a3⟩ := parent_chain_mem s.g fuel _ l' _ hn hmem
            have pokx := inv.parent_ok x (by rw [a1]; exact fun c => by cases c)
            rw [a1] at pokx
            have hx : x = v := pokx.2.1.symm.trans p2
            subst hx
            have := parent_chain_det s.g f (fuel + 1) x l2 _ a2 hc0
            rw [this] at a3
            simp at a3

theorem chain_capacity_cons (g : TethysGraph) (h : EdgePtr) (l : List EdgePtr) (c : Int) :
    chain_capacity g (h :: l) c = chain_capacity g l (min (edge_capacity g h) c) := rfl

theorem chain_capacity_le (g : TethysGraph) (l : List EdgePtr) :
    ∀ c, chain_capacity g l c ≤ c ∧ ∀ h ∈ l, chain_capacity g l c ≤ edge_capacity g h := by
  induction l with
  | nil => intro c; exact ⟨le_refl _, fun h hh => absurd hh (List.not_mem_nil _)⟩
  | cons p l ih =>
    intro c
    rw [chain_capacity_cons]
    obtain ⟨a1, a2⟩ := ih (min (edge_capacity g p) c)
    refine ⟨le_trans a1 (min_le_right _ _), ?_⟩
    intro h hh
    rcases List.mem_cons.mp hh with h1 | h1
    · subst h1; exact le_trans a1 (min_le_left _ _)
    · exact a2 h h1

theorem chain_capacity_attained (g : TethysGraph) (l : List EdgePtr) :
    ∀ c, chain_capacity g l c = c ∨ ∃ h ∈ l, chain_capacity g l c = edge_capacity g h := by
  induction l with
  | nil => intro c; exact Or.inl rfl
  | cons p l ih =>
    intro c
    rw [chain_capacity_cons]
    rcases ih (min (edge_capacity g p) c) with h | ⟨h, hh, he⟩
    · rcases min_choice (edge_capacity g p) c with hm | hm
      · right; exact ⟨p, List.mem_cons_self _ _, by rw [h, hm]⟩
      · left; rw [h, hm]
    · right; exact ⟨h, List.mem_cons_of_mem _ hh, he⟩

end Tethys

namespace Tethys

/-! ## `find_source_sink_path` -/

theorem SSIZE_MAX_pos : 0 < SSIZE_MAX := by
  unfold SSIZE_MAX
  norm_num

/-- What `find_source_sink_path` returns on a well-formed graph, when it returns. -/
theorem find_source_sink_path_spec (fuel : Nat) (g : TethysGraph) (path : List EdgePtr)
    (cap : Int) (g1 : TethysGraph) (wf : WellFormed g)
    (h : find_source_sink_path fuel g = some (path, cap, g1)) :
    SameStructure g g1
      ∧ ((path = [] ∧ cap = 0 ∧ ¬ Reach g .source .sink)
        ∨ (path ≠ [] ∧ IsWalk g path .source .sink ∧ path.Nodup
            ∧ (∀ h ∈ path, IsForward h ∧ ValidPtr g h ∧ 0 < edge_capacity g h
                ∧ cap ≤ edge_capacity g h)
            ∧ 0 < cap ∧ cap ≤ SSIZE_MAX
            ∧ (cap = SSIZE_MAX ∨ ∃ h ∈ path, cap = edge_capacity g h))) := by
  obtain ⟨s, hs, hg1, hcase⟩ := find_source_sink_path_eq fuel g path cap g1 h
  have hreset := sameStructure_reset g
  have wf0 : WellFormed (reset_parent_edges g) := hreset.wellFormed wf
  obtain ⟨inv0, cl0⟩ := searchInv_init g
  obtain ⟨inv, hend⟩ := search_loop_spec _ wf0 fuel _ s inv0 (fun _ => cl0) hs
  have hsame : SameStructure g s.g := hreset.trans inv.same
  subst hg1
  refine ⟨hsame, ?_⟩
  rcases hcase with ⟨hnull, hp, hc⟩ | ⟨hnn, l, hl, hp, hc⟩
  · left
    refine ⟨hp, hc, ?_⟩
    have hf : s.found_sink = false := by
      by_contra c
      have : s.found_sink = true := by simpa using c
      exact inv.found_iff.mp this hnull
    obtain ⟨hcl, hq⟩ := hend hf
    have := no_path_of_not_found _ s inv hcl hq hf
    rwa [hreset.reach] at this
  · right
    obtain ⟨q1, q2, q3⟩ := parent_chain_props _ s inv fuel .sink l (Or.inr hnn) hl
    have hcapeq : ∀ x, edge_capacity s.g x = edge_capacity g x := fun x => hsame.edge_capacity x
    have hcapeq0 : ∀ x, edge_capacity (reset_parent_edges g) x = edge_capacity g x :=
      fun x => hreset.edge_capacity x
    have hlne : l ≠ [] := by
      intro e
      rw [e] at q2
      cases q2
    subst hp
    obtain ⟨c1, c2⟩ := chain_capacity_le s.g l SSIZE_MAX
    have hatt := chain_capacity_attained s.g l SSIZE_MAX
    refine ⟨by simpa using hlne, (hreset.isWalk _ _ _).mp q2, List.nodup_reverse.mpr q3,
      ?_, ?_, ?_, ?_⟩
    · intro x hx
      have hx' : x ∈ l := List.mem_reverse.mp hx
      obtain ⟨a1, a2, a3⟩ := q1 x hx'
      refine ⟨a1, (hreset.validPtr x).mp a2, by rwa [hcapeq0] at a3, ?_⟩
      rw [hc, ← hcapeq]
      exact c2 x hx'
    · rw [hc]
      rcases hatt with e | ⟨x, hx, e⟩
      · rw [e]; exact SSIZE_MAX_pos
      · rw [e, hcapeq, ← hcapeq0]
        exact (q1 x hx).2.2
    · rw [hc]; exact c1
    · rw [hc]
      rcases hatt with e | ⟨x, hx, e⟩
      · exact Or.inl e
      · exact Or.inr ⟨x, List.mem_reverse.mpr hx, by rw [e, hcapeq]⟩

/-- When the sink is not reachable in the residual graph, `find_source_sink_path` returns the
empty path and capacity `0`, for any fuel of at least `2 * graph_size + 3`. -/
theorem find_source_sink_path_no_path (g : TethysGraph) (wf : WellFormed g)
    (hno : ¬ Reach g .source .sink) (fuel : Nat) (hfuel : 2 * g.graph_size + 3 ≤ fuel) :
    ∃ g1, find_source_sink_path fuel g = some ([], 0, g1) := by
  have hreset := sameStructure_reset g
  have wf0 : WellFormed (reset_parent_edges g) := hreset.wellFormed wf
  obtain ⟨inv0, cl0⟩ := searchInv_init g
  have hm : ([VertexPtr.source] : List VertexPtr).length + unmarked (reset_parent_edges g)
      < fuel := by
    have := unmarked_le (reset_parent_edges g)
    rw [hreset.len0, hreset.len1, wf.len0, wf.len1] at this
    simp only [List.length_singleton]
    omega
  obtain ⟨s, hs⟩ := search_loop_terminates _ wf0 fuel
    ⟨reset_parent_edges g, [.source], false⟩ inv0 (fun _ => cl0) hm
  obtain ⟨inv, _⟩ := search_loop_spec _ wf0 fuel _ s inv0 (fun _ => cl0) hs
  have hnull : s.g.sink.parent_edge = .null := by
    by_contra c
    apply hno
    rw [← hreset.reach]
    exact inv.reach .sink (Or.inr c)
  refine ⟨s.g, ?_⟩
  unfold find_source_sink_path
  rw [hs]
  simp only
  rw [if_neg (by simp [hnull])]

end Tethys

namespace Tethys

/-! ## Building the graph -/

theorem filter_range_snoc (l : List Edge) (e : Edge) (proj : Edge → VertexPtr)
    (v : VertexPtr) :
    ((List.range (l ++ [e]).length).filter
        (fun i => decide (proj ((l ++ [e]).getD i default) = v))).map
          (fun i => EdgePtr.ptr i false)
      = ((List.range l.length).filter
          (fun i => decide (proj (l.getD i default) = v))).map (fun i => EdgePtr.ptr i false)
        ++ (if v = proj e then [EdgePtr.ptr l.length false] else []) := by
  rw [List.length_append, List.length_singleton, List.range_succ, List.filter_append,
    List.map_append]
  congr 1
  · congr 1
    apply List.filter_congr
    intro i hi
    have hi' : i < l.length := List.mem_range.mp hi
    simp [List.getD_eq_getElem?_getD, List.getElem?_append_left hi']
  · have : (l ++ [e]).getD l.length default = e := by
      simp [List.getD_eq_getElem?_getD]
    simp only [List.filter_cons, List.filter_nil, this]
    by_cases hv : v = proj e
    · simp [hv]
    · have : ¬ proj e = v := fun c => hv c.symm
      simp [hv, this]

theorem get_vertex_push_edge (g : TethysGraph) (e : Edge) (v : VertexPtr)
    (hs : ValidV g e.start) (he : ValidV g e.end_) :
    get_vertex (push_edge g e) v
      = { out_edges := (get_vertex g v).out_edges
            ++ (if v = e.start then [EdgePtr.ptr g.edges.length false] else []),
          in_edges := (get_vertex g v).in_edges
            ++ (if v = e.end_ then [EdgePtr.ptr g.edges.length false] else []),
          parent_edge := (get_vertex g v).parent_edge } := by
  unfold push_edge
  simp only
  have hg1 : ∀ w, get_vertex { g with edges := g.edges ++ [e] } w = get_vertex g w := by
    intro w
    cases w with
    | source => rfl
    | sink => rfl
    | node b i => cases b <;> rfl
  have hv1 : ∀ w, ValidV { g with edges := g.edges ++ [e] } w ↔ ValidV g w := by
    intro w
    cases w with
    | source => exact Iff.rfl
    | sink => exact Iff.rfl
    | node b i => cases b <;> exact Iff.rfl
  have hv2 : ValidV (modify_vertex { g with edges := g.edges ++ [e] } e.start
      (fun v => { v with out_edges := v.out_edges ++ [EdgePtr.ptr g.edges.length false] }))
      e.end_ := by
    obtain ⟨_, _, _, e4, e5⟩ := modify_vertex_edges { g with edges := g.edges ++ [e] } e.start
      (fun v => { v with out_edges := v.out_edges ++ [EdgePtr.ptr g.edges.length false] })
    cases hend : e.end_ with
    | source => trivial
    | sink => trivial
    | node b i =>
      rw [hend] at he
      cases b
      · show i < _
        rw [e4]; exact he
      · show i < _
        rw [e5]; exact he
  by_cases c2 : v = e.end_
  · subst c2
    rw [get_vertex_modify_self _ _ _ hv2]
    by_cases c1 : e.end_ = e.start
    · rw [c1, get_vertex_modify_self _ _ _ ((hv1 _).mpr hs), hg1]
      simp
    · rw [get_vertex_modify_ne _ _ _ _ c1, hg1]
      simp [c1]
  · rw [get_vertex_modify_ne _ _ _ _ c2]
    by_cases c1 : v = e.start
    · subst c1
      rw [get_vertex_modify_self _ _ _ ((hv1 _).mpr hs), hg1]
      simp [c2]
    · rw [get_vertex_modify_ne _ _ _ _ c1, hg1]
      simp [c1, c2]

theorem push_edge_fields (g : TethysGraph) (e : Edge) :
    (push_edge g e).edges = g.edges ++ [e] ∧ (push_edge g e).graph_size = g.graph_size
      ∧ (push_edge g e).state = g.state
      ∧ (push_edge g e).vertices0.length = g.vertices0.length
      ∧ (push_edge g e).vertices1.length = g.vertices1.length := by
  unfold push_edge
  simp only
  obtain ⟨a1, a2, a3, a4, a5⟩ := modify_vertex_edges
    (modify_vertex { g with edges := g.edges ++ [e] } e.start
      (fun v => { v with out_edges := v.out_edges ++ [EdgePtr.ptr g.edges.length false] }))
    e.end_ (fun v => { v with in_edges := v.in_edges ++ [EdgePtr.ptr g.edges.length false] })
  obtain ⟨b1, b2, b3, b4, b5⟩ := modify_vertex_edges { g with edges := g.edges ++ [e] } e.start
    (fun v => { v with out_edges := v.out_edges ++ [EdgePtr.ptr g.edges.length false] })
  exact ⟨a1.trans b1, a2.trans b2, a3.trans b3, a4.trans b4, a5.trans b5⟩

theorem validV_push_edge (g : TethysGraph) (e : Edge) (v : VertexPtr) :
    ValidV (push_edge g e) v ↔ ValidV g v := by
  obtain ⟨_, _, _, a4, a5⟩ := push_edge_fields g e
  cases v with
  | source => exact Iff.rfl
  | sink => exact Iff.rfl
  | node b i => cases b <;> simp [ValidV, a4, a5]

theorem wellFormed_push_edge (g : TethysGraph) (e : Edge) (wf : WellFormed g)
    (hs : ValidV g e.start) (he : ValidV g e.end_) (h1 : e.end_ ≠ .source)
    (h2 : e.start ≠ .sink) : WellFormed (push_edge g e) := by
  obtain ⟨a1, a2, a3, a4, a5⟩ := push_edge_fields g e
  refine ⟨a4.trans (wf.len0.trans a2.symm), a5.trans (wf.len1.trans a2.symm), ?_, ?_, ?_, ?_, ?_⟩
  · intro x hx
    rw [a1] at hx
    simp only [validV_push_edge]
    rcases List.mem_append.mp hx with h | h
    · exact wf.edge_valid x h
    · have : x = e := by simpa using h
      subst this; exact ⟨hs, he⟩
  · intro x hx
    rw [a1] at hx
    rcases List.mem_append.mp hx with h | h
    · exact wf.no_in_source x h
    · have : x = e := by simpa using h
      subst this; exact h1
  · intro x hx
    rw [a1] at hx
    rcases List.mem_append.mp hx with h | h
    · exact wf.no_out_sink x h
    · have : x = e := by simpa using h
      subst this; exact h2
  · intro v hv
    rw [get_vertex_push_edge g e v hs he, a1]
    simp only
    rw [filter_range_snoc g.edges e Edge.start v,
      wf.out_edges v ((validV_push_edge g e v).mp hv)]
  · intro v hv
    rw [get_vertex_push_edge g e v hs he, a1]
    simp only
    rw [filter_range_snoc g.edges e Edge.end_ v,
      wf.in_edges v ((validV_push_edge g e v).mp hv)]

theorem wellFormed_mk_empty (n : Nat) : WellFormed (TethysGraph.mk_empty n) := by
  have hv : ∀ v, get_vertex (TethysGraph.mk_empty n) v = default := by
    intro v
    cases v with
    | source => rfl
    | sink => rfl
    | node b i =>
      cases b <;>
        simp [get_vertex, TethysGraph.mk_empty, List.getD_eq_getElem?_getD,
          List.getElem?_replicate] <;> split <;> rfl
  refine ⟨by simp [TethysGraph.mk_empty], by simp [TethysGraph.mk_empty], ?_, ?_, ?_, ?_, ?_⟩
  · intro e he; simp [TethysGraph.mk_empty] at he
  · intro e he; simp [TethysGraph.mk_empty] at he
  · intro e he; simp [TethysGraph.mk_empty] at he
  · intro v _; rw [hv]; rfl
  · intro v _; rw [hv]; rfl

theorem add_edge_ok (g g1 : TethysGraph) (value_index : Nat) (cap : Int) (start end_ : Nat)
    (orientation : EdgeOrientation) (wf : WellFormed g)
    (h : add_edge g value_index cap start end_ orientation = .ok g1) :
    g.state = .Building ∧ ∃ e, g1 = push_edge g e ∧ GoodEdge g e cap := by
  unfold add_edge at h
  split at h
  · cases h
  · next hst =>
    split at h
    · cases h
    · next hstart =>
      split at h
      · cases h
      · next hend =>
        have hst' : g.state = .Building := by simpa using hst
        injection h with h
        refine ⟨hst', _, h.symm, ?_⟩
        have l0 := wf.len0
        have l1 := wf.len1
        cases orientation
        · exact ⟨(by show start < _; omega), (by show end_ < _; omega),
            (fun c => by cases c), (fun c => by cases c), rfl, rfl⟩
        · exact ⟨(by show start < _; omega), (by show end_ < _; omega),
            (fun c => by cases c), (fun c => by cases c), rfl, rfl⟩

theorem add_edge_from_source_ok (g g1 : TethysGraph) (value_index : Nat) (cap : Int)
    (end_ table : Nat) (wf : WellFormed g)
    (h : add_edge_from_source g value_index cap end_ table = .ok g1) :
    g.state = .Building ∧ ∃ e, g1 = push_edge g e ∧ GoodEdge g e cap := by
  unfold add_edge_from_source at h
  split at h
  · cases h
  · next hst =>
    split at h
    · cases h
    · next hend =>
      split at h
      · cases h
      · next htab =>
        have hst' : g.state = .Building := by simpa using hst
        injection h with h
        refine ⟨hst', _, h.symm, ?_⟩
        have l0 := wf.len0
        have l1 := wf.len1
        by_cases ht : table = 0
        · simp only [ht, if_true]
          exact ⟨trivial, (by show end_ < _; omega),
            (fun c => by cases c), (fun c => by cases c), rfl, rfl⟩
        · simp only [ht, if_false]
          exact ⟨trivial, (by show end_ < _; omega),
            (fun c => by cases c), (fun c => by cases c), rfl, rfl⟩

theorem add_edge_to_sink_ok (g g1 : TethysGraph) (value_index : Nat) (cap : Int)
    (start table : Nat) (wf : WellFormed g)
    (h : add_edge_to_sink g value_index cap start table = .ok g1) :
    g.state = .Building ∧ ∃ e, g1 = push_edge g e ∧ GoodEdge g e cap := by
  unfold add_edge_to_sink at h
  split at h
  · cases h
  · next hst =>
    split at h
    · cases h
    · next hstart =>
      split at h
      · cases h
      · next htab =>
        have hst' : g.state = .Building := by simpa using hst
        injection h with h
        refine ⟨hst', _, h.symm, ?_⟩
        have l0 := wf.len0
        have l1 := wf.len1
        by_cases ht : table = 0
        · simp only [ht, if_true]
          exact ⟨(by show start < _; omega), trivial,
            (fun c => by cases c), (fun c => by cases c), rfl, rfl⟩
        · simp only [ht, if_false]
          exact ⟨(by show start < _; omega), trivial,
            (fun c => by cases c), (fun c => by cases c), rfl, rfl⟩

/-- Every graph a program can build is well formed, in state `Building`, with all reciprocal
capacities `0` and all capacities in the range of `ssize_t`. -/
theorem Built.facts {g : TethysGraph} (hb : Built g) :
    WellFormed g ∧ g.state = .Building
      ∧ (∀ e ∈ g.edges, e.rec_capacity = 0) ∧ (∀ e ∈ g.edges, InSsize e.capacity) := by
  have step : ∀ (g g1 : TethysGraph) (cap : Int),
      (WellFormed g ∧ g.state = .Building
        ∧ (∀ e ∈ g.edges, e.rec_capacity = 0) ∧ (∀ e ∈ g.edges, InSsize e.capacity)) →
      InSsize cap → (∃ e, g1 = push_edge g e ∧ GoodEdge g e cap) →
      (WellFormed g1 ∧ g1.state = .Building
        ∧ (∀ e ∈ g1.edges, e.rec_capacity = 0) ∧ (∀ e ∈ g1.edges, InSsize e.capacity)) := by
    rintro g g1 cap ⟨wf, hst, hrec, hcap⟩ hc ⟨e, he, good⟩
    subst he
    obtain ⟨a1, a2, a3, a4, a5⟩ := push_edge_fields g e
    refine ⟨wellFormed_push_edge g e wf good.start_valid good.end_valid good.end_ne_source
      good.start_ne_sink, a3.trans hst, ?_, ?_⟩
    · intro x hx
      rw [a1] at hx
      rcases List.mem_append.mp hx with h | h
      · exact hrec x h
      · have : x = e := by simpa using h
        subst this; exact good.rec_capacity
    · intro x hx
      rw [a1] at hx
      rcases List.mem_append.mp hx with h | h
      · exact hcap x h
      · have : x = e := by simpa using h
        subst this; rw [good.capacity]; exact hc
  induction hb with
  | empty n =>
    exact ⟨wellFormed_mk_empty n, rfl, fun e he => by simp [TethysGraph.mk_empty] at he,
      fun e he => by simp [TethysGraph.mk_empty] at he⟩
  | edge vi cap st en o _ hc h ih =>
    exact step _ _ cap ih hc (add_edge_ok _ _ vi cap st en o ih.1 h).2
  | from_source vi cap en t _ hc h ih =>
    exact step _ _ cap ih hc (add_edge_from_source_ok _ _ vi cap en t ih.1 h).2
  | to_sink vi cap st t _ hc h ih =>
    exact step _ _ cap ih hc (add_edge_to_sink_ok _ _ vi cap st t ih.1 h).2

end Tethys

namespace Tethys

/-! ## Augmenting along a path -/

theorem update_capacity_fields (g : TethysGraph) (p : EdgePtr) (c : Int) :
    (update_capacity g p c).graph_size = g.graph_size
      ∧ (update_capacity g p c).state = g.state
      ∧ (update_capacity g p c).source = g.source
      ∧ (update_capacity g p c).sink = g.sink
      ∧ (update_capacity g p c).vertices0 = g.vertices0
      ∧ (update_capacity g p c).vertices1 = g.vertices1
      ∧ (update_capacity g p c).edges.length = g.edges.length := by
  cases p with
  | null => exact ⟨rfl, rfl, rfl, rfl, rfl, rfl, rfl⟩
  | ptr i r =>
    cases r
    · exact ⟨rfl, rfl, rfl, rfl, rfl, rfl, length_modify_nth _ _ _⟩
    · exact ⟨rfl, rfl, rfl, rfl, rfl, rfl, length_modify_nth _ _ _⟩

theorem get_vertex_congr (g g1 : TethysGraph) (h1 : g1.source = g.source)
    (h2 : g1.sink = g.sink) (h3 : g1.vertices0 = g.vertices0) (h4 : g1.vertices1 = g.vertices1)
    (v : VertexPtr) : get_vertex g1 v = get_vertex g v := by
  cases v with
  | source => exact h1
  | sink => exact h2
  | node b i =>
    cases b
    · simp [get_vertex, h3]
    · simp [get_vertex, h4]

theorem augment_fields (g : TethysGraph) (path : List EdgePtr) (c : Int) :
    (augment g path c).graph_size = g.graph_size
      ∧ (augment g path c).state = g.state
      ∧ (augment g path c).source = g.source
      ∧ (augment g path c).sink = g.sink
      ∧ (augment g path c).vertices0 = g.vertices0
      ∧ (augment g path c).vertices1 = g.vertices1
      ∧ (augment g path c).edges.length = g.edges.length := by
  induction path generalizing g with
  | nil => exact ⟨rfl, rfl, rfl, rfl, rfl, rfl, rfl⟩
  | cons p rest ih =>
    obtain ⟨a1, a2, a3, a4, a5, a6, a7⟩ := ih (update_capacity g p c)
    obtain ⟨b1, b2, b3, b4, b5, b6, b7⟩ := update_capacity_fields g p c
    exact ⟨a1.trans b1, a2.trans b2, a3.trans b3, a4.trans b4, a5.trans b5, a6.trans b6,
      a7.trans b7⟩

/-- The edge `i` after an augmentation of `c` along distinct forward handles: updated when its
handle is on the path, untouched otherwise. -/
theorem augment_getD (path : List EdgePtr) (c : Int) :
    ∀ (g : TethysGraph), path.Nodup → (∀ h ∈ path, IsForward h ∧ ValidPtr g h) → ∀ i,
      (augment g path c).edges.getD i default
        = if EdgePtr.ptr i false ∈ path then (g.edges.getD i default).shift c
          else g.edges.getD i default := by
  induction path with
  | nil => intro g _ _ i; simp [augment]
  | cons p rest ih =>
    intro g hnd hall i
    obtain ⟨hfw, hvalid⟩ := hall p (List.mem_cons_self _ _)
    cases p with
    | null => exact absurd hfw id
    | ptr j r =>
      cases r with
      | true => exact absurd hfw id
      | false =>
        have hlen : (update_capacity g (.ptr j false) c).edges.length = g.edges.length :=
          (update_capacity_fields g _ c).2.2.2.2.2.2
        have hrest : ∀ h ∈ rest, IsForward h ∧ ValidPtr (update_capacity g (.ptr j false) c) h := by
          intro h hh
          obtain ⟨a, b⟩ := hall h (List.mem_cons_of_mem _ hh)
          refine ⟨a, ?_⟩
          cases h with
          | null => exact absurd b id
          | ptr k r => show k < _; rw [hlen]; exact b
        have := ih (update_capacity g (.ptr j false) c) (List.nodup_cons.mp hnd).2 hrest i
        show (augment (update_capacity g (.ptr j false) c) rest c).edges.getD i default = _
        rw [this]
        by_cases hij : i = j
        · subst hij
          have hnot : EdgePtr.ptr i false ∉ rest := (List.nodup_cons.mp hnd).1
          rw [if_neg hnot, if_pos (List.mem_cons_self _ _)]
          exact getD_modify_nth_self _ _ i default hvalid
        · have e1 : (update_capacity g (.ptr j false) c).edges.getD i default
              = g.edges.getD i default := getD_modify_nth_ne _ _ j i default hij
          rw [e1]
          have hmem : EdgePtr.ptr i false ∈ EdgePtr.ptr j false :: rest
              ↔ EdgePtr.ptr i false ∈ rest := by
            simp [hij]
          simp only [hmem]

theorem sum_map_modify_nth {α : Type} (u : α → α) (φ : α → Int) (d : α) (l : List α) :
    ∀ j, j < l.length →
      ((modify_nth u l j).map φ).sum = (l.map φ).sum + (φ (u (l.getD j d)) - φ (l.getD j d)) := by
  induction l with
  | nil => intro j hj; simp at hj
  | cons a l ih =>
    intro j hj
    cases j with
    | zero =>
      simp only [modify_nth, List.map_cons, List.sum_cons, List.getD_cons_zero]
      ring
    | succ j =>
      simp only [modify_nth, List.map_cons, List.sum_cons, List.getD_cons_succ]
      rw [ih j (by simpa using hj)]
      ring

theorem edge_sum_update_start (g : TethysGraph) (j : Nat) (c : Int) (hj : j < g.edges.length)
    (v : VertexPtr) :
    edge_sum (update_capacity g (.ptr j false) c) (fun e => decide (e.start = v))
        Edge.rec_capacity
      = edge_sum g (fun e => decide (e.start = v)) Edge.rec_capacity
        + (if handle_src g (.ptr j false) = v then c else 0) := by
  unfold edge_sum update_capacity
  simp only
  rw [sum_map_modify_nth _ _ default _ j hj]
  congr 1
  simp only [handle_src, Edge.shift, decide_eq_true_eq]
  by_cases hc : (g.edges.getD j default).start = v
  · rw [if_pos hc, if_pos hc, if_pos hc]; ring
  · rw [if_neg hc, if_neg hc, if_neg hc]; ring

theorem edge_sum_update_end (g : TethysGraph) (j : Nat) (c : Int) (hj : j < g.edges.length)
    (v : VertexPtr) :
    edge_sum (update_capacity g (.ptr j false) c) (fun e => decide (e.end_ = v))
        Edge.rec_capacity
      = edge_sum g (fun e => decide (e.end_ = v)) Edge.rec_capacity
        + (if handle_dst g (.ptr j false) = v then c else 0) := by
  unfold edge_sum update_capacity
  simp only
  rw [sum_map_modify_nth _ _ default _ j hj]
  congr 1
  simp only [handle_dst, Edge.shift, decide_eq_true_eq]
  by_cases hc : (g.edges.getD j default).end_ = v
  · rw [if_pos hc, if_pos hc, if_pos hc]; ring
  · rw [if_neg hc, if_neg hc, if_neg hc]; ring

theorem handle_update_capacity (g : TethysGraph) (j : Nat) (c : Int) (h : EdgePtr) :
    handle_src (update_capacity g (.ptr j false) c) h = handle_src g h
      ∧ handle_dst (update_capacity g (.ptr j false) c) h = handle_dst g h := by
  cases h with
  | null => exact ⟨rfl, rfl⟩
  | ptr i r =>
    have key : ((update_capacity g (.ptr j false) c).edges.getD i default).start
          = (g.edges.getD i default).start
        ∧ ((update_capacity g (.ptr j false) c).edges.getD i default).end_
          = (g.edges.getD i default).end_ := by
      by_cases hij : i = j
      · subst hij
        by_cases hv : i < g.edges.length
        · have := getD_modify_nth_self (fun e : Edge => e.shift c) g.edges i default hv
          simp only [update_capacity]
          rw [this]
          exact ⟨rfl, rfl⟩
        · simp only [update_capacity]
          rw [modify_nth_of_le _ _ _ (by omega)]
          exact ⟨rfl, rfl⟩
      · have := getD_modify_nth_ne (fun e : Edge => e.shift c) g.edges j i default hij
        simp only [update_capacity]
        rw [this]
        exact ⟨rfl, rfl⟩
    cases r
    · exact ⟨key.1, key.2⟩
    · exact ⟨key.2, key.1⟩

/-- The flow leaving `v`, respectively entering `v`, grows by `c` for each handle of the path
that leaves `v`, respectively enters `v`. -/
theorem edge_sum_augment (path : List EdgePtr) (c : Int) (v : VertexPtr) :
    ∀ (g : TethysGraph), (∀ h ∈ path, IsForward h ∧ ValidPtr g h) →
      edge_sum (augment g path c) (fun e => decide (e.start = v)) Edge.rec_capacity
          = edge_sum g (fun e => decide (e.start = v)) Edge.rec_capacity
            + c * ((path.filter (fun h => decide (handle_src g h = v))).length : Int)
      ∧ edge_sum (augment g path c) (fun e => decide (e.end_ = v)) Edge.rec_capacity
          = edge_sum g (fun e => decide (e.end_ = v)) Edge.rec_capacity
            + c * ((path.filter (fun h => decide (handle_dst g h = v))).length : Int) := by
  induction path with
  | nil => intro g _; simp [augment]
  | cons p rest ih =>
    intro g hall
    obtain ⟨hfw, hvalid⟩ := hall p (List.mem_cons_self _ _)
    cases p with
    | null => exact absurd hfw id
    | ptr j r =>
      cases r with
      | true => exact absurd hfw id
      | false =>
        have hlen : (update_capacity g (.ptr j false) c).edges.length = g.edges.length :=
          (update_capacity_fields g _ c).2.2.2.2.2.2
        have hrest : ∀ h ∈ rest, IsForward h ∧ ValidPtr (update_capacity g (.ptr j false) c) h := by
          intro h hh
          obtain ⟨a, b⟩ := hall h (List.mem_cons_of_mem _ hh)
          refine ⟨a, ?_⟩
          cases h with
          | null => exact absurd b id
          | ptr k r => show k < _; rw [hlen]; exact b
        obtain ⟨i1, i2⟩ := ih (update_capacity g (.ptr j false) c) hrest
        have hsrc : ∀ h, handle_src (update_capacity g (.ptr j false) c) h = handle_src g h :=
          fun h => (handle_update_capacity g j c h).1
        have hdst : ∀ h, handle_dst (update_capacity g (.ptr j false) c) h = handle_dst g h :=
          fun h => (handle_update_capacity g j c h).2
        simp only [hsrc, hdst] at i1 i2
        constructor
        · show edge_sum (augment (update_capacity g (.ptr j false) c) rest c) _ _ = _
          rw [i1, edge_sum_update_start g j c hvalid v, List.filter_cons]
          by_cases hc : handle_src g (.ptr j false) = v
          · simp only [hc, if_true, decide_True, List.length_cons]
            push_cast
            ring
          · simp only [hc, if_false, decide_False]
            simp
        · show edge_sum (augment (update_capacity g (.ptr j false) c) rest c) _ _ = _
          rw [i2, edge_sum_update_end g j c hvalid v, List.filter_cons]
          by_cases hc : handle_dst g (.ptr j false) = v
          · simp only [hc, if_true, decide_True, List.length_cons]
            push_cast
            ring
          · simp only [hc, if_false, decide_False]
            simp

end Tethys

namespace Tethys

/-! ## The loop of `compute_residual_maxflow` -/

theorem forward_dst_ne_source {g : TethysGraph} (wf : WellFormed g) (h : EdgePtr)
    (hf : IsForward h) (hv : ValidPtr g h) :
    handle_dst g h ≠ .source ∧ handle_src g h ≠ .sink := by
  cases h with
  | null => exact absurd hf id
  | ptr i r =>
    cases r with
    | true => exact absurd hf id
    | false =>
      exact ⟨wf.no_in_source _ (getD_mem g.edges i default hv),
        wf.no_out_sink _ (getD_mem g.edges i default hv)⟩

theorem walk_count_source {g : TethysGraph} (wf : WellFormed g) :
    ∀ (path : List EdgePtr) (a b : VertexPtr), (∀ h ∈ path, IsForward h) →
      IsWalk g path a b →
      (path.filter (fun h => decide (handle_src g h = .source))).length
        = if a = .source ∧ path ≠ [] then 1 else 0 := by
  intro path
  induction path with
  | nil => intro a b _ _; simp
  | cons h rest ih =>
    intro a b hall hw
    obtain ⟨w1, w2, w3⟩ := hw
    have hne := (forward_dst_ne_source wf h (hall h (List.mem_cons_self _ _)) w1).1
    have := ih (handle_dst g h) b (fun x hx => hall x (List.mem_cons_of_mem _ hx)) w3
    rw [if_neg (fun c => hne c.1)] at this
    rw [List.filter_cons, w2]
    by_cases ha : a = .source
    · simp [ha, this]
    · simp [ha, this]

theorem walk_count_sink {g : TethysGraph} (wf : WellFormed g) :
    ∀ (path : List EdgePtr) (a b : VertexPtr), (∀ h ∈ path, IsForward h) →
      IsWalk g path a b →
      (path.filter (fun h => decide (handle_dst g h = .sink))).length
        = if b = .sink ∧ path ≠ [] then 1 else 0 := by
  intro path
  induction path with
  | nil => intro a b _ _; simp
  | cons h rest ih =>
    intro a b hall hw
    obtain ⟨w1, w2, w3⟩ := hw
    have ih' := ih (handle_dst g h) b (fun x hx => hall x (List.mem_cons_of_mem _ hx)) w3
    rw [List.filter_cons]
    cases rest with
    | nil =>
      have hb : handle_dst g h = b := w3
      rw [hb]
      by_cases hs : b = .sink
      · simp [hs]
      · simp [hs]
    | cons h2 rest2 =>
      obtain ⟨v1, v2, _⟩ := w3
      have hne := (forward_dst_ne_source wf h2
        (hall h2 (List.mem_cons_of_mem _ (List.mem_cons_self _ _))) v1).2
      rw [v2] at hne
      have hd : decide (handle_dst g h = .sink) = false := by simpa using hne
      rw [hd]
      simp only [Bool.false_eq_true, if_false]
      rw [ih']
      simp

theorem SameTopology.topo_refl (g : TethysGraph) : SameTopology g g :=
  ⟨rfl, rfl, rfl, fun _ => rfl, fun _ => rfl, rfl, fun _ => rfl, fun _ => rfl,
    fun _ => rfl⟩

theorem SameTopology.topo_trans {g0 g1 g2 : TethysGraph} (h1 : SameTopology g0 g1)
    (h2 : SameTopology g1 g2) : SameTopology g0 g2 :=
  ⟨h2.graph_size.trans h1.graph_size, h2.len0.trans h1.len0,
    h2.len1.trans h1.len1, fun v => (h2.out_edges v).trans (h1.out_edges v),
    fun v => (h2.in_edges v).trans (h1.in_edges v), h2.length.trans h1.length,
    fun i => (h2.start i).trans (h1.start i), fun i => (h2.end_ i).trans (h1.end_ i),
    fun i => (h2.value_index i).trans (h1.value_index i)⟩

theorem SameStructure.sameTopology {g0 g : TethysGraph} (h : SameStructure g0 g) :
    SameTopology g0 g :=
  ⟨h.graph_size, h.len0, h.len1, h.out_edges, h.in_edges, by rw [h.edges],
    fun i => by rw [h.edges], fun i => by rw [h.edges], fun i => by rw [h.edges]⟩

theorem mem_iff_getD {α : Type} (l : List α) (d : α) (x : α) :
    x ∈ l ↔ ∃ i, i < l.length ∧ l.getD i d = x := by
  constructor
  · intro hx
    obtain ⟨i, hi, e⟩ := List.getElem_of_mem hx
    exact ⟨i, hi, by simp [List.getD_eq_getElem?_getD, List.getElem?_eq_getElem hi, e]⟩
  · rintro ⟨i, hi, e⟩
    rw [← e]
    exact getD_mem l i d hi

theorem SameTopology.topo_validV {g0 g : TethysGraph} (h : SameTopology g0 g) (v : VertexPtr) :
    ValidV g v ↔ ValidV g0 v := by
  cases v with
  | source => exact Iff.rfl
  | sink => exact Iff.rfl
  | node b i => cases b <;> simp [ValidV, h.len0, h.len1]

theorem SameTopology.topo_wellFormed {g0 g : TethysGraph} (h : SameTopology g0 g)
    (wf : WellFormed g0) : WellFormed g := by
  refine ⟨h.len0.trans (wf.len0.trans h.graph_size.symm),
    h.len1.trans (wf.len1.trans h.graph_size.symm), ?_, ?_, ?_, ?_, ?_⟩
  · intro e he
    obtain ⟨i, hi, rfl⟩ := (mem_iff_getD g.edges default e).mp he
    rw [h.start, h.end_, h.topo_validV, h.topo_validV]
    exact wf.edge_valid _ (getD_mem _ i default (by rw [← h.length]; exact hi))
  · intro e he
    obtain ⟨i, hi, rfl⟩ := (mem_iff_getD g.edges default e).mp he
    rw [h.end_]
    exact wf.no_in_source _ (getD_mem _ i default (by rw [← h.length]; exact hi))
  · intro e he
    obtain ⟨i, hi, rfl⟩ := (mem_iff_getD g.edges default e).mp he
    rw [h.start]
    exact wf.no_out_sink _ (getD_mem _ i default (by rw [← h.length]; exact hi))
  · intro v hv
    rw [h.out_edges, wf.out_edges v ((h.topo_validV v).mp hv), h.length]
    simp only [h.start]
  · intro v hv
    rw [h.in_edges, wf.in_edges v ((h.topo_validV v).mp hv), h.length]
    simp only [h.end_]

theorem sameTopology_augment (g : TethysGraph) (path : List EdgePtr) (c : Int)
    (hnd : path.Nodup) (hall : ∀ h ∈ path, IsForward h ∧ ValidPtr g h) :
    SameTopology g (augment g path c) := by
  obtain ⟨a1, a2, a3, a4, a5, a6, a7⟩ := augment_fields g path c
  have hv := get_vertex_congr g (augment g path c) a3 a4 a5 a6
  have hget := augment_getD path c g hnd hall
  refine ⟨a1, by rw [a5], by rw [a6], fun v => by rw [hv], fun v => by rw [hv], a7,
    ?_, ?_, ?_⟩
  · intro i; rw [hget]; split <;> rfl
  · intro i; rw [hget]; split <;> rfl
  · intro i; rw [hget]; split <;> rfl

theorem FlowInv.of_sameStructure {g0 g g1 : TethysGraph} (h : FlowInv g0 g)
    (hs : SameStructure g g1) : FlowInv g0 g1 := by
  refine ⟨hs.wellFormed h.wf, h.topo.topo_trans hs.sameTopology, ?_, ?_, ?_⟩
  · intro i hi
    rw [hs.edges] at hi ⊢
    exact h.nonneg i hi
  · intro i hi
    rw [hs.edges] at hi ⊢
    exact h.conserve i hi
  · have := h.balance
    unfold edge_sum at this ⊢
    rw [hs.edges]
    exact this

theorem FlowInv.augment {g0 g : TethysGraph} (h : FlowInv g0 g) (path : List EdgePtr)
    (c : Int) (hw : IsWalk g path .source .sink) (hne : path ≠ []) (hnd : path.Nodup)
    (hall : ∀ x ∈ path, IsForward x ∧ ValidPtr g x ∧ 0 < edge_capacity g x
      ∧ c ≤ edge_capacity g x) (hc : 0 < c) : FlowInv g0 (Tethys.augment g path c) := by
  have hall' : ∀ x ∈ path, IsForward x ∧ ValidPtr g x := fun x hx => ⟨(hall x hx).1, (hall x hx).2.1⟩
  have topo := sameTopology_augment g path c hnd hall'
  have hget := augment_getD path c g hnd hall'
  refine ⟨topo.topo_wellFormed h.wf, h.topo.topo_trans topo, ?_, ?_, ?_⟩
  · intro i hi
    rw [topo.length] at hi
    rw [hget]
    split
    · next hmem =>
      have hx := (hall _ hmem).2.2.2
      have h0 := h.nonneg i hi
      simp only [edge_capacity] at hx
      simp only [Edge.shift]
      constructor <;> omega
    · exact h.nonneg i hi
  · intro i hi
    rw [topo.length] at hi
    rw [hget]
    split
    · have := h.conserve i hi
      simp only [Edge.shift]
      omega
    · exact h.conserve i hi
  · obtain ⟨s1, _⟩ := edge_sum_augment path c .source g hall'
    obtain ⟨_, s2⟩ := edge_sum_augment path c .sink g hall'
    rw [s1, s2, walk_count_source h.wf path _ _ (fun x hx => (hall x hx).1) hw,
      walk_count_sink h.wf path _ _ (fun x hx => (hall x hx).1) hw, h.balance]
    simp [hne]

/-- The loop of `compute_residual_maxflow`, when it ends: the invariant holds and the sink is
not reachable in the residual graph. -/
theorem maxflow_loop_spec (g0 : TethysGraph) (inner fuel : Nat) :
    ∀ g g1, FlowInv g0 g → maxflow_loop inner fuel g = some g1 →
      FlowInv g0 g1 ∧ ¬ Reach g1 .source .sink := by
  induction fuel with
  | zero => intro g g1 _ h; simp [maxflow_loop] at h
  | succ fuel ih =>
    intro g g1 inv h
    unfold maxflow_loop at h
    cases hf : find_source_sink_path inner g with
    | none => rw [hf] at h; simp at h
    | some r =>
      obtain ⟨path, cap, g2⟩ := r
      rw [hf] at h
      simp only at h
      obtain ⟨hs, hcase⟩ := find_source_sink_path_spec inner g path cap g2 inv.wf hf
      rcases hcase with ⟨hp, _, hno⟩ | ⟨hp, hw, hnd, hall, hpos, _, _⟩
      · rw [if_pos (by rw [hp]; rfl)] at h
        cases h
        exact ⟨inv.of_sameStructure hs, by rwa [hs.reach]⟩
      · rw [if_neg (by simpa using hp)] at h
        have inv2 := inv.of_sameStructure hs
        have hall2 : ∀ x ∈ path, IsForward x ∧ ValidPtr g2 x ∧ 0 < edge_capacity g2 x
            ∧ cap ≤ edge_capacity g2 x := by
          intro x hx
          obtain ⟨a1, a2, a3, a4⟩ := hall x hx
          exact ⟨a1, (hs.validPtr x).mpr a2, by rwa [hs.edge_capacity],
            by rwa [hs.edge_capacity]⟩
        exact ih _ g1 (inv2.augment path cap ((hs.isWalk _ _ _).mpr hw) hp hnd hall2 hpos) h

end Tethys

namespace Tethys

/-! ## `compute_residual_maxflow` and `transform_residual_to_flow` -/

theorem sum_map_filter_range (l : List Edge) (sel : Edge → Bool) (f : Edge → Int) :
    (((List.range l.length).filter (fun i => sel (l.getD i default))).map
        (fun i => f (l.getD i default))).sum
      = (l.map (fun e => if sel e then f e else 0)).sum := by
  induction l using List.reverseRecOn with
  | nil => simp
  | append_singleton l e ih =>
    rw [List.length_append, List.length_singleton, List.range_succ, List.filter_append,
      List.map_append, List.sum_append, List.map_append, List.sum_append]
    have hlast : (l ++ [e]).getD l.length default = e := by
      simp [List.getD_eq_getElem?_getD]
    have hfilter : (List.range l.length).filter (fun i => sel ((l ++ [e]).getD i default))
        = (List.range l.length).filter (fun i => sel (l.getD i default)) := by
      apply List.filter_congr
      intro i hi
      have hi' : i < l.length := List.mem_range.mp hi
      simp [List.getD_eq_getElem?_getD, List.getElem?_append_left hi']
    have hmap : ((List.range l.length).filter (fun i => sel (l.getD i default))).map
          (fun i => f ((l ++ [e]).getD i default))
        = ((List.range l.length).filter (fun i => sel (l.getD i default))).map
          (fun i => f (l.getD i default)) := by
      apply List.map_congr_left
      intro i hi
      have hi' : i < l.length := List.mem_range.mp (List.mem_filter.mp hi).1
      simp [List.getD_eq_getElem?_getD, List.getElem?_append_left hi']
    rw [hfilter, hmap, ih]
    congr 1
    simp only [List.filter_cons, List.filter_nil, hlast]
    by_cases hs : sel e = true
    · simp [hs]
    · simp [hs]

theorem handle_sum_out_edges {g : TethysGraph} (wf : WellFormed g) (v : VertexPtr)
    (hv : ValidV g v) (f : Edge → Int) :
    handle_sum g (get_vertex g v).out_edges f
      = edge_sum g (fun e => decide (e.start = v)) f := by
  unfold handle_sum edge_sum
  rw [wf.out_edges v hv, List.map_map, ← sum_map_filter_range]
  rfl

theorem handle_sum_in_edges {g : TethysGraph} (wf : WellFormed g) (v : VertexPtr)
    (hv : ValidV g v) (f : Edge → Int) :
    handle_sum g (get_vertex g v).in_edges f
      = edge_sum g (fun e => decide (e.end_ = v)) f := by
  unfold handle_sum edge_sum
  rw [wf.in_edges v hv, List.map_map, ← sum_map_filter_range]
  rfl

theorem edge_sum_eq_zero (g : TethysGraph) (sel : Edge → Bool) (f : Edge → Int)
    (h : ∀ e ∈ g.edges, f e = 0) : edge_sum g sel f = 0 := by
  unfold edge_sum
  apply List.sum_eq_zero
  intro x hx
  obtain ⟨e, he, rfl⟩ := List.mem_map.mp hx
  split
  · exact h e he
  · rfl

/-- A built graph with non-negative capacities satisfies the invariant of the max-flow loop. -/
theorem FlowInv.init {g : TethysGraph} (hb : Built g) (hnn : NonNegCapacities g) :
    FlowInv g g := by
  obtain ⟨wf, _, hrec, _⟩ := hb.facts
  refine ⟨wf, SameTopology.topo_refl g, ?_, ?_, ?_⟩
  · intro i hi
    have hm := getD_mem g.edges i default hi
    exact ⟨hnn _ hm, by rw [hrec _ hm]⟩
  · intro i hi
    rw [hrec _ (getD_mem g.edges i default hi)]
    omega
  · rw [edge_sum_eq_zero g _ _ hrec, edge_sum_eq_zero g _ _ hrec]

theorem compute_residual_maxflow_eq (fuel : Nat) (g g1 : TethysGraph)
    (hst : g.state = .Building) (h : compute_residual_maxflow fuel g = some (.ok g1)) :
    ∃ g2, maxflow_loop fuel fuel g = some g2 ∧ g1 = { g2 with state := .ResidualComputed } := by
  unfold compute_residual_maxflow at h
  rw [if_neg (by simp [hst])] at h
  cases hm : maxflow_loop fuel fuel g with
  | none => rw [hm] at h; simp at h
  | some g2 =>
    rw [hm] at h
    simp only [Option.some.injEq, Except.ok.injEq] at h
    exact ⟨g2, rfl, h.symm⟩

theorem sameStructure_with_state (g : TethysGraph) (st : State) :
    SameStructure g { g with state := st } := by
  refine ⟨rfl, rfl, rfl, rfl, ?_, ?_⟩
  · intro v
    cases v with
    | source => rfl
    | sink => rfl
    | node b i => cases b <;> rfl
  · intro v
    cases v with
    | source => rfl
    | sink => rfl
    | node b i => cases b <;> rfl

/-- The invariant after `compute_residual_maxflow` on a built graph. -/
theorem compute_residual_maxflow_spec (g : TethysGraph) (hb : Built g)
    (hnn : NonNegCapacities g) (fuel : Nat) (g1 : TethysGraph)
    (h : compute_residual_maxflow fuel g = some (.ok g1)) :
    FlowInv g g1 ∧ ¬ Reach g1 .source .sink ∧ g1.state = .ResidualComputed := by
  obtain ⟨g2, hm, hg1⟩ := compute_residual_maxflow_eq fuel g g1 hb.facts.2.1 h
  obtain ⟨inv, hno⟩ := maxflow_loop_spec g fuel fuel g g2 (FlowInv.init hb hnn) hm
  have hs := sameStructure_with_state g2 .ResidualComputed
  rw [hg1]
  exact ⟨inv.of_sameStructure hs, by rwa [hs.reach], rfl⟩

/-- C1. For every graph built in state `Building` with non-negative capacities, whenever
`compute_residual_maxflow` returns, the residual graph it leaves has no path from the source to
the sink. -/
theorem maxflow_no_residual_path (g : TethysGraph) (hb : Built g) (hnn : NonNegCapacities g)
    (fuel : Nat) (g1 : TethysGraph) (h : compute_residual_maxflow fuel g = some (.ok g1)) :
    ¬ Reach g1 .source .sink :=
  (compute_residual_maxflow_spec g hb hnn fuel g1 h).2.1

theorem line_graph_built : Built line_graph := by
  have h2 : InSsize 2 := by unfold InSsize SSIZE_MAX; norm_num
  have h1 : InSsize 1 := by unfold InSsize SSIZE_MAX; norm_num
  have b1 := Built.from_source 0 2 0 0 (Built.empty 1) h2 rfl
  have b2 := Built.edge 1 1 0 0 .ForcedRight b1 h1 rfl
  exact Built.to_sink 2 1 0 1 b2 h1 rfl

theorem line_graph_nonneg : NonNegCapacities line_graph := by
  intro e he
  simp [line_graph, push_edge, modify_vertex, TethysGraph.mk_empty] at he
  rcases he with h | h | h <;> subst h <;> decide

theorem line_graph_in_range : ResidualsInRange line_graph := by
  intro e he
  simp [line_graph, push_edge, modify_vertex, TethysGraph.mk_empty] at he
  rcases he with h | h | h <;> subst h <;> decide

/-- Witness of C1 on `line_graph`. -/
theorem maxflow_no_residual_path_witness :
    Built line_graph ∧ NonNegCapacities line_graph
      ∧ compute_residual_maxflow 10 line_graph = some (.ok (residual_graph 10 line_graph))
      ∧ ¬ Reach (residual_graph 10 line_graph) .source .sink :=
  ⟨line_graph_built, line_graph_nonneg, rfl,
    maxflow_no_residual_path line_graph line_graph_built line_graph_nonneg 10
      (residual_graph 10 line_graph) rfl⟩

theorem edge_capacity_le_max {g : TethysGraph} (hr : ResidualsInRange g) (h : EdgePtr)
    (hv : ValidPtr g h) : edge_capacity g h ≤ SSIZE_MAX := by
  cases h with
  | null => exact absurd hv id
  | ptr i r =>
    have := hr _ (getD_mem g.edges i default hv)
    cases r
    · exact this.1
    · exact this.2

/-- C6. On a well-formed graph whose residuals fit in `ssize_t`: whenever
`find_source_sink_path` returns a non-empty path, the path is a walk from the source to the sink
in the residual graph (the first handle leaves the source, each handle leaves the vertex the
previous one entered, the last enters the sink), every handle has a positive residual, and the
reported capacity is the minimum of the residuals along the path; and when the sink is not
reachable the function returns the empty path and capacity `0` (for any fuel of at least
`2 * graph_size + 3`). -/
theorem find_source_sink_path_walk (g : TethysGraph) (wf : WellFormed g)
    (hr : ResidualsInRange g) :
    (∀ fuel path cap g1, find_source_sink_path fuel g = some (path, cap, g1) → path ≠ [] →
        IsWalk g path .source .sink
        ∧ (∀ h ∈ path, 0 < edge_capacity g h)
        ∧ (∀ h ∈ path, cap ≤ edge_capacity g h)
        ∧ (∃ h ∈ path, cap = edge_capacity g h))
    ∧ (¬ Reach g .source .sink → ∀ fuel, 2 * g.graph_size + 3 ≤ fuel →
        ∃ g1, find_source_sink_path fuel g = some ([], 0, g1)) := by
  constructor
  · intro fuel path cap g1 h hne
    obtain ⟨_, hcase⟩ := find_source_sink_path_spec fuel g path cap g1 wf h
    rcases hcase with ⟨hp, _, _⟩ | ⟨_, hw, _, hall, _, _, hatt⟩
    · exact absurd hp hne
    · refine ⟨hw, fun x hx => (hall x hx).2.2.1, fun x hx => (hall x hx).2.2.2, ?_⟩
      rcases hatt with e | e
      · obtain ⟨x, hx⟩ := List.exists_mem_of_ne_nil path hne
        refine ⟨x, hx, le_antisymm (hall x hx).2.2.2 ?_⟩
        rw [e]
        exact edge_capacity_le_max hr x (hall x hx).2.1
      · exact e
  · intro hno fuel hfuel
    exact find_source_sink_path_no_path g wf hno fuel hfuel

/-- Witness of C6 on `line_graph`. -/
theorem find_source_sink_path_walk_witness :
    WellFormed line_graph ∧ ResidualsInRange line_graph
      ∧ find_source_sink_path 10 line_graph
          = some ([.ptr 0 false, .ptr 1 false, .ptr 2 false], 1, searched_graph 10 line_graph)
      ∧ IsWalk line_graph [.ptr 0 false, .ptr 1 false, .ptr 2 false] .source .sink
      ∧ (∀ h ∈ [EdgePtr.ptr 0 false, .ptr 1 false, .ptr 2 false],
          0 < edge_capacity line_graph h)
      ∧ (∀ h ∈ [EdgePtr.ptr 0 false, .ptr 1 false, .ptr 2 false],
          1 ≤ edge_capacity line_graph h)
      ∧ (∃ h ∈ [EdgePtr.ptr 0 false, .ptr 1 false, .ptr 2 false],
          1 = edge_capacity line_graph h) :=
  ⟨line_graph_built.facts.1, line_graph_in_range, rfl,
    (find_source_sink_path_walk line_graph line_graph_built.facts.1 line_graph_in_range).1
      10 [.ptr 0 false, .ptr 1 false, .ptr 2 false] 1 (searched_graph 10 line_graph) rfl
      (by decide)⟩

/-- C7. For every graph built with non-negative capacities: in state `Building` every edge has
`rec_capacity = 0`; and whenever `compute_residual_maxflow` returns, the state is
`ResidualComputed`, the edge table has the same edges, and every edge satisfies
`capacity + rec_capacity = original capacity` with `0 ≤ rec_capacity ≤ original capacity`. -/
theorem maxflow_capacity_invariant (g : TethysGraph) (hb : Built g)
    (hnn : NonNegCapacities g) :
    (g.state = .Building ∧ ∀ e ∈ g.edges, e.rec_capacity = 0)
    ∧ ∀ fuel g1, compute_residual_maxflow fuel g = some (.ok g1) →
        g1.state = .ResidualComputed ∧ g1.edges.length = g.edges.length
        ∧ ∀ i, i < g.edges.length →
            (g1.edges.getD i default).capacity + (g1.edges.getD i default).rec_capacity
              = (g.edges.getD i default).capacity
            ∧ 0 ≤ (g1.edges.getD i default).rec_capacity
            ∧ (g1.edges.getD i default).rec_capacity ≤ (g.edges.getD i default).capacity
            ∧ (g1.edges.getD i default).start = (g.edges.getD i default).start
            ∧ (g1.edges.getD i default).end_ = (g.edges.getD i default).end_
            ∧ (g1.edges.getD i default).value_index = (g.edges.getD i default).value_index := by
  refine ⟨⟨hb.facts.2.1, hb.facts.2.2.1⟩, ?_⟩
  intro fuel g1 h
  obtain ⟨inv, _, hst⟩ := compute_residual_maxflow_spec g hb hnn fuel g1 h
  refine ⟨hst, inv.topo.length, ?_⟩
  intro i hi
  have hi1 : i < g1.edges.length := by rw [inv.topo.length]; exact hi
  have h1 := inv.nonneg i hi1
  have h2 := inv.conserve i hi1
  exact ⟨h2, h1.2, by omega, inv.topo.start i, inv.topo.end_ i, inv.topo.value_index i⟩

/-- Witness of C7 on `line_graph`. -/
theorem maxflow_capacity_invariant_witness :
    Built line_graph ∧ NonNegCapacities line_graph
      ∧ (line_graph.state = .Building ∧ ∀ e ∈ line_graph.edges, e.rec_capacity = 0)
      ∧ compute_residual_maxflow 10 line_graph = some (.ok (residual_graph 10 line_graph))
      ∧ (residual_graph 10 line_graph).state = .ResidualComputed :=
  ⟨line_graph_built, line_graph_nonneg,
    (maxflow_capacity_invariant line_graph line_graph_built line_graph_nonneg).1, rfl,
    ((maxflow_capacity_invariant line_graph line_graph_built line_graph_nonneg).2 10
      (residual_graph 10 line_graph) rfl).1⟩

theorem map_eq_map_range {α β : Type} (l : List α) (d : α) (φ : α → β) :
    l.map φ = (List.range l.length).map (fun i => φ (l.getD i d)) := by
  apply List.ext_getElem
  · simp
  · intro i h1 h2
    simp only [List.length_map] at h1
    simp [List.getD_eq_getElem?_getD, List.getElem?_eq_getElem h1]

theorem sum_map_sub_of_forall {α : Type} (l : List α) (a b c : α → Int)
    (h : ∀ x ∈ l, a x = b x - c x) : (l.map a).sum = (l.map b).sum - (l.map c).sum := by
  induction l with
  | nil => simp
  | cons x l ih =>
    simp only [List.map_cons, List.sum_cons]
    rw [ih (fun y hy => h y (List.mem_cons_of_mem _ hy)), h x (List.mem_cons_self _ _)]
    ring

theorem transform_residual_to_flow_eq (g1 g2 : TethysGraph)
    (h : transform_residual_to_flow g1 = .ok g2) :
    g1.state = .ResidualComputed
      ∧ g2 = { g1 with
          edges := g1.edges.map (fun e => { e with capacity := e.rec_capacity, rec_capacity := 0 })
          state := .MaxFlowComputed } := by
  unfold transform_residual_to_flow at h
  split at h
  · cases h
  · next hst =>
    injection h with h
    exact ⟨by simpa using hst, h.symm⟩

theorem sameTopology_transform (g1 g2 : TethysGraph)
    (h : transform_residual_to_flow g1 = .ok g2) : SameTopology g1 g2 := by
  obtain ⟨_, hg2⟩ := transform_residual_to_flow_eq g1 g2 h
  subst hg2
  have hv : ∀ v, get_vertex { g1 with
      edges := g1.edges.map (fun e => { e with capacity := e.rec_capacity, rec_capacity := 0 })
      state := .MaxFlowComputed } v = get_vertex g1 v := by
    intro v
    cases v with
    | source => rfl
    | sink => rfl
    | node b i => cases b <;> rfl
  have hget : ∀ i, (g1.edges.map
      (fun e : Edge => { e with capacity := e.rec_capacity, rec_capacity := 0 })).getD i default
      = { g1.edges.getD i default with
          capacity := (g1.edges.getD i default).rec_capacity, rec_capacity := 0 } :=
    fun i => getD_map_default
      (fun e : Edge => { e with capacity := e.rec_capacity, rec_capacity := 0 }) _ i default rfl
  refine ⟨rfl, rfl, rfl, fun v => by rw [hv], fun v => by rw [hv], by simp, ?_, ?_, ?_⟩
  · intro i
    have := congrArg Edge.start (hget i)
    exact this
  · intro i
    have := congrArg Edge.end_ (hget i)
    exact this
  · intro i
    have := congrArg Edge.value_index (hget i)
    exact this

theorem edge_sum_transform (g1 g2 : TethysGraph)
    (h : transform_residual_to_flow g1 = .ok g2) (v : VertexPtr) :
    edge_sum g2 (fun e => decide (e.start = v)) Edge.capacity
        = edge_sum g1 (fun e => decide (e.start = v)) Edge.rec_capacity
      ∧ edge_sum g2 (fun e => decide (e.end_ = v)) Edge.capacity
        = edge_sum g1 (fun e => decide (e.end_ = v)) Edge.rec_capacity := by
  obtain ⟨_, hg2⟩ := transform_residual_to_flow_eq g1 g2 h
  subst hg2
  unfold edge_sum
  simp only [List.map_map]
  exact ⟨rfl, rfl⟩

/-- C8. For every graph built with non-negative capacities, after `compute_residual_maxflow`
followed by `transform_residual_to_flow` the sum of the capacities of the in-edges of the sink
equals the sum of the capacities of the out-edges of the source, which is the original total
capacity of the out-edges of the source minus the residual capacity the max-flow left on them. -/
theorem flow_into_sink_eq_flow_out_of_source (g : TethysGraph) (hb : Built g)
    (hnn : NonNegCapacities g) (fuel : Nat) (g1 g2 : TethysGraph)
    (h1 : compute_residual_maxflow fuel g = some (.ok g1))
    (h2 : transform_residual_to_flow g1 = .ok g2) :
    handle_sum g2 g2.sink.in_edges Edge.capacity
        = handle_sum g2 g2.source.out_edges Edge.capacity
      ∧ handle_sum g2 g2.source.out_edges Edge.capacity
        = handle_sum g g.source.out_edges Edge.capacity
          - handle_sum g1 g1.source.out_edges Edge.capacity := by
  obtain ⟨inv, _, _⟩ := compute_residual_maxflow_spec g hb hnn fuel g1 h1
  have topo := sameTopology_transform g1 g2 h2
  have wf2 : WellFormed g2 := topo.topo_wellFormed inv.wf
  have wf0 : WellFormed g := hb.facts.1
  have e_in : handle_sum g2 g2.sink.in_edges Edge.capacity
      = edge_sum g2 (fun e => decide (e.end_ = .sink)) Edge.capacity :=
    handle_sum_in_edges wf2 .sink trivial _
  have e_out : handle_sum g2 g2.source.out_edges Edge.capacity
      = edge_sum g2 (fun e => decide (e.start = .source)) Edge.capacity :=
    handle_sum_out_edges wf2 .source trivial _
  have e_out0 : handle_sum g g.source.out_edges Edge.capacity
      = edge_sum g (fun e => decide (e.start = .source)) Edge.capacity :=
    handle_sum_out_edges wf0 .source trivial _
  have e_out1 : handle_sum g1 g1.source.out_edges Edge.capacity
      = edge_sum g1 (fun e => decide (e.start = .source)) Edge.capacity :=
    handle_sum_out_edges inv.wf .source trivial _
  rw [e_in, e_out, e_out0, e_out1, (edge_sum_transform g1 g2 h2 .sink).2,
    (edge_sum_transform g1 g2 h2 .source).1]
  refine ⟨inv.balance.symm, ?_⟩
  unfold edge_sum
  rw [map_eq_map_range g1.edges default, map_eq_map_range g.edges default,
    map_eq_map_range g1.edges default, inv.topo.length]
  apply sum_map_sub_of_forall
  intro i hi
  have hi' : i < g1.edges.length := by
    rw [inv.topo.length]; exact List.mem_range.mp hi
  have hc := inv.conserve i hi'
  simp only [inv.topo.start i]
  split
  · omega
  · rfl

/-- Witness of C8 on `line_graph`. -/
theorem flow_into_sink_eq_flow_out_of_source_witness :
    Built line_graph ∧ NonNegCapacities line_graph
      ∧ compute_residual_maxflow 10 line_graph = some (.ok (residual_graph 10 line_graph))
      ∧ transform_residual_to_flow (residual_graph 10 line_graph)
          = .ok (flow_graph 10 line_graph)
      ∧ handle_sum (flow_graph 10 line_graph) (flow_graph 10 line_graph).sink.in_edges
          Edge.capacity = 1
      ∧ handle_sum (flow_graph 10 line_graph) (flow_graph 10 line_graph).source.out_edges
          Edge.capacity = 1 :=
  ⟨line_graph_built, line_graph_nonneg, rfl, rfl,
    ((flow_into_sink_eq_flow_out_of_source line_graph line_graph_built line_graph_nonneg 10
      (residual_graph 10 line_graph) (flow_graph 10 line_graph) rfl rfl).1.trans (by decide)),
    by decide⟩

end Tethys

namespace Tethys

/-! ## More fuel never changes a result -/

theorem search_loop_mono (fuel : Nat) :
    ∀ s r, search_loop fuel s = some r → search_loop (fuel + 1) s = some r := by
  induction fuel with
  | zero => intro s r h; simp [search_loop] at h
  | succ fuel ih =>
    intro s r h
    unfold search_loop at h ⊢
    by_cases hf : s.found_sink = true
    · rw [if_pos hf] at h ⊢
      exact h
    · rw [if_neg hf] at h ⊢
      cases hq : s.queue with
      | nil => rw [hq] at h; exact h
      | cons front rest =>
        rw [hq] at h
        exact ih _ r h

theorem search_loop_mono_le (f1 f2 : Nat) (hle : f1 ≤ f2) (s r : SearchState)
    (h : search_loop f1 s = some r) : search_loop f2 s = some r := by
  induction hle with
  | refl => exact h
  | step _ ih => exact search_loop_mono _ s r ih

theorem find_source_sink_path_mono (f1 f2 : Nat) (hle : f1 ≤ f2) (g : TethysGraph)
    (r : List EdgePtr × Int × TethysGraph) (h : find_source_sink_path f1 g = some r) :
    find_source_sink_path f2 g = some r := by
  unfold find_source_sink_path at h ⊢
  cases hs : search_loop f1 ⟨reset_parent_edges g, [.source], false⟩ with
  | none => rw [hs] at h; simp at h
  | some s =>
    rw [hs] at h
    rw [search_loop_mono_le f1 f2 hle _ s hs]
    simp only at h ⊢
    by_cases hp : s.g.sink.parent_edge ≠ .null
    · rw [if_pos hp] at h ⊢
      rw [path_size_capacity_eq] at h ⊢
      cases hc : parent_chain s.g f1 .sink with
      | none => rw [hc] at h; simp at h
      | some l =>
        rw [hc] at h
        rw [parent_chain_mono_le s.g f1 f2 hle .sink l hc]
        simp only [Option.map_some'] at h ⊢
        rw [fill_path_eq] at h ⊢
        rw [hc] at h
        rw [parent_chain_mono_le s.g f1 f2 hle .sink l hc]
        exact h
    · rw [if_neg hp] at h ⊢
      exact h

theorem maxflow_loop_mono (i1 i2 : Nat) (hi : i1 ≤ i2) (fuel : Nat) :
    ∀ g r, maxflow_loop i1 fuel g = some r → maxflow_loop i2 (fuel + 1) g = some r := by
  induction fuel with
  | zero => intro g r h; simp [maxflow_loop] at h
  | succ fuel ih =>
    intro g r h
    unfold maxflow_loop at h ⊢
    cases hf : find_source_sink_path i1 g with
    | none => rw [hf] at h; simp at h
    | some p =>
      obtain ⟨path, cap, g1⟩ := p
      rw [hf] at h
      rw [find_source_sink_path_mono i1 i2 hi g _ hf]
      simp only at h ⊢
      by_cases hl : path.length = 0
      · rw [if_pos hl] at h ⊢
        exact h
      · rw [if_neg hl] at h ⊢
        exact ih _ r h

theorem maxflow_loop_mono_le (i1 i2 : Nat) (hi : i1 ≤ i2) (f1 f2 : Nat) (hle : f1 ≤ f2)
    (g r : TethysGraph) (h : maxflow_loop i1 f1 g = some r) :
    maxflow_loop i2 f2 g = some r := by
  induction hle with
  | refl =>
    cases f1 with
    | zero => simp [maxflow_loop] at h
    | succ n =>
      revert h
      generalize n + 1 = m
      intro h
      induction m generalizing g with
      | zero => simp [maxflow_loop] at h
      | succ m ihm =>
        unfold maxflow_loop at h ⊢
        cases hf : find_source_sink_path i1 g with
        | none => rw [hf] at h; simp at h
        | some p =>
          obtain ⟨path, cap, g1⟩ := p
          rw [hf] at h
          rw [find_source_sink_path_mono i1 i2 hi g _ hf]
          simp only at h ⊢
          by_cases hl : path.length = 0
          · rw [if_pos hl] at h ⊢
            exact h
          · rw [if_neg hl] at h ⊢
            exact ihm _ h
  | step _ ih => exact maxflow_loop_mono i2 i2 (le_refl _) _ g r ih

theorem compute_residual_maxflow_mono (f1 f2 : Nat) (hle : f1 ≤ f2) (g : TethysGraph)
    (r : Except TethysError TethysGraph) (h : compute_residual_maxflow f1 g = some r) :
    compute_residual_maxflow f2 g = some r := by
  unfold compute_residual_maxflow at h ⊢
  by_cases hst : g.state ≠ .Building
  · rw [if_pos hst] at h ⊢
    exact h
  · rw [if_neg hst] at h ⊢
    cases hm : maxflow_loop f1 f1 g with
    | none => rw [hm] at h; simp at h
    | some g1 =>
      rw [hm] at h
      rw [maxflow_loop_mono_le f1 f2 hle f1 f2 hle g g1 hm]
      exact h

/-! ## State and bounds errors -/

theorem push_edge_state (g : TethysGraph) (e : Edge) : (push_edge g e).state = g.state := by
  unfold push_edge modify_vertex
  cases e.start <;> cases e.end_ <;> try rfl
  all_goals (rename_i b i; cases b <;> try rfl)
  all_goals (rename_i b i; cases b <;> rfl)

theorem run_call_not_building (fuel : Nat) (g : TethysGraph) (hst : g.state ≠ .Building)
    (c : Call) (hc : c ≠ .transform_residual_to_flow) :
    run_call fuel g c = some (.error .invalid_argument) := by
  cases c with
  | add_edge vi cap s e o => simp [run_call, add_edge, hst]
  | add_edge_from_source vi cap e t => simp [run_call, add_edge_from_source, hst]
  | add_edge_to_sink vi cap s t => simp [run_call, add_edge_to_sink, hst]
  | compute_residual_maxflow => simp [run_call, compute_residual_maxflow, hst]
  | transform_residual_to_flow => exact absurd rfl hc

theorem run_call_ok (fuel : Nat) (g g1 : TethysGraph) (c : Call)
    (h : run_call fuel g c = some (.ok g1)) :
    (g.state = .Building ∧ g1.state = .Building ∧ g1.edges.length = g.edges.length + 1
        ∧ c ≠ .compute_residual_maxflow ∧ c ≠ .transform_residual_to_flow)
      ∨ (g.state = .Building ∧ g1.state = .ResidualComputed ∧ c = .compute_residual_maxflow)
      ∨ (g.state = .ResidualComputed ∧ g1.state = .MaxFlowComputed
          ∧ c = .transform_residual_to_flow
          ∧ g1.edges.length = g.edges.length ∧ g1.source = g.source ∧ g1.sink = g.sink
          ∧ g1.vertices0 = g.vertices0 ∧ g1.vertices1 = g.vertices1) := by
  have hpush : ∀ e, (push_edge g e).edges.length = g.edges.length + 1 := by
    intro e
    rw [(push_edge_fields g e).1]
    simp
  cases c with
  | add_edge vi cap s e o =>
    left
    simp only [run_call, Option.some.injEq] at h
    unfold add_edge at h
    split at h
    · cases h
    · next hst =>
      split at h
      · cases h
      · split at h
        · cases h
        · injection h with h
          subst h
          exact ⟨by simpa using hst, by rw [push_edge_state]; simpa using hst, hpush _,
            by simp, by simp⟩
  | add_edge_from_source vi cap e t =>
    left
    simp only [run_call, Option.some.injEq] at h
    unfold add_edge_from_source at h
    split at h
    · cases h
    · next hst =>
      split at h
      · cases h
      · split at h
        · cases h
        · injection h with h
          subst h
          exact ⟨by simpa using hst, by rw [push_edge_state]; simpa using hst, hpush _,
            by simp, by simp⟩
  | add_edge_to_sink vi cap s t =>
    left
    simp only [run_call, Option.some.injEq] at h
    unfold add_edge_to_sink at h
    split at h
    · cases h
    · next hst =>
      split at h
      · cases h
      · split at h
        · cases h
        · injection h with h
          subst h
          exact ⟨by simpa using hst, by rw [push_edge_state]; simpa using hst, hpush _,
            by simp, by simp⟩
  | compute_residual_maxflow =>
    right; left
    simp only [run_call] at h
    by_cases hst : g.state = .Building
    · obtain ⟨g2, _, hg1⟩ := compute_residual_maxflow_eq fuel g g1 hst h
      exact ⟨hst, by rw [hg1], rfl⟩
    · unfold compute_residual_maxflow at h
      rw [if_pos hst] at h
      cases h
  | transform_residual_to_flow =>
    right; right
    simp only [run_call, Option.some.injEq] at h
    obtain ⟨hst, hg1⟩ := transform_residual_to_flow_eq g g1 h
    subst hg1
    exact ⟨hst, rfl, rfl, by simp, rfl, rfl, rfl, rfl⟩

theorem rank_run_call (fuel : Nat) (g : TethysGraph) (c : Call)
    (r : Except TethysError TethysGraph) (h : run_call fuel g c = some r) :
    g.state.rank ≤ (graph_after g r).state.rank
      ∧ (g.state ≠ .Building → (graph_after g r).state ≠ .Building
          ∧ (graph_after g r).edges.length = g.edges.length
          ∧ (graph_after g r).source = g.source ∧ (graph_after g r).sink = g.sink
          ∧ (graph_after g r).vertices0 = g.vertices0
          ∧ (graph_after g r).vertices1 = g.vertices1) := by
  cases r with
  | error err => exact ⟨le_refl _, fun hst => ⟨hst, rfl, rfl, rfl, rfl, rfl⟩⟩
  | ok g1 =>
    show g.state.rank ≤ g1.state.rank ∧ _
    simp only [graph_after]
    rcases run_call_ok fuel g g1 c h with ⟨h0, h1, _⟩ | ⟨h0, h1, _⟩ | ⟨h0, h1, _, h2⟩
    · rw [h0, h1]; exact ⟨le_refl _, fun hst => absurd rfl hst⟩
    · rw [h0, h1]; exact ⟨by decide, fun hst => absurd rfl hst⟩
    · rw [h0, h1]; exact ⟨by decide, fun _ => ⟨by decide, h2⟩⟩

theorem rank_run_calls (fuel : Nat) (cs : List Call) :
    ∀ g g1, run_calls fuel g cs = some g1 →
      g.state.rank ≤ g1.state.rank
        ∧ (g.state ≠ .Building → g1.edges.length = g.edges.length
            ∧ g1.source = g.source ∧ g1.sink = g.sink
            ∧ g1.vertices0 = g.vertices0 ∧ g1.vertices1 = g.vertices1) := by
  induction cs with
  | nil =>
    intro g g1 h
    simp only [run_calls, Option.some.injEq] at h
    subst h
    exact ⟨le_refl _, fun _ => ⟨rfl, rfl, rfl, rfl, rfl⟩⟩
  | cons c rest ih =>
    intro g g1 h
    unfold run_calls at h
    cases hc : run_call fuel g c with
    | none => rw [hc] at h; simp at h
    | some r =>
      rw [hc] at h
      simp only at h
      obtain ⟨a1, a2⟩ := rank_run_call fuel g c r hc
      obtain ⟨b1, b2⟩ := ih _ g1 h
      refine ⟨le_trans a1 b1, fun hst => ?_⟩
      obtain ⟨c0, c1, c2, c3, c4, c5⟩ := a2 hst
      obtain ⟨d1, d2, d3, d4, d5⟩ := b2 c0
      exact ⟨d1.trans c1, d2.trans c2, d3.trans c3, d4.trans c4, d5.trans c5⟩

/-- C13. State errors: on a graph whose state is not `Building`, `add_edge`,
`add_edge_from_source`, `add_edge_to_sink` and `compute_residual_maxflow` (whatever its fuel)
throw `invalid_argument`; on a graph whose state is not `ResidualComputed`,
`transform_residual_to_flow` throws `invalid_argument`; a call that throws leaves the graph object
as it was; over any sequence of calls the state never goes back in the order `Building`,
`ResidualComputed`, `MaxFlowComputed`, and once the state is not `Building` the number of edges
and the adjacency lists never change again. -/
theorem state_errors (g : TethysGraph) (fuel : Nat) :
    (g.state ≠ .Building →
      (∀ value_index cap start end_ orientation,
        add_edge g value_index cap start end_ orientation = .error .invalid_argument)
      ∧ (∀ value_index cap end_ table,
        add_edge_from_source g value_index cap end_ table = .error .invalid_argument)
      ∧ (∀ value_index cap start table,
        add_edge_to_sink g value_index cap start table = .error .invalid_argument)
      ∧ compute_residual_maxflow fuel g = some (.error .invalid_argument))
    ∧ (g.state ≠ .ResidualComputed →
        transform_residual_to_flow g = .error .invalid_argument)
    ∧ (∀ c err, run_call fuel g c = some (.error err) →
        graph_after g (.error err) = g)
    ∧ (∀ c g1, run_call fuel g c = some (.ok g1) →
        (g.state = .Building ∧ g1.state = .Building)
          ∨ (g.state = .Building ∧ g1.state = .ResidualComputed
              ∧ c = .compute_residual_maxflow)
          ∨ (g.state = .ResidualComputed ∧ g1.state = .MaxFlowComputed
              ∧ c = .transform_residual_to_flow))
    ∧ (∀ cs g1, run_calls fuel g cs = some g1 →
        g.state.rank ≤ g1.state.rank
          ∧ (g.state ≠ .Building → g1.edges.length = g.edges.length
              ∧ g1.source = g.source ∧ g1.sink = g.sink
              ∧ g1.vertices0 = g.vertices0 ∧ g1.vertices1 = g.vertices1)) := by
  refine ⟨fun hst => ⟨?_, ?_, ?_, ?_⟩, ?_, ?_, ?_, ?_⟩
  · intro vi cap s e o
    simp [add_edge, hst]
  · intro vi cap e t
    simp [add_edge_from_source, hst]
  · intro vi cap s t
    simp [add_edge_to_sink, hst]
  · simp [compute_residual_maxflow, hst]
  · intro hst
    simp [transform_residual_to_flow, hst]
  · intro c err _
    rfl
  · intro c g1 h
    rcases run_call_ok fuel g g1 c h with ⟨h0, h1, _⟩ | ⟨h0, h1, h2⟩ | ⟨h0, h1, h2, _⟩
    · exact Or.inl ⟨h0, h1⟩
    · exact Or.inr (Or.inl ⟨h0, h1, h2⟩)
    · exact Or.inr (Or.inr ⟨h0, h1, h2⟩)
  · intro cs g1 h
    exact rank_run_calls fuel cs g g1 h

/-- C14. Bounds errors: in state `Building`, `add_edge` throws `out_of_range` exactly when
`start ≥ graph_size` or `end ≥ graph_size`, `add_edge_from_source` exactly when
`end ≥ graph_size` or `table > 1`, `add_edge_to_sink` exactly when `start ≥ graph_size` or
`table > 1`; in each case the call otherwise succeeds, and a call that throws leaves the graph
object as it was. -/
theorem bounds_errors (g : TethysGraph) (hst : g.state = .Building) (value_index : Nat)
    (cap : Int) (start end_ table : Nat) (orientation : EdgeOrientation) :
    (add_edge g value_index cap start end_ orientation = .error .out_of_range
        ↔ start ≥ g.graph_size ∨ end_ ≥ g.graph_size)
    ∧ (add_edge_from_source g value_index cap end_ table = .error .out_of_range
        ↔ end_ ≥ g.graph_size ∨ table > 1)
    ∧ (add_edge_to_sink g value_index cap start table = .error .out_of_range
        ↔ start ≥ g.graph_size ∨ table > 1)
    ∧ (¬ (start ≥ g.graph_size ∨ end_ ≥ g.graph_size) →
        ∃ e, add_edge g value_index cap start end_ orientation = .ok (push_edge g e))
    ∧ (¬ (end_ ≥ g.graph_size ∨ table > 1) →
        ∃ e, add_edge_from_source g value_index cap end_ table = .ok (push_edge g e))
    ∧ (¬ (start ≥ g.graph_size ∨ table > 1) →
        ∃ e, add_edge_to_sink g value_index cap start table = .ok (push_edge g e))
    ∧ (∀ err, add_edge g value_index cap start end_ orientation = .error err →
        graph_after g (add_edge g value_index cap start end_ orientation) = g)
    ∧ (∀ err, add_edge_from_source g value_index cap end_ table = .error err →
        graph_after g (add_edge_from_source g value_index cap end_ table) = g)
    ∧ (∀ err, add_edge_to_sink g value_index cap start table = .error err →
        graph_after g (add_edge_to_sink g value_index cap start table) = g) := by
  have hb : ¬ (g.state ≠ .Building) := by simp [hst]
  refine ⟨?_, ?_, ?_, ?_, ?_, ?_, ?_, ?_, ?_⟩
  · unfold add_edge
    rw [if_neg hb]
    by_cases h1 : start ≥ g.graph_size
    · simp [h1]
    · by_cases h2 : end_ ≥ g.graph_size
      · simp [h1, h2]
      · rw [if_neg h1, if_neg h2]
        simp [h1, h2]
  · unfold add_edge_from_source
    rw [if_neg hb]
    by_cases h1 : end_ ≥ g.graph_size
    · simp [h1]
    · by_cases h2 : table > 1
      · simp [h1, h2]
      · rw [if_neg h1, if_neg h2]
        simp [h1, h2]
  · unfold add_edge_to_sink
    rw [if_neg hb]
    by_cases h1 : start ≥ g.graph_size
    · simp [h1]
    · by_cases h2 : table > 1
      · simp [h1, h2]
      · rw [if_neg h1, if_neg h2]
        simp [h1, h2]
  · intro h
    rw [not_or] at h
    unfold add_edge
    rw [if_neg hb, if_neg h.1, if_neg h.2]
    exact ⟨_, rfl⟩
  · intro h
    rw [not_or] at h
    unfold add_edge_from_source
    rw [if_neg hb, if_neg h.1, if_neg h.2]
    exact ⟨_, rfl⟩
  · intro h
    rw [not_or] at h
    unfold add_edge_to_sink
    rw [if_neg hb, if_neg h.1, if_neg h.2]
    exact ⟨_, rfl⟩
  · intro err h
    rw [h]
    rfl
  · intro err h
    rw [h]
    rfl
  · intro err h
    rw [h]
    rfl

theorem bounds_errors_witness :
    (TethysGraph.mk_empty 2).state = .Building
      ∧ add_edge (TethysGraph.mk_empty 2) 0 1 2 0 .ForcedLeft = .error .out_of_range
      ∧ add_edge_from_source (TethysGraph.mk_empty 2) 0 1 0 2 = .error .out_of_range
      ∧ add_edge_to_sink (TethysGraph.mk_empty 2) 0 1 2 0 = .error .out_of_range :=
  have h := bounds_errors (TethysGraph.mk_empty 2) rfl 0 1 2 0 2 .ForcedLeft
  ⟨rfl, h.1.mpr (Or.inl (le_refl 2)), h.2.1.mpr (Or.inr (by decide)),
    h.2.2.1.mpr (Or.inl (le_refl 2))⟩

/-- C15. On a graph in state `ResidualComputed`, `transform_residual_to_flow` succeeds; in the
graph it leaves every edge has as `capacity` the `rec_capacity` it had before and `rec_capacity`
0, keeps its `value_index`, `start` and `end` and its place in the edge table; the vertices (with
their adjacency lists) and `graph_size` are unchanged and the state is `MaxFlowComputed`. -/
theorem transform_residual_to_flow_sets_flow (g : TethysGraph)
    (hst : g.state = .ResidualComputed) :
    ∃ g2, transform_residual_to_flow g = .ok g2
      ∧ g2.state = .MaxFlowComputed
      ∧ g2.edges.length = g.edges.length
      ∧ (∀ i, i < g.edges.length →
          (g2.edges.getD i default).capacity = (g.edges.getD i default).rec_capacity
          ∧ (g2.edges.getD i default).rec_capacity = 0
          ∧ (g2.edges.getD i default).value_index = (g.edges.getD i default).value_index
          ∧ (g2.edges.getD i default).start = (g.edges.getD i default).start
          ∧ (g2.edges.getD i default).end_ = (g.edges.getD i default).end_)
      ∧ g2.graph_size = g.graph_size
      ∧ g2.source = g.source ∧ g2.sink = g.sink
      ∧ g2.vertices0 = g.vertices0 ∧ g2.vertices1 = g.vertices1 := by
  refine ⟨{ g with
      edges := g.edges.map (fun e => { e with capacity := e.rec_capacity, rec_capacity := 0 })
      state := .MaxFlowComputed },
    by unfold transform_residual_to_flow; rw [if_neg (by simp [hst])], rfl, by simp,
    ?_, rfl, rfl, rfl, rfl, rfl⟩
  intro i hi
  simp only [List.getD_eq_getElem?_getD, List.getElem?_map]
  rw [List.getElem?_eq_getElem hi]
  simp

theorem transform_residual_to_flow_sets_flow_witness :
    (residual_graph 10 line_graph).state = .ResidualComputed
      ∧ ∃ g2, transform_residual_to_flow (residual_graph 10 line_graph) = .ok g2
        ∧ g2.state = .MaxFlowComputed
        ∧ (g2.edges.getD 0 default).capacity
            = ((residual_graph 10 line_graph).edges.getD 0 default).rec_capacity :=
  have h := transform_residual_to_flow_sets_flow (residual_graph 10 line_graph) rfl
  ⟨rfl, h.choose, h.choose_spec.1, h.choose_spec.2.1,
    (h.choose_spec.2.2.2.1 0 (by decide)).1⟩

end Tethys

namespace Tethys

/-! ## The graphs of `test_dfs` and `test_graphs` -/

theorem test_build_ok (c : Int) : test_build c = .ok (test_graph c) := rfl

theorem test_graph_edges (c : Int) :
    (test_graph c).edges
      = [⟨0, c, 0, .source, .node false 0⟩, ⟨1, c, 0, .node false 0, .node true 3⟩,
         ⟨2, 1, 0, .node true 3, .node false 1⟩, ⟨3, 1, 0, .node false 1, .sink⟩,
         ⟨4, 1, 0, .node true 3, .node false 2⟩, ⟨5, 1, 0, .node false 2, .node true 4⟩,
         ⟨6, 1, 0, .node true 4, .sink⟩] := rfl

theorem test_dfs_path_6 :
    find_source_sink_path 6 test_dfs_graph
      = some ([.ptr 0 false, .ptr 1 false, .ptr 4 false, .ptr 5 false, .ptr 6 false], 1,
          searched_graph 6 test_dfs_graph) := rfl

theorem test_graphs_residual_6 :
    compute_residual_maxflow 6 test_graphs_graph
      = some (.ok (residual_graph 6 test_graphs_graph)) := rfl

theorem test_graphs_flow_6 :
    transform_residual_to_flow (residual_graph 6 test_graphs_graph)
      = .ok (flow_graph 6 test_graphs_graph) := rfl

/-- C16. On the graph of `test_dfs` (the seven calls succeed and give the edges `e0 : source → v0`
of capacity 2, `e1 : v0 → v3` of capacity 2, `e2 : v3 → v1`, `e3 : v1 → sink`, `e4 : v3 → v2`,
`e5 : v2 → v4`, `e6 : v4 → sink` of capacity 1, with `value_index` the edge number), the first
call of `find_source_sink_path`, with any fuel of at least 6, returns a path whose `value_index`
sequence is `[0, 1, 4, 5, 6]` and reports the capacity 1. -/
theorem test_dfs_first_path (fuel : Nat) (h : 6 ≤ fuel) :
    test_build 2 = .ok test_dfs_graph
      ∧ test_dfs_graph.edges
          = [⟨0, 2, 0, .source, .node false 0⟩, ⟨1, 2, 0, .node false 0, .node true 3⟩,
             ⟨2, 1, 0, .node true 3, .node false 1⟩, ⟨3, 1, 0, .node false 1, .sink⟩,
             ⟨4, 1, 0, .node true 3, .node false 2⟩, ⟨5, 1, 0, .node false 2, .node true 4⟩,
             ⟨6, 1, 0, .node true 4, .sink⟩]
      ∧ ∃ path g1, find_source_sink_path fuel test_dfs_graph = some (path, 1, g1)
          ∧ path_value_indices g1 path = [0, 1, 4, 5, 6] :=
  ⟨rfl, rfl, _, _, find_source_sink_path_mono 6 fuel h _ _ test_dfs_path_6, rfl⟩

theorem test_dfs_first_path_witness :
    6 ≤ 6 ∧ ∃ path g1, find_source_sink_path 6 test_dfs_graph = some (path, 1, g1)
      ∧ path_value_indices g1 path = [0, 1, 4, 5, 6] :=
  ⟨le_refl 6, (test_dfs_first_path 6 (le_refl 6)).2.2⟩

/-- C17. On the graph of `test_graphs` (the topology of `test_dfs` with every capacity 1),
`compute_residual_maxflow`, with any fuel of at least 6, followed by
`transform_residual_to_flow` succeeds and leaves a graph whose total flow, the sum of the
capacities of the in-edges of the sink, is 1; the in-edges of the sink are the edges of
`value_index` 3 and 6, and exactly one of them has capacity 1, the other capacity 0 (the edge 6
is the one of capacity 1). -/
theorem test_graphs_total_flow (fuel : Nat) (h : 6 ≤ fuel) :
    test_build 1 = .ok test_graphs_graph
      ∧ ∃ g1 g2, compute_residual_maxflow fuel test_graphs_graph = some (.ok g1)
          ∧ transform_residual_to_flow g1 = .ok g2
          ∧ g2.sink.in_edges = [.ptr 3 false, .ptr 6 false]
          ∧ handle_sum g2 g2.sink.in_edges Edge.capacity = 1
          ∧ (g2.edges.getD 3 default).value_index = 3
          ∧ (g2.edges.getD 6 default).value_index = 6
          ∧ (((g2.edges.getD 3 default).capacity = 1 ∧ (g2.edges.getD 6 default).capacity = 0)
              ∨ ((g2.edges.getD 3 default).capacity = 0
                  ∧ (g2.edges.getD 6 default).capacity = 1))
          ∧ (g2.edges.getD 6 default).capacity = 1 :=
  ⟨rfl, _, _, compute_residual_maxflow_mono 6 fuel h _ _ test_graphs_residual_6,
    test_graphs_flow_6, rfl, rfl, rfl, rfl, Or.inr ⟨rfl, rfl⟩, rfl⟩

theorem test_graphs_total_flow_witness :
    6 ≤ 6 ∧ ∃ g1 g2, compute_residual_maxflow 6 test_graphs_graph = some (.ok g1)
      ∧ transform_residual_to_flow g1 = .ok g2
      ∧ handle_sum g2 g2.sink.in_edges Edge.capacity = 1 :=
  have h := (test_graphs_total_flow 6 (le_refl 6)).2
  ⟨le_refl 6, h.choose, h.choose_spec.choose, h.choose_spec.choose_spec.1,
    h.choose_spec.choose_spec.2.1, h.choose_spec.choose_spec.2.2.2.1⟩

/-- C18, as stated, fails: on the graph of `test_graphs`, `compute_residual_maxflow` followed by
`transform_residual_to_flow` leaves the capacities 1, 1, 0, 0, 1, 1, 1 on the edges 0 to 6, while
`expected_graph` has the capacities 1, 1, 1, 1, 0, 0, 0. -/
theorem test_graphs_differs_from_expected_graph :
    compute_residual_maxflow 6 test_graphs_graph
        = some (.ok (residual_graph 6 test_graphs_graph))
      ∧ transform_residual_to_flow (residual_graph 6 test_graphs_graph)
        = .ok (flow_graph 6 test_graphs_graph)
      ∧ edge_capacities expected_graph = [1, 1, 1, 1, 0, 0, 0]
      ∧ edge_capacities (flow_graph 6 test_graphs_graph) = [1, 1, 0, 0, 1, 1, 1]
      ∧ edge_capacities (flow_graph 6 test_graphs_graph) ≠ edge_capacities expected_graph :=
  ⟨rfl, rfl, rfl, rfl, by decide⟩

/-- C18, amended. On the graph of `test_graphs` (seven edges of capacity 1, `value_index` 0 to
6), `compute_residual_maxflow`, with any fuel of at least 6, followed by
`transform_residual_to_flow` succeeds and leaves the edges 0, 1, 4, 5 and 6 with capacity 1 and
the edges 2 and 3 with capacity 0. -/
theorem test_graphs_capacities (fuel : Nat) (h : 6 ≤ fuel) :
    ∃ g1 g2, compute_residual_maxflow fuel test_graphs_graph = some (.ok g1)
      ∧ transform_residual_to_flow g1 = .ok g2
      ∧ g2.edges.map Edge.value_index = [0, 1, 2, 3, 4, 5, 6]
      ∧ edge_capacities g2 = [1, 1, 0, 0, 1, 1, 1] :=
  ⟨_, _, compute_residual_maxflow_mono 6 fuel h _ _ test_graphs_residual_6,
    test_graphs_flow_6, rfl, rfl⟩

theorem test_graphs_capacities_witness :
    6 ≤ 6 ∧ ∃ g1 g2, compute_residual_maxflow 6 test_graphs_graph = some (.ok g1)
      ∧ transform_residual_to_flow g1 = .ok g2
      ∧ g2.edges.map Edge.value_index = [0, 1, 2, 3, 4, 5, 6]
      ∧ edge_capacities g2 = [1, 1, 0, 0, 1, 1, 1] :=
  ⟨le_refl 6, test_graphs_capacities 6 (le_refl 6)⟩

end Tethys

namespace Tethys

/-! ## The effect of `add_edge` -/

/-- C21. In state `Building`, on a graph whose two tables have `graph_size` vertices, with
`start, end < graph_size`, `add_edge(value_index, cap, start, end, orientation)` succeeds and
appends exactly one edge to the edge table, with that `value_index`, capacity `cap` and
`rec_capacity` 0, from `start` in table 1 to `end` in table 0 for `ForcedLeft` and from `start` in
table 0 to `end` in table 1 for `ForcedRight`; the handle of the new edge is appended to the
`out_edges` of its start vertex and to the `in_edges` of its end vertex; the other edges, the
other adjacency lists, the markers, the size and the state are unchanged. -/
theorem add_edge_appends (g : TethysGraph) (wf : WellFormed g) (hst : g.state = .Building)
    (value_index : Nat) (cap : Int) (start end_ : Nat) (orientation : EdgeOrientation)
    (hs : start < g.graph_size) (he : end_ < g.graph_size) :
    ∃ g1, add_edge g value_index cap start end_ orientation = .ok g1
      ∧ g1.edges = g.edges ++ [⟨value_index, cap, 0, (oriented start end_ orientation).1,
          (oriented start end_ orientation).2⟩]
      ∧ (∀ v, (get_vertex g1 v).out_edges = (get_vertex g v).out_edges
          ++ (if v = (oriented start end_ orientation).1 then [EdgePtr.ptr g.edges.length false]
              else []))
      ∧ (∀ v, (get_vertex g1 v).in_edges = (get_vertex g v).in_edges
          ++ (if v = (oriented start end_ orientation).2 then [EdgePtr.ptr g.edges.length false]
              else []))
      ∧ (∀ v, (get_vertex g1 v).parent_edge = (get_vertex g v).parent_edge)
      ∧ g1.graph_size = g.graph_size ∧ g1.state = g.state := by
  have hadd : add_edge g value_index cap start end_ orientation
      = .ok (push_edge g ⟨value_index, cap, 0, (oriented start end_ orientation).1,
          (oriented start end_ orientation).2⟩) := by
    unfold add_edge
    rw [if_neg (by simp [hst]), if_neg (by omega), if_neg (by omega)]
    cases orientation <;> rfl
  have hv1 : ValidV g (oriented start end_ orientation).1 := by
    cases orientation
    · show start < g.vertices1.length; rw [wf.len1]; exact hs
    · show start < g.vertices0.length; rw [wf.len0]; exact hs
  have hv2 : ValidV g (oriented start end_ orientation).2 := by
    cases orientation
    · show end_ < g.vertices0.length; rw [wf.len0]; exact he
    · show end_ < g.vertices1.length; rw [wf.len1]; exact he
  obtain ⟨a1, a2, a3, _, _⟩ := push_edge_fields g ⟨value_index, cap, 0,
    (oriented start end_ orientation).1, (oriented start end_ orientation).2⟩
  have hget := fun v => get_vertex_push_edge g ⟨value_index, cap, 0,
    (oriented start end_ orientation).1, (oriented start end_ orientation).2⟩ v hv1 hv2
  refine ⟨_, hadd, a1, ?_, ?_, ?_, a2, a3⟩
  · intro v; rw [hget v]
  · intro v; rw [hget v]
  · intro v; rw [hget v]

theorem add_edge_appends_witness :
    (TethysGraph.mk_empty 2).state = .Building ∧ 1 < (TethysGraph.mk_empty 2).graph_size
      ∧ 0 < (TethysGraph.mk_empty 2).graph_size
      ∧ ∃ g1, add_edge (TethysGraph.mk_empty 2) 7 3 1 0 .ForcedLeft = .ok g1
        ∧ g1.edges = [⟨7, 3, 0, .node true 1, .node false 0⟩]
        ∧ (get_vertex g1 (.node true 1)).out_edges = [.ptr 0 false]
        ∧ (get_vertex g1 (.node false 0)).in_edges = [.ptr 0 false] :=
  have h := add_edge_appends (TethysGraph.mk_empty 2) (wellFormed_mk_empty 2) rfl 7 3 1 0
    .ForcedLeft (by decide) (by decide)
  ⟨rfl, by decide, by decide, h.choose, h.choose_spec.1, h.choose_spec.2.1,
    h.choose_spec.2.2.1 (.node true 1), h.choose_spec.2.2.2.1 (.node false 0)⟩

/-! ## The search does not depend on the markers it finds -/

theorem map_clear_eq (l : List Vertex) :
    l.map (fun v => { v with parent_edge := EdgePtr.null })
      = (l.map (fun v => (v.out_edges, v.in_edges))).map
          (fun p => (⟨p.1, p.2, .null⟩ : Vertex)) := by
  rw [List.map_map]
  rfl

theorem reset_parent_edges_congr {g g1 : TethysGraph} (h : SameUpToMarkers g g1) :
    reset_parent_edges g1 = reset_parent_edges g := by
  obtain ⟨h1, h2, h3, h4, h5, h6, h7, h8, h9⟩ := h
  unfold reset_parent_edges
  rw [map_clear_eq g1.vertices0, map_clear_eq g1.vertices1, map_clear_eq g.vertices0,
    map_clear_eq g.vertices1, h8, h9]
  cases g
  cases g1
  simp only at h1 h2 h3 h4 h5 h6 h7
  simp only [TethysGraph.mk.injEq, Vertex.mk.injEq, h1, h2, h3, h4, h5, h6, h7, and_self]

theorem map_modify_nth_of_inv {α β : Type} (f : α → α) (φ : α → β) (hf : ∀ a, φ (f a) = φ a)
    (l : List α) (n : Nat) : (modify_nth f l n).map φ = l.map φ := by
  induction l generalizing n with
  | nil => rfl
  | cons a l ih =>
    cases n with
    | zero => simp [modify_nth, hf]
    | succ n => simp [modify_nth, ih]

theorem reset_set_parent (g : TethysGraph) (v : VertexPtr) (p : EdgePtr) :
    reset_parent_edges (modify_vertex g v (fun d => { d with parent_edge := p }))
      = reset_parent_edges g := by
  cases v with
  | source => rfl
  | sink => rfl
  | node b i =>
    have key : ∀ l : List Vertex,
        (modify_nth (fun d : Vertex => { d with parent_edge := p }) l i).map
            (fun v => { v with parent_edge := EdgePtr.null })
          = l.map (fun v => { v with parent_edge := EdgePtr.null }) :=
      fun l => map_modify_nth_of_inv (fun d : Vertex => { d with parent_edge := p })
        (fun v : Vertex => ({ v with parent_edge := EdgePtr.null } : Vertex)) (fun _ => rfl) l i
    cases b
    · simp only [modify_vertex, reset_parent_edges]
      rw [key]
    · simp only [modify_vertex, reset_parent_edges]
      rw [key]

theorem reset_scan_out_edges (es : List EdgePtr) :
    ∀ s, reset_parent_edges (scan_out_edges es s).g = reset_parent_edges s.g := by
  induction es with
  | nil => intro s; rfl
  | cons e rest ih =>
    intro s
    unfold scan_out_edges
    simp only
    split
    · split
      · split
        · exact reset_set_parent _ _ _
        · rw [ih]; exact reset_set_parent _ _ _
      · exact ih s
    · exact ih s

theorem reset_scan_in_edges (es : List EdgePtr) :
    ∀ s, reset_parent_edges (scan_in_edges es s).g = reset_parent_edges s.g := by
  induction es with
  | nil => intro s; rfl
  | cons e rest ih =>
    intro s
    unfold scan_in_edges
    simp only
    split
    · split
      · split
        · exact reset_set_parent _ _ _
        · rw [ih]; exact reset_set_parent _ _ _
      · exact ih s
    · exact ih s

theorem reset_search_loop (fuel : Nat) :
    ∀ s r, search_loop fuel s = some r → reset_parent_edges r.g = reset_parent_edges s.g := by
  induction fuel with
  | zero => intro s r h; simp [search_loop] at h
  | succ fuel ih =>
    intro s r h
    unfold search_loop at h
    by_cases hf : s.found_sink = true
    · rw [if_pos hf] at h
      cases h
      rfl
    · rw [if_neg hf] at h
      cases hq : s.queue with
      | nil =>
        rw [hq] at h
        cases h
        rfl
      | cons front rest =>
        rw [hq] at h
        simp only at h
        rw [ih _ r h, reset_scan_in_edges, reset_scan_out_edges]

theorem reset_reset (g : TethysGraph) :
    reset_parent_edges (reset_parent_edges g) = reset_parent_edges g := by
  unfold reset_parent_edges
  simp [List.map_map, Function.comp_def]

theorem find_source_sink_path_graph (fuel : Nat) (g : TethysGraph)
    (r : List EdgePtr × Int × TethysGraph) (h : find_source_sink_path fuel g = some r) :
    reset_parent_edges r.2.2 = reset_parent_edges g := by
  obtain ⟨path, cap, g1⟩ := r
  obtain ⟨s, hs, hg1, _⟩ := find_source_sink_path_eq fuel g path cap g1 h
  show reset_parent_edges g1 = _
  rw [hg1, reset_search_loop fuel _ s hs]
  exact reset_reset g

theorem find_source_sink_path_reset (fuel : Nat) (g g1 : TethysGraph)
    (h : reset_parent_edges g1 = reset_parent_edges g) :
    find_source_sink_path fuel g1 = find_source_sink_path fuel g := by
  unfold find_source_sink_path
  rw [h]

/-- C30. `find_source_sink_path` does not depend on the markers it finds: on two graphs with the
same vertices and adjacency lists, the same edges in the same order with the same `capacity` and
`rec_capacity`, and arbitrary `parent_edge` markers, it gives the same result for every fuel (the
same path and the same capacity, or no result for both); and when a call returns, a second call
on the graph the first one left returns the same path and the same capacity. -/
theorem find_source_sink_path_ignores_markers (g g1 : TethysGraph)
    (h : SameUpToMarkers g g1) (fuel : Nat) :
    find_source_sink_path fuel g1 = find_source_sink_path fuel g
      ∧ ∀ r, find_source_sink_path fuel g = some r →
          find_source_sink_path fuel r.2.2 = some r :=
  ⟨find_source_sink_path_reset fuel g g1 (reset_parent_edges_congr h), fun r hr => by
    rw [find_source_sink_path_reset fuel g r.2.2 (find_source_sink_path_graph fuel g r hr)]
    exact hr⟩

theorem find_source_sink_path_ignores_markers_witness :
    SameUpToMarkers test_dfs_graph (searched_graph 6 test_dfs_graph)
      ∧ searched_graph 6 test_dfs_graph ≠ test_dfs_graph
      ∧ find_source_sink_path 6 (searched_graph 6 test_dfs_graph)
        = find_source_sink_path 6 test_dfs_graph :=
  have hs : SameUpToMarkers test_dfs_graph (searched_graph 6 test_dfs_graph) :=
    ⟨rfl, rfl, rfl, rfl, rfl, rfl, rfl, rfl, rfl⟩
  ⟨hs, by decide,
    (find_source_sink_path_ignores_markers test_dfs_graph (searched_graph 6 test_dfs_graph)
      hs 6).1⟩

end Tethys

namespace Tethys

/-! ## Flow conservation at the interior vertices -/

/-- Along a walk from `a` to `b`, the handles that leave `v` and the handles that enter `v` are
as many, up to the two ends of the walk. -/
theorem walk_balance (g : TethysGraph) (v : VertexPtr) :
    ∀ (path : List EdgePtr) (a b : VertexPtr), IsWalk g path a b →
      ((path.filter (fun h => decide (handle_src g h = v))).length : Int)
          + (if b = v then 1 else 0)
        = ((path.filter (fun h => decide (handle_dst g h = v))).length : Int)
          + (if a = v then 1 else 0) := by
  intro path
  induction path with
  | nil =>
    intro a b hw
    have : a = b := hw
    subst this
    simp
  | cons h rest ih =>
    intro a b hw
    obtain ⟨_, w2, w3⟩ := hw
    have := ih (handle_dst g h) b w3
    rw [List.filter_cons, List.filter_cons, w2]
    by_cases ha : a = v <;> by_cases hd : handle_dst g h = v <;>
      simp only [ha, hd, decide_True, decide_False, if_true, if_false, List.length_cons,
        Bool.false_eq_true] at this ⊢ <;> push_cast <;> omega

theorem conservedAt_of_edges {g g1 : TethysGraph} (h : g1.edges = g.edges) (v : VertexPtr)
    (hc : ConservedAt g v) : ConservedAt g1 v := by
  unfold ConservedAt edge_sum at hc ⊢
  rw [h]
  exact hc

theorem conservedAt_augment (g : TethysGraph) (path : List EdgePtr) (c : Int)
    (hw : IsWalk g path .source .sink) (hall : ∀ h ∈ path, IsForward h ∧ ValidPtr g h)
    (b : Bool) (i : Nat) (hc : ConservedAt g (.node b i)) :
    ConservedAt (augment g path c) (.node b i) := by
  obtain ⟨s1, s2⟩ := edge_sum_augment path c (.node b i) g hall
  have hb := walk_balance g (.node b i) path .source .sink hw
  rw [if_neg (by simp), if_neg (by simp)] at hb
  unfold ConservedAt at hc ⊢
  rw [s1, s2, hc]
  simp only [add_zero] at hb
  rw [hb]

theorem maxflow_loop_conserved (g0 : TethysGraph) (inner fuel : Nat) :
    ∀ g g1, FlowInv g0 g → (∀ b i, ConservedAt g (.node b i)) →
      maxflow_loop inner fuel g = some g1 → ∀ b i, ConservedAt g1 (.node b i) := by
  induction fuel with
  | zero => intro g g1 _ _ h; simp [maxflow_loop] at h
  | succ fuel ih =>
    intro g g1 inv hcons h
    unfold maxflow_loop at h
    cases hf : find_source_sink_path inner g with
    | none => rw [hf] at h; simp at h
    | some r =>
      obtain ⟨path, cap, g2⟩ := r
      rw [hf] at h
      simp only at h
      obtain ⟨hs, hcase⟩ := find_source_sink_path_spec inner g path cap g2 inv.wf hf
      have hcons2 : ∀ b i, ConservedAt g2 (.node b i) :=
        fun b i => conservedAt_of_edges hs.edges _ (hcons b i)
      rcases hcase with ⟨hp, _, _⟩ | ⟨hp, hw, hnd, hall, hpos, _, _⟩
      · rw [if_pos (by rw [hp]; rfl)] at h
        cases h
        exact hcons2
      · rw [if_neg (by simpa using hp)] at h
        have inv2 := inv.of_sameStructure hs
        have hall2 : ∀ x ∈ path, IsForward x ∧ ValidPtr g2 x ∧ 0 < edge_capacity g2 x
            ∧ cap ≤ edge_capacity g2 x := by
          intro x hx
          obtain ⟨a1, a2, a3, a4⟩ := hall x hx
          exact ⟨a1, (hs.validPtr x).mpr a2, by rwa [hs.edge_capacity],
            by rwa [hs.edge_capacity]⟩
        have hw2 : IsWalk g2 path .source .sink := (hs.isWalk _ _ _).mpr hw
        exact ih _ g1 (inv2.augment path cap hw2 hp hnd hall2 hpos)
          (fun b i => conservedAt_augment g2 path cap hw2
            (fun x hx => ⟨(hall2 x hx).1, (hall2 x hx).2.1⟩) b i (hcons2 b i)) h

/-- C27. Flow conservation: for every graph built with non-negative capacities, whenever
`compute_residual_maxflow` returns, at every vertex of table 0 and of table 1 the sum of
`rec_capacity` over its `in_edges` equals the sum of `rec_capacity` over its `out_edges`. -/
theorem maxflow_conserves_flow (g : TethysGraph) (hb : Built g) (hnn : NonNegCapacities g)
    (fuel : Nat) (g1 : TethysGraph) (h : compute_residual_maxflow fuel g = some (.ok g1))
    (table : Bool) (i : Nat) (hi : i < g.graph_size) :
    handle_sum g1 (get_vertex g1 (.node table i)).in_edges Edge.rec_capacity
      = handle_sum g1 (get_vertex g1 (.node table i)).out_edges Edge.rec_capacity := by
  obtain ⟨wf0, hst, hrec, _⟩ := hb.facts
  obtain ⟨g2, hm, hg1⟩ := compute_residual_maxflow_eq fuel g g1 hst h
  obtain ⟨inv, _, _⟩ := compute_residual_maxflow_spec g hb hnn fuel g1 h
  have hinit : ∀ b j, ConservedAt g (.node b j) := by
    intro b j
    unfold ConservedAt
    rw [edge_sum_eq_zero g _ _ hrec, edge_sum_eq_zero g _ _ hrec]
  have hc2 := maxflow_loop_conserved g fuel fuel g g2 (FlowInv.init hb hnn) hinit hm table i
  have hc1 : ConservedAt g1 (.node table i) :=
    conservedAt_of_edges (by rw [hg1]) _ hc2
  have hv : ValidV g1 (.node table i) := by
    rw [inv.topo.topo_validV]
    cases table
    · show i < g.vertices0.length; rw [wf0.len0]; exact hi
    · show i < g.vertices1.length; rw [wf0.len1]; exact hi
  rw [handle_sum_in_edges inv.wf _ hv, handle_sum_out_edges inv.wf _ hv]
  exact hc1

theorem maxflow_conserves_flow_witness :
    Built line_graph ∧ NonNegCapacities line_graph
      ∧ compute_residual_maxflow 10 line_graph = some (.ok (residual_graph 10 line_graph))
      ∧ (0 : Nat) < line_graph.graph_size
      ∧ handle_sum (residual_graph 10 line_graph)
          (get_vertex (residual_graph 10 line_graph) (.node false 0)).in_edges Edge.rec_capacity
        = handle_sum (residual_graph 10 line_graph)
          (get_vertex (residual_graph 10 line_graph) (.node false 0)).out_edges
          Edge.rec_capacity
      ∧ handle_sum (residual_graph 10 line_graph)
          (get_vertex (residual_graph 10 line_graph) (.node false 0)).out_edges
          Edge.rec_capacity = 1 :=
  ⟨line_graph_built, line_graph_nonneg, rfl, by decide,
    maxflow_conserves_flow line_graph line_graph_built line_graph_nonneg 10
      (residual_graph 10 line_graph) rfl false 0 (by decide),
    by decide⟩

end Tethys

namespace Tethys

/-! ## A graph on which the backtracking loop does not end -/

theorem search_loop_det (f1 f2 : Nat) (s r1 r2 : SearchState)
    (h1 : search_loop f1 s = some r1) (h2 : search_loop f2 s = some r2) : r1 = r2 := by
  have a := search_loop_mono_le f1 (max f1 f2) (Nat.le_max_left _ _) s r1 h1
  have b := search_loop_mono_le f2 (max f1 f2) (Nat.le_max_right _ _) s r2 h2
  rw [a] at b
  exact Option.some.inj b

theorem find_source_sink_path_det (f1 f2 : Nat) (g : TethysGraph)
    (r1 r2 : List EdgePtr × Int × TethysGraph) (h1 : find_source_sink_path f1 g = some r1)
    (h2 : find_source_sink_path f2 g = some r2) : r1 = r2 := by
  have a := find_source_sink_path_mono f1 (max f1 f2) (Nat.le_max_left _ _) g r1 h1
  have b := find_source_sink_path_mono f2 (max f1 f2) (Nat.le_max_right _ _) g r2 h2
  rw [a] at b
  exact Option.some.inj b

/-- A marker whose edge starts at the vertex that carries it sends the backtracking loop back to
the same vertex: the loop never ends there. -/
theorem parent_chain_stuck (g : TethysGraph) (v : VertexPtr) (i : Nat) (r : Bool)
    (hp : parent g v = .ptr i r) (hs : (edge_at g (.ptr i r)).start = v) :
    ∀ fuel, parent_chain g fuel v = none := by
  intro fuel
  induction fuel with
  | zero => rfl
  | succ fuel ih => rw [parent_chain_ptr g fuel v i r hp, hs, ih]; rfl

theorem parent_chain_none_step (g : TethysGraph) (u : VertexPtr) (i : Nat) (r : Bool)
    (hp : parent g u = .ptr i r)
    (hn : ∀ fuel, parent_chain g fuel (edge_at g (.ptr i r)).start = none) :
    ∀ fuel, parent_chain g fuel u = none := by
  intro fuel
  cases fuel with
  | zero => rfl
  | succ fuel => rw [parent_chain_ptr g fuel u i r hp, hn]; rfl

theorem crossing_first_path :
    find_source_sink_path 4 crossing_graph
      = some ([.ptr 1 false, .ptr 4 false, .ptr 5 false], 1, searched_graph 4 crossing_graph) :=
  rfl

theorem crossing_search_eq :
    search_loop 6 ⟨reset_parent_edges crossing_graph_1, [.source], false⟩
      = some crossing_search := rfl

/-- On `crossing_graph_1` the search reaches the sink through the reciprocal of `e4`, and the
backtracking from the sink, `e6` then `e3` then the reciprocal of `e4`, stays on the vertex
`(0, 1)`, where `e4` starts. -/
theorem crossing_chain_none : ∀ fuel, parent_chain crossing_search.g fuel .sink = none := by
  have h1 : ∀ fuel, parent_chain crossing_search.g fuel (.node false 1) = none :=
    parent_chain_stuck crossing_search.g (.node false 1) 4 true rfl rfl
  have h2 : ∀ fuel, parent_chain crossing_search.g fuel (.node true 1) = none :=
    parent_chain_none_step crossing_search.g (.node true 1) 3 false rfl h1
  exact parent_chain_none_step crossing_search.g .sink 6 false rfl h2

theorem crossing_second_search (fuel : Nat) :
    find_source_sink_path fuel crossing_graph_1 = none := by
  unfold find_source_sink_path
  cases hs : search_loop fuel ⟨reset_parent_edges crossing_graph_1, [.source], false⟩ with
  | none => rfl
  | some s =>
    have hs' : s = crossing_search := search_loop_det fuel 6 _ s _ hs crossing_search_eq
    subst hs'
    simp only
    rw [if_pos (by decide), path_size_capacity_eq, crossing_chain_none]
    rfl

theorem crossing_maxflow_loop (inner fuel : Nat) :
    maxflow_loop inner fuel crossing_graph = none := by
  cases fuel with
  | zero => rfl
  | succ fuel =>
    unfold maxflow_loop
    cases hf : find_source_sink_path inner crossing_graph with
    | none => rfl
    | some r =>
      have hr := find_source_sink_path_det inner 4 crossing_graph r _ hf crossing_first_path
      subst hr
      simp only
      rw [if_neg (by decide)]
      show maxflow_loop inner fuel crossing_graph_1 = none
      cases fuel with
      | zero => rfl
      | succ fuel =>
        unfold maxflow_loop
        rw [crossing_second_search]

theorem crossing_graph_built : Built crossing_graph := by
  have h1 : InSsize 1 := by unfold InSsize SSIZE_MAX; norm_num
  have b1 := Built.from_source 0 1 0 0 (Built.empty 2) h1 rfl
  have b2 := Built.from_source 1 1 1 0 b1 h1 rfl
  have b3 := Built.edge 2 1 0 0 .ForcedRight b2 h1 rfl
  have b4 := Built.edge 3 1 1 1 .ForcedRight b3 h1 rfl
  have b5 := Built.edge 4 1 1 0 .ForcedRight b4 h1 rfl
  have b6 := Built.to_sink 5 1 0 1 b5 h1 rfl
  exact Built.to_sink 6 1 1 1 b6 h1 rfl

/-- C26, at the failing input: on the graph built by `crossing_build` (state `Building`, seven
edges of capacity 1), `compute_residual_maxflow` does not return, whatever the fuel: after the
first augmentation, along `e1, e4, e5`, the second search reaches the sink through the reciprocal
of `e4`, and the backtracking loops never get past the vertex that carries this marker. -/
theorem compute_residual_maxflow_diverges (fuel : Nat) :
    crossing_build = .ok crossing_graph
      ∧ crossing_graph.state = .Building
      ∧ edge_capacities crossing_graph = [1, 1, 1, 1, 1, 1, 1]
      ∧ compute_residual_maxflow fuel crossing_graph = none
      ∧ find_source_sink_path 4 crossing_graph
          = some ([.ptr 1 false, .ptr 4 false, .ptr 5 false], 1,
              searched_graph 4 crossing_graph)
      ∧ find_source_sink_path fuel crossing_graph_1 = none
      ∧ parent crossing_search.g (.node false 1) = .ptr 4 true := by
  refine ⟨rfl, rfl, rfl, ?_, rfl, crossing_second_search fuel, rfl⟩
  unfold compute_residual_maxflow
  rw [if_neg (by decide), crossing_maxflow_loop]

end Tethys

namespace Diana

variable (gen : search_token_key_type → update_token_type × index_type)

theorem xor_mask_xor_mask (x m : index_type) : xor_mask (xor_mask x m) m = x := by
  unfold xor_mask
  rw [Nat.xor_assoc, Nat.xor_self, Nat.xor_zero]

theorem leaf_range_zero (m : Nat) (h : m + 1 < SIZE_MOD) :
    leaf_range 0 m = some (List.range (m + 1)) := by
  unfold leaf_range
  rw [if_neg (by omega)]
  simp [List.range_eq_range']

theorem leaf_step_eq (req : SearchRequest) (b : Bool) (out : List index_type) (edb : EDB)
    (i : Nat) :
    leaf_step gen req b (out, edb) i
      = (out ++ ((edb (gen (req.eval i)).1).map
            (fun v => xor_mask v (gen (req.eval i)).2)).toList,
         if b then edb.remove (gen (req.eval i)).1 else edb) := by
  cases h : edb (gen (req.eval i)).1 with
  | none =>
    have : edb.remove (gen (req.eval i)).1 = edb := by
      funext k
      unfold EDB.remove
      split
      · next hk => rw [hk, h]
      · rfl
    simp [leaf_step, get_unmask, retrieve_entry, EDB.get, h, this]
  | some v => cases b <;> simp [leaf_step, get_unmask, retrieve_entry, EDB.get, h]

theorem store_before_succ (req : SearchRequest) (b : Bool) (edb : EDB) (i : Nat) :
    store_before gen req b edb (i + 1)
      = if b then (store_before gen req b edb i).remove (gen (req.eval i)).1
        else store_before gen req b edb i := by
  unfold store_before
  cases b
  · simp
  · simp [List.range_succ, List.foldl_append]

theorem foldl_leaf_step_range (req : SearchRequest) (b : Bool) (edb : EDB) (n : Nat) :
    (List.range n).foldl (leaf_step gen req b) ([], edb)
      = ((List.range n).filterMap (fun i =>
            ((store_before gen req b edb i) (gen (req.eval i)).1).map
              (fun v => xor_mask v (gen (req.eval i)).2)),
         store_before gen req b edb n) := by
  induction n with
  | zero => simp [store_before]
  | succ n ih =>
    rw [List.range_succ, List.foldl_append, ih]
    simp only [List.foldl_cons, List.foldl_nil]
    rw [leaf_step_eq, store_before_succ, List.filterMap_append]
    congr 2

theorem search_eq (req : SearchRequest) (b : Bool) (edb : EDB)
    (h : req.max_leaf + 1 < SIZE_MOD) :
    search gen req b edb
      = some ((List.range (req.max_leaf + 1)).filterMap (fun i =>
            ((store_before gen req b edb i) (gen (req.eval i)).1).map
              (fun v => xor_mask v (gen (req.eval i)).2)),
         store_before gen req b edb (req.max_leaf + 1)) := by
  unfold search
  rw [leaf_range_zero _ h]
  simp only
  rw [foldl_leaf_step_range]

theorem store_before_true_apply (req : SearchRequest) (edb : EDB) (n : Nat)
    (k : update_token_type) :
    store_before gen req true edb n k
      = if ∃ j, j < n ∧ (gen (req.eval j)).1 = k then none else edb k := by
  induction n with
  | zero => simp [store_before]
  | succ n ih =>
    rw [store_before_succ]
    simp only [if_true]
    unfold EDB.remove
    by_cases hk : k = (gen (req.eval n)).1
    · rw [if_pos hk, if_pos ⟨n, by omega, hk.symm⟩]
    · rw [if_neg hk, ih]
      by_cases hex : ∃ j, j < n ∧ (gen (req.eval j)).1 = k
      · obtain ⟨j, hj, hjk⟩ := hex
        rw [if_pos ⟨j, hj, hjk⟩, if_pos ⟨j, by omega, hjk⟩]
      · rw [if_neg hex, if_neg]
        rintro ⟨j, hj, hjk⟩
        rcases Nat.lt_succ_iff_lt_or_eq.mp hj with h1 | h1
        · exact hex ⟨j, h1, hjk⟩
        · subst h1; exact hk hjk.symm

theorem insert_leaves_succ (req : SearchRequest) (x : Nat → index_type) (n : Nat) (edb : EDB) :
    insert_leaves gen req x (n + 1) edb
      = insert (insert_leaves gen req x n edb)
          ⟨(gen (req.eval n)).1, xor_mask (x n) (gen (req.eval n)).2⟩ := by
  unfold insert_leaves
  simp [List.range_succ, List.foldl_append]

theorem insert_leaves_get (req : SearchRequest) (x : Nat → index_type) (n : Nat) (edb : EDB)
    (hinj : ∀ i j, i < n → j < n → (gen (req.eval i)).1 = (gen (req.eval j)).1 → i = j)
    (i : Nat) (hi : i < n) :
    insert_leaves gen req x n edb (gen (req.eval i)).1
      = some (xor_mask (x i) (gen (req.eval i)).2) := by
  induction n with
  | zero => omega
  | succ n ih =>
    rw [insert_leaves_succ]
    unfold insert EDB.put
    simp only
    by_cases hin : i = n
    · subst hin; simp
    · have hne : (gen (req.eval i)).1 ≠ (gen (req.eval n)).1 := by
        intro h
        exact hin (hinj i n hi (by omega) h)
      rw [if_neg hne]
      exact ih (fun a b ha hb => hinj a b (by omega) (by omega)) (by omega)

/-- C2. DIANA round trip: for every request of `n = max_leaf + 1` leaves (a 64-bit count) whose
leaves derive pairwise distinct update tokens `ut_i` with masks `m_i`, and all plaintext indices
`x_0, ..., x_{n-1}`: after `insert({ut_i, xor_mask(x_i, m_i)})` for every `i`, on any database,
`search(req, delete_results = false)` returns and emits exactly the `n` indices
`x_0, ..., x_{n-1}`, in increasing leaf order, and leaves the database as it was. -/
theorem diana_round_trip (req : SearchRequest) (x : Nat → index_type) (edb : EDB) (n : Nat)
    (h64 : n < SIZE_MOD) (hleaf : req.max_leaf + 1 = n)
    (hinj : ∀ i j, i < n → j < n → (gen (req.eval i)).1 = (gen (req.eval j)).1 → i = j) :
    search gen req false (insert_leaves gen req x n edb)
      = some ((List.range n).map x, insert_leaves gen req x n edb) := by
  rw [search_eq gen req false _ (by omega), hleaf]
  simp only [store_before, Bool.false_eq_true, if_false]
  congr 2
  rw [← List.filterMap_eq_map]
  apply List.filterMap_congr
  intro i hi
  rw [insert_leaves_get gen req x n edb hinj i (List.mem_range.mp hi)]
  simp [xor_mask_xor_mask]

/-- C9. Delete-on-read: for every database and every request (whose leaf count `max_leaf + 1`
fits in 64 bits, so that the loop of `search` ends), `search(req, delete_results = true)`
returns, after it none of the update tokens derived from the leaves `0..max_leaf` is present in
the database, and a second identical search emits no index. -/
theorem search_delete_on_read (req : SearchRequest) (edb : EDB)
    (h : req.max_leaf + 1 < SIZE_MOD) :
    ∃ out edb1, search gen req true edb = some (out, edb1)
      ∧ (∀ i, i ≤ req.max_leaf → edb1.get (gen (req.eval i)).1 = none)
      ∧ search gen req true edb1 = some ([], edb1) := by
  refine ⟨_, _, search_eq gen req true edb h, ?_, ?_⟩
  · intro i hi
    unfold EDB.get
    rw [store_before_true_apply, if_pos ⟨i, by omega, rfl⟩]
  · rw [search_eq gen req true _ h]
    have hnone : ∀ i n, i < req.max_leaf + 1 →
        store_before gen req true (store_before gen req true edb (req.max_leaf + 1)) n
          (gen (req.eval i)).1 = none := by
      intro i n hi
      rw [store_before_true_apply]
      split
      · rfl
      · rw [store_before_true_apply, if_pos ⟨i, hi, rfl⟩]
    congr 2
    · rw [List.filterMap_eq_nil_iff]
      intro i hi
      rw [hnone i i (List.mem_range.mp hi)]
      rfl
    · funext k
      rw [store_before_true_apply]
      split
      · next hex =>
        obtain ⟨j, hj, hjk⟩ := hex
        rw [store_before_true_apply, if_pos ⟨j, hj, hjk⟩]
      · rfl

/-- C10. A missing entry never aborts a search: for every database and request (whose leaf count
`max_leaf + 1` fits in 64 bits), `search` returns without error after processing every leaf
`0..max_leaf` in order, and emits `xor_mask(stored value, mask)` for exactly the leaves whose
update token is present in the database when the leaf is looked up, nothing for the others; the
leaves after a missing one are still looked up and emitted. -/
theorem search_missing_entry_never_aborts (req : SearchRequest) (delete_results : Bool)
    (edb : EDB) (h : req.max_leaf + 1 < SIZE_MOD) :
    ∃ out edb1, search gen req delete_results edb = some (out, edb1)
      ∧ out = (List.range (req.max_leaf + 1)).filterMap (fun i =>
          ((store_before gen req delete_results edb i).get (gen (req.eval i)).1).map
            (fun v => xor_mask v (gen (req.eval i)).2)) :=
  ⟨_, _, search_eq gen req delete_results edb h, rfl⟩

/-- Witness of C2: three leaves, the indices `100, 101, 102` inserted in an empty database. -/
theorem diana_round_trip_witness :
    3 < SIZE_MOD ∧ sample_request.max_leaf + 1 = 3
      ∧ search sample_gen sample_request false
          (insert_leaves sample_gen sample_request (fun i => 100 + i) 3 EDB.empty)
        = some ([100, 101, 102],
            insert_leaves sample_gen sample_request (fun i => 100 + i) 3 EDB.empty) :=
  ⟨by decide, rfl,
    diana_round_trip sample_gen sample_request (fun i => 100 + i) EDB.empty 3 (by decide) rfl
      (by intro i j _ _ h; simpa [sample_gen, sample_request] using h)⟩

/-- Witness of C9 on the sample request and database. -/
theorem search_delete_on_read_witness :
    sample_request.max_leaf + 1 < SIZE_MOD
      ∧ ∃ out edb1, search sample_gen sample_request true sample_edb = some (out, edb1)
        ∧ (∀ i, i ≤ sample_request.max_leaf →
            edb1.get (sample_gen (sample_request.eval i)).1 = none)
        ∧ search sample_gen sample_request true edb1 = some ([], edb1) :=
  ⟨by decide, search_delete_on_read sample_gen sample_request sample_edb (by decide)⟩

/-- Witness of C10 on the sample request and database, where the token of leaf 1 is missing. -/
theorem search_missing_entry_never_aborts_witness :
    sample_request.max_leaf + 1 < SIZE_MOD
      ∧ ∃ out edb1, search sample_gen sample_request false sample_edb = some (out, edb1)
        ∧ out = (List.range (sample_request.max_leaf + 1)).filterMap (fun i =>
            ((store_before sample_gen sample_request false sample_edb i).get
                (sample_gen (sample_request.eval i)).1).map
              (fun v => xor_mask v (sample_gen (sample_request.eval i)).2)) :=
  ⟨by decide,
    search_missing_entry_never_aborts sample_gen sample_request false sample_edb (by decide)⟩

end Diana

namespace Diana

variable (gen : search_token_key_type → update_token_type × index_type)

theorem clamp_threads_eq (tc ac : Nat) (h : tc ≤ 255) :
    clamp_threads tc ac = min tc (ac % 2 ^ 32) := by
  unfold clamp_threads
  have h1 : tc % 2 ^ 32 = tc := Nat.mod_eq_of_lt (by omega)
  simp only [h1]
  have h2 : min tc (ac % 2 ^ 32) ≤ 255 := le_trans (Nat.min_le_left _ _) h
  rw [Nat.mod_eq_of_lt (by omega)]
  norm_num
  omega

theorem range_start_le (ac t k : Nat) (hk : k ≤ t) : range_start ac t k ≤ ac := by
  unfold range_start
  have h1 : k * (ac / t) ≤ t * (ac / t) := Nat.mul_le_mul_right _ hk
  have h2 := Nat.div_add_mod ac t
  have h3 : min k (ac % t) ≤ ac % t := Nat.min_le_right _ _
  omega

theorem range_start_succ (ac t k : Nat) :
    range_start ac t (k + 1)
      = range_start ac t k + ac / t + (if k < ac % t then 1 else 0) := by
  unfold range_start
  rw [Nat.succ_mul]
  split <;> omega

theorem foldl_spawn_step (ac t : Nat) (ht : 1 ≤ t) (hta : t ≤ ac) (h64 : ac < SIZE_MOD)
    (k : Nat) (hk : k ≤ t) :
    (List.range k).foldl (spawn_step ac (ac / t) (ac % t)) (0, ac / t, [])
      = (range_start ac t k, (range_start ac t k + ac / t) % SIZE_MOD,
         (List.range k).map (fun j => (j, range_start ac t j, range_start ac t (j + 1) - 1))) := by
  induction k with
  | zero =>
    have : ac / t < SIZE_MOD := lt_of_le_of_lt (Nat.div_le_self _ _) h64
    simp [range_start, Nat.mod_eq_of_lt this]
  | succ k ih =>
    rw [List.range_succ, List.foldl_append, ih (by omega)]
    simp only [List.foldl_cons, List.foldl_nil, List.map_append, List.map_cons, List.map_nil]
    have hle : range_start ac t (k + 1) ≤ ac := range_start_le ac t (k + 1) hk
    have hsucc := range_start_succ ac t k
    have hstep : 1 ≤ ac / t := (Nat.one_le_div_iff (by omega)).mpr hta
    unfold spawn_step
    simp only
    have hmod : (range_start ac t k + ac / t) % SIZE_MOD = range_start ac t k + ac / t := by
      apply Nat.mod_eq_of_lt
      split at hsucc <;> omega
    rw [hmod]
    have hmx : (if k < ac % t then (range_start ac t k + ac / t + 1) % SIZE_MOD
        else range_start ac t k + ac / t) = range_start ac t (k + 1) := by
      rw [hsucc]
      split
      · next h1 =>
        rw [if_pos h1] at hsucc
        apply Nat.mod_eq_of_lt
        omega
      · rfl
    rw [hmx]
    have hmin : min (range_start ac t (k + 1)) ac = range_start ac t (k + 1) :=
      Nat.min_eq_left hle
    rw [hmin]
    have hidx : (range_start ac t (k + 1) + SIZE_MOD - 1) % SIZE_MOD
        = range_start ac t (k + 1) - 1 := by
      have h1 : 1 ≤ range_start ac t (k + 1) := by rw [hsucc]; omega
      have h2 : range_start ac t (k + 1) + SIZE_MOD - 1
          = (range_start ac t (k + 1) - 1) + SIZE_MOD := by omega
      rw [h2, Nat.add_mod_right]
      apply Nat.mod_eq_of_lt
      omega
    rw [hidx]

theorem thread_ranges_eq (ac t : Nat) (ht : 1 ≤ t) (hta : t ≤ ac) (h64 : ac < SIZE_MOD) :
    thread_ranges ac t
      = (List.range t).map
          (fun j => (j, range_start ac t j, range_start ac t (j + 1) - 1)) := by
  unfold thread_ranges
  simp only
  rw [foldl_spawn_step ac t ht hta h64 t (le_refl _)]

theorem range_start_self (ac t : Nat) (ht : 1 ≤ t) : range_start ac t t = ac := by
  unfold range_start
  have h2 := Nat.div_add_mod ac t
  have h3 : ac % t < t := Nat.mod_lt _ (by omega)
  rw [Nat.min_eq_right (by omega)]
  omega

theorem foldl_leaf_step_false (req : SearchRequest) (edb : EDB) (ls : List Nat)
    (out : List index_type) :
    ls.foldl (leaf_step gen req false) (out, edb)
      = (out ++ ls.filterMap (lookup gen req edb), edb) := by
  induction ls generalizing out with
  | nil => simp
  | cons i ls ih =>
    rw [List.foldl_cons]
    have h1 : leaf_step gen req false (out, edb) i
        = (out ++ (lookup gen req edb i).toList, edb) := by
      unfold lookup
      cases h : edb (gen (req.eval i)).1 <;>
        simp [leaf_step, get_unmask, retrieve_entry, EDB.get, h]
    rw [h1, ih, List.filterMap_cons]
    cases lookup gen req edb i <;> simp

theorem run_jobs_false (req : SearchRequest) (edb : EDB) (ac t : Nat) (hta : t ≤ ac)
    (h64 : ac < SIZE_MOD) (ks : List Nat) (hks : ∀ k ∈ ks, k < t) :
    run_jobs gen req false
        (ks.map (fun j => (j, range_start ac t j, range_start ac t (j + 1) - 1))) edb
      = some (ks.map (fun j => (j, (List.range' (range_start ac t j)
            (range_start ac t (j + 1) - range_start ac t j)).filterMap (lookup gen req edb))),
          edb) := by
  induction ks with
  | nil => simp [run_jobs]
  | cons k ks ih =>
    have hk : k < t := hks k (List.mem_cons_self _ _)
    have hle : range_start ac t (k + 1) ≤ ac := range_start_le ac t (k + 1) (by omega)
    have hsucc := range_start_succ ac t k
    have hstep : 1 ≤ ac / t := (Nat.one_le_div_iff (by omega)).mpr hta
    simp only [List.map_cons, run_jobs]
    have hjob : job gen req false edb (range_start ac t k) (range_start ac t (k + 1) - 1)
        = some ((List.range' (range_start ac t k)
            (range_start ac t (k + 1) - range_start ac t k)).filterMap (lookup gen req edb),
            edb) := by
      unfold job leaf_range
      rw [if_neg (by omega)]
      simp only
      rw [foldl_leaf_step_false]
      have : range_start ac t (k + 1) - 1 + 1 - range_start ac t k
          = range_start ac t (k + 1) - range_start ac t k := by omega
      rw [this]
      simp
    rw [hjob]
    simp only
    rw [ih (fun j hj => hks j (List.mem_cons_of_mem _ hj))]

theorem flatten_ranges (ac t k : Nat) :
    ((List.range k).map (fun j => List.range' (range_start ac t j)
        (range_start ac t (j + 1) - range_start ac t j))).flatten
      = List.range (range_start ac t k) := by
  induction k with
  | zero => simp [range_start]
  | succ k ih =>
    rw [List.range_succ, List.map_append, List.flatten_append, ih]
    simp only [List.map_cons, List.map_nil, List.flatten_cons, List.flatten_nil,
      List.append_nil]
    have hsucc := range_start_succ ac t k
    have : range_start ac t k ≤ range_start ac t (k + 1) := by
      rw [hsucc]
      generalize ac / t = s
      omega
    rw [List.range_eq_range', List.range_eq_range']
    have h := List.range'_append_1 0 (range_start ac t k)
      (range_start ac t (k + 1) - range_start ac t k)
    rw [Nat.zero_add] at h
    rw [h]
    congr 1
    omega

/-- When the low 32 bits of `add_count` are not all zero (the clamp does not vanish): the jobs of
`search_parallel` are the ranges starting at `range_start`, worker `k` gets
`add_count / t + 1` leaves when `k < add_count mod t` and `add_count / t` otherwise, and the
indices the workers emit, concatenated in worker order, are those `search` emits. -/
theorem search_parallel_eq_search_of_clamp_pos (req : SearchRequest) (tc : Nat) (edb : EDB)
    (htc1 : 1 ≤ tc) (htc : tc ≤ 255) (h64 : req.add_count < SIZE_MOD)
    (hleaf : req.max_leaf + 1 = req.add_count) (h32 : req.add_count % 2 ^ 32 ≠ 0) :
    ∃ outs out,
      search_parallel gen req tc false edb = some (.ok (outs, edb))
      ∧ search gen req false edb = some (out, edb)
      ∧ (outs.map Prod.snd).flatten = out
      ∧ outs.map Prod.fst = List.range (clamp_threads tc req.add_count) := by
  have hc := clamp_threads_eq tc req.add_count htc
  have hmodle : req.add_count % 2 ^ 32 ≤ req.add_count := Nat.mod_le _ _
  have ht1 : 1 ≤ clamp_threads tc req.add_count := by
    rw [hc]; exact Nat.le_min.mpr ⟨htc1, by omega⟩
  have hta : clamp_threads tc req.add_count ≤ req.add_count := by
    rw [hc]; exact le_trans (Nat.min_le_right _ _) hmodle
  have hp : search_parallel gen req tc false edb
      = some (.ok ((List.range (clamp_threads tc req.add_count)).map (fun j =>
          (j, (List.range' (range_start req.add_count (clamp_threads tc req.add_count) j)
            (range_start req.add_count (clamp_threads tc req.add_count) (j + 1)
              - range_start req.add_count (clamp_threads tc req.add_count) j)).filterMap
              (lookup gen req edb))), edb)) := by
    unfold search_parallel
    rw [if_neg (by omega)]
    simp only
    rw [if_neg (by omega), thread_ranges_eq _ _ ht1 hta h64,
      run_jobs_false gen req edb _ _ hta h64 _ (fun k hk => List.mem_range.mp hk)]
  have hs : search gen req false edb
      = some ((List.range req.add_count).filterMap (lookup gen req edb), edb) := by
    unfold search leaf_range
    rw [if_neg (by omega)]
    simp only
    rw [foldl_leaf_step_false, hleaf, List.range_eq_range']
    simp
  refine ⟨_, _, hp, hs, ?_, ?_⟩
  · have hfm : ∀ (L : List (List Nat)),
        (L.map (fun l => l.filterMap (lookup gen req edb))).flatten
          = L.flatten.filterMap (lookup gen req edb) := by
      intro L
      induction L with
      | nil => simp
      | cons l L ih =>
        rw [List.map_cons, List.flatten_cons, List.flatten_cons, List.filterMap_append, ih]
    have := hfm ((List.range (clamp_threads tc req.add_count)).map
      (fun j => List.range' (range_start req.add_count (clamp_threads tc req.add_count) j)
        (range_start req.add_count (clamp_threads tc req.add_count) (j + 1)
          - range_start req.add_count (clamp_threads tc req.add_count) j)))
    rw [flatten_ranges, range_start_self _ _ ht1, List.map_map] at this
    rw [← this, List.map_map]
    rfl
  · simp [List.map_map, Function.comp_def]

/-- When the low 32 bits of `add_count` are not all zero, the clamped thread count `t` satisfies
`1 ≤ t ≤ add_count` and the ranges handed to the workers `k = 0..t-1` are
`[range_start k, range_start (k + 1) - 1]`: contiguous from `0` to `add_count - 1`, non-empty,
of `add_count / t + 1` leaves when `k < add_count mod t` and `add_count / t` leaves otherwise. -/
theorem thread_ranges_partition (ac tc : Nat) (htc1 : 1 ≤ tc) (htc : tc ≤ 255)
    (h64 : ac < SIZE_MOD) (h32 : ac % 2 ^ 32 ≠ 0) :
    1 ≤ clamp_threads tc ac ∧ clamp_threads tc ac ≤ ac
      ∧ thread_ranges ac (clamp_threads tc ac)
          = (List.range (clamp_threads tc ac)).map (fun k =>
              (k, range_start ac (clamp_threads tc ac) k,
                range_start ac (clamp_threads tc ac) (k + 1) - 1))
      ∧ range_start ac (clamp_threads tc ac) 0 = 0
      ∧ range_start ac (clamp_threads tc ac) (clamp_threads tc ac) = ac
      ∧ ∀ k, k < clamp_threads tc ac →
          range_start ac (clamp_threads tc ac) (k + 1)
              = range_start ac (clamp_threads tc ac) k + ac / clamp_threads tc ac
                + (if k < ac % clamp_threads tc ac then 1 else 0)
            ∧ range_start ac (clamp_threads tc ac) k
              < range_start ac (clamp_threads tc ac) (k + 1) := by
  have hc := clamp_threads_eq tc ac htc
  have hmodle : ac % 2 ^ 32 ≤ ac := Nat.mod_le _ _
  have ht1 : 1 ≤ clamp_threads tc ac := by
    rw [hc]; exact Nat.le_min.mpr ⟨htc1, by omega⟩
  have hta : clamp_threads tc ac ≤ ac := by
    rw [hc]; exact le_trans (Nat.min_le_right _ _) hmodle
  refine ⟨ht1, hta, thread_ranges_eq ac _ ht1 hta h64, by simp [range_start],
    range_start_self ac _ ht1, ?_⟩
  intro k _
  have hsucc := range_start_succ ac (clamp_threads tc ac) k
  refine ⟨hsucc, ?_⟩
  have hstep : 1 ≤ ac / clamp_threads tc ac := (Nat.one_le_div_iff (by omega)).mpr hta
  rw [hsucc]
  generalize ac / clamp_threads tc ac = s at hstep
  omega

/-- C3. For every `threads_count` in `[1, 255]`, every valid request (`max_leaf + 1 = add_count`,
with `add_count` a 32-bit count) and every store, with `delete_results = false` both searches
return, and the indices the workers of `search_parallel` emit, concatenated in worker order, are
the list `search` emits: the two multisets of emitted indices are equal. -/
theorem search_parallel_equiv_search (req : SearchRequest) (threads_count : Nat) (edb : EDB)
    (htc1 : 1 ≤ threads_count) (htc : threads_count ≤ 255) (h32 : req.add_count < 2 ^ 32)
    (hleaf : req.max_leaf + 1 = req.add_count) :
    ∃ outs out,
      search_parallel gen req threads_count false edb = some (.ok (outs, edb))
      ∧ search gen req false edb = some (out, edb)
      ∧ (outs.map Prod.snd).flatten = out
      ∧ Multiset.ofList (outs.map Prod.snd).flatten = Multiset.ofList out := by
  have h64 : req.add_count < SIZE_MOD := by unfold SIZE_MOD; omega
  have hne : req.add_count % 2 ^ 32 ≠ 0 := by
    rw [Nat.mod_eq_of_lt h32]; omega
  obtain ⟨outs, out, a1, a2, a3, _⟩ :=
    search_parallel_eq_search_of_clamp_pos gen req threads_count edb htc1 htc h64 hleaf hne
  exact ⟨outs, out, a1, a2, a3, by rw [a3]⟩

theorem search_parallel_equiv_search_witness :
    (1 : Nat) ≤ 2 ∧ (2 : Nat) ≤ 255 ∧ sample_request.add_count < 2 ^ 32
      ∧ sample_request.max_leaf + 1 = sample_request.add_count
      ∧ ∃ outs out,
          search_parallel sample_gen sample_request 2 false sample_edb
            = some (.ok (outs, sample_edb))
          ∧ search sample_gen sample_request false sample_edb = some (out, sample_edb)
          ∧ (outs.map Prod.snd).flatten = out
          ∧ Multiset.ofList (outs.map Prod.snd).flatten = Multiset.ofList out :=
  ⟨by decide, by decide, by decide, rfl,
    search_parallel_equiv_search sample_gen sample_request 2 sample_edb (by decide) (by decide)
      (by decide) rfl⟩

/-- The ranges of scenario S3: `add_count = 7`, `threads_count = 3`. -/
theorem thread_ranges_7_3 :
    thread_ranges 7 (clamp_threads 3 7) = [(0, 0, 2), (1, 3, 4), (2, 5, 6)] := by
  decide

/-- C4. For every `add_count ≥ 1` (a 32-bit count) and `threads_count ≥ 1` (a `uint8_t`), the
clamped thread count `t` satisfies `1 ≤ t ≤ add_count` and the ranges handed to the workers
`k = 0..t-1` are `[range_start k, range_start (k + 1) - 1]`: non-empty, contiguous from `0` to
`add_count - 1`, of `add_count / t + 1` leaves when `k < add_count mod t` and `add_count / t`
leaves otherwise; for `add_count = 7` and `threads_count = 3` they are `[0,2]`, `[3,4]`,
`[5,6]`. -/
theorem thread_ranges_cover (add_count threads_count : Nat) (htc1 : 1 ≤ threads_count)
    (htc : threads_count ≤ 255) (hac1 : 1 ≤ add_count) (h32 : add_count < 2 ^ 32) :
    (1 ≤ clamp_threads threads_count add_count
      ∧ clamp_threads threads_count add_count ≤ add_count
      ∧ thread_ranges add_count (clamp_threads threads_count add_count)
          = (List.range (clamp_threads threads_count add_count)).map (fun k =>
              (k, range_start add_count (clamp_threads threads_count add_count) k,
                range_start add_count (clamp_threads threads_count add_count) (k + 1) - 1))
      ∧ range_start add_count (clamp_threads threads_count add_count) 0 = 0
      ∧ range_start add_count (clamp_threads threads_count add_count)
          (clamp_threads threads_count add_count) = add_count
      ∧ ∀ k, k < clamp_threads threads_count add_count →
          range_start add_count (clamp_threads threads_count add_count) (k + 1)
              = range_start add_count (clamp_threads threads_count add_count) k
                + add_count / clamp_threads threads_count add_count
                + (if k < add_count % clamp_threads threads_count add_count then 1 else 0)
            ∧ range_start add_count (clamp_threads threads_count add_count) k
              < range_start add_count (clamp_threads threads_count add_count) (k + 1))
      ∧ thread_ranges 7 (clamp_threads 3 7) = [(0, 0, 2), (1, 3, 4), (2, 5, 6)] := by
  have h64 : add_count < SIZE_MOD := by unfold SIZE_MOD; omega
  have hne : add_count % 2 ^ 32 ≠ 0 := by
    rw [Nat.mod_eq_of_lt h32]; omega
  exact ⟨thread_ranges_partition add_count threads_count htc1 htc h64 hne, thread_ranges_7_3⟩

theorem thread_ranges_cover_witness :
    (1 : Nat) ≤ 3 ∧ (3 : Nat) ≤ 255 ∧ (1 : Nat) ≤ 7 ∧ (7 : Nat) < 2 ^ 32
      ∧ clamp_threads 3 7 = 3
      ∧ thread_ranges 7 (clamp_threads 3 7)
          = (List.range (clamp_threads 3 7)).map (fun k =>
              (k, range_start 7 (clamp_threads 3 7) k,
                range_start 7 (clamp_threads 3 7) (k + 1) - 1))
      ∧ range_start 7 (clamp_threads 3 7) (clamp_threads 3 7) = 7 :=
  have h := thread_ranges_cover 7 3 (by decide) (by decide) (by decide) (by decide)
  ⟨by decide, by decide, by decide, by decide, by decide, h.1.2.2.1, h.1.2.2.2.2.1⟩

end Diana

namespace Diana

/-! ## The clamp of `search_parallel` -/

/-- Whatever the width of `add_count`, the clamp is the minimum of `threads_count` and the low
32 bits of `add_count`: it is at least 1 exactly when `add_count` is not a multiple of
`2^32`. -/
theorem clamp_threads_pos_iff (tc ac : Nat) (h1 : 1 ≤ tc) (h2 : tc ≤ 255) :
    1 ≤ clamp_threads tc ac ↔ ac % 2 ^ 32 ≠ 0 := by
  rw [clamp_threads_eq tc ac h2]
  omega

end Diana

namespace Diana

variable (gen : search_token_key_type → update_token_type × index_type)

/-! ## `search` and `add_count`; scenario S1 -/

/-- The sequential `search` never reads `add_count`. -/
theorem search_ignores_add_count (ac max_leaf : Nat) (eval : Nat → search_token_key_type)
    (b : Bool) (edb : EDB) :
    search gen ⟨ac, max_leaf, eval⟩ b edb = search gen ⟨0, max_leaf, eval⟩ b edb := rfl

/-- C22, at the failing input: for a request with `add_count = 0` whose RCPRF has one leaf, the
sequential `search` looks the leaf up in the store: on a store that holds its token it emits an
index (and removes the entry when `delete_results` is set), on the empty store it emits
nothing. -/
theorem search_zero_count_reads_store :
    zero_count_request.add_count = 0
      ∧ (search sample_gen zero_count_request false sample_edb).map Prod.fst = some [2]
      ∧ (search sample_gen zero_count_request false EDB.empty).map Prod.fst = some []
      ∧ sample_edb.get 10 = some 7
      ∧ (search sample_gen zero_count_request true sample_edb).map
          (fun r => (r.1, r.2.get 10)) = some ([2], none) := by
  refine ⟨rfl, ?_, ?_, rfl, ?_⟩
  · rw [search_eq sample_gen zero_count_request false sample_edb (by decide)]
    rfl
  · rw [search_eq sample_gen zero_count_request false EDB.empty (by decide)]
    rfl
  · rw [search_eq sample_gen zero_count_request true sample_edb (by decide)]
    rfl

/-- What a search with a single-leaf request emits after one insertion into the empty store
under the token of the leaf: the index inserted, unmasked with the mask of the leaf. -/
theorem search_single_leaf (token : update_token_type) (index : index_type) (add_count : Nat)
    (eval : Nat → search_token_key_type) (delete_results : Bool)
    (h : (gen (eval 0)).1 = token) :
    (search gen ⟨add_count, 0, eval⟩ delete_results (insert EDB.empty ⟨token, index⟩)).map
        Prod.fst = some [xor_mask index (gen (eval 0)).2] := by
  rw [search_eq gen _ delete_results _ (by show 0 + 1 < SIZE_MOD; unfold SIZE_MOD; norm_num)]
  simp only [Option.map_some', Option.some.injEq]
  show (List.range 1).filterMap _ = _
  have hr : List.range 1 = [0] := rfl
  rw [hr, List.filterMap_cons]
  have hs : store_before gen ⟨add_count, 0, eval⟩ delete_results
      (insert EDB.empty ⟨token, index⟩) 0 = insert EDB.empty ⟨token, index⟩ := by
    unfold store_before
    cases delete_results <;> simp
  rw [hs]
  simp [insert, EDB.put, h]

/-- C23, as stated, fails: with the leaf derivation `sample_gen` (mask `5`), after the insert of
`{token = 10, index = 0xCAFEBABE00000001}` into the empty store, the search with the single-leaf
request whose leaf derives to the token `10` emits `0xCAFEBABE00000004`, not
`0xCAFEBABE00000001`. -/
theorem s1_emits_unmasked_index :
    (sample_gen (s1_request.eval 0)).1 = s1_update.token
      ∧ s1_update.index = 0xCAFEBABE00000001
      ∧ (search sample_gen s1_request false (insert EDB.empty s1_update)).map Prod.fst
          = some [0xCAFEBABE00000004]
      ∧ (search sample_gen s1_request false (insert EDB.empty s1_update)).map Prod.fst
          ≠ some [0xCAFEBABE00000001] := by
  have h : (search sample_gen s1_request false (insert EDB.empty s1_update)).map Prod.fst
      = some [0xCAFEBABE00000004] := by
    rw [search_eq sample_gen s1_request false _ (by decide)]
    rfl
  refine ⟨rfl, rfl, h, ?_⟩
  rw [h]
  decide

/-- C23, amended. Scenario S1: after `insert` of the update
`{token, index = 0xCAFEBABE00000001}` into an empty store, a search with a single-leaf request
whose `eval(0)` derives to that token emits exactly one index, and that index is
`xor_mask(0xCAFEBABE00000001, mask)` where `mask` is the mask derived from `eval(0)`. -/
theorem s1_round_trip (token : update_token_type) (eval : Nat → search_token_key_type)
    (delete_results : Bool) (h : (gen (eval 0)).1 = token) :
    (search gen ⟨1, 0, eval⟩ delete_results
        (insert EDB.empty ⟨token, 0xCAFEBABE00000001⟩)).map Prod.fst
      = some [xor_mask 0xCAFEBABE00000001 (gen (eval 0)).2] :=
  search_single_leaf gen token 0xCAFEBABE00000001 1 eval delete_results h

theorem s1_round_trip_witness :
    (sample_gen ((fun _ => 10 : Nat → search_token_key_type) 0)).1 = 10
      ∧ (search sample_gen ⟨1, 0, fun _ => 10⟩ false
          (insert EDB.empty ⟨10, 0xCAFEBABE00000001⟩)).map Prod.fst
        = some [xor_mask 0xCAFEBABE00000001 5] :=
  ⟨rfl, s1_round_trip sample_gen 10 (fun _ => 10) false rfl⟩

end Diana

namespace Diana

variable (gen : search_token_key_type → update_token_type × index_type)

/-! ## The vector version of `search_parallel` -/

theorem leaf_step_length (req : SearchRequest) (b : Bool) (st : List index_type × EDB)
    (i : Nat) : (leaf_step gen req b st i).1.length ≤ st.1.length + 1 := by
  unfold leaf_step
  simp only
  split
  · simp
  · simp

theorem foldl_leaf_step_length (req : SearchRequest) (b : Bool) (ls : List Nat) :
    ∀ st : List index_type × EDB,
      (ls.foldl (leaf_step gen req b) st).1.length ≤ st.1.length + ls.length := by
  induction ls with
  | nil => intro st; simp
  | cons i ls ih =>
    intro st
    rw [List.foldl_cons]
    have h1 := ih (leaf_step gen req b st i)
    have h2 := leaf_step_length gen req b st i
    simp only [List.length_cons]
    omega

theorem job_length (req : SearchRequest) (b : Bool) (edb : EDB) (lo hi : Nat)
    (out : List index_type) (edb1 : EDB) (h : job gen req b edb lo hi = some (out, edb1)) :
    out.length ≤ hi + 1 - lo := by
  unfold job leaf_range at h
  split at h
  · cases h
  · next ls hls =>
    split at hls
    · cases hls
    · injection hls with hls
      injection h with h
      have := foldl_leaf_step_length gen req b ls ([], edb)
      rw [h] at this
      rw [← hls] at this
      simpa using this

theorem run_jobs_length (req : SearchRequest) (b : Bool) (jobs : List (Nat × Nat × Nat)) :
    ∀ edb outs edb1, run_jobs gen req b jobs edb = some (outs, edb1) →
      (outs.map Prod.snd).flatten.length ≤ (jobs.map (fun j => j.2.2 + 1 - j.2.1)).sum := by
  induction jobs with
  | nil =>
    intro edb outs edb1 h
    simp only [run_jobs, Option.some.injEq, Prod.mk.injEq] at h
    rw [← h.1]
    simp
  | cons j rest ih =>
    intro edb outs edb1 h
    obtain ⟨t, lo, hi⟩ := j
    unfold run_jobs at h
    cases hj : job gen req b edb lo hi with
    | none => rw [hj] at h; simp at h
    | some r =>
      obtain ⟨out, edb2⟩ := r
      rw [hj] at h
      simp only at h
      cases hr : run_jobs gen req b rest edb2 with
      | none => rw [hr] at h; simp at h
      | some r2 =>
        obtain ⟨outs2, edb3⟩ := r2
        rw [hr] at h
        simp only [Option.some.injEq, Prod.mk.injEq] at h
        rw [← h.1]
        have h1 := job_length gen req b edb lo hi out edb2 hj
        have h2 := ih edb2 outs2 edb3 hr
        simp only [List.map_cons, List.flatten_cons, List.length_append, List.sum_cons]
        omega

theorem sum_thread_ranges (ac t : Nat) (hta : t ≤ ac) (ht : 1 ≤ t) (k : Nat) :
    (((List.range k).map (fun j => (j, range_start ac t j, range_start ac t (j + 1) - 1))).map
        (fun j => j.2.2 + 1 - j.2.1)).sum = range_start ac t k := by
  have hstep : 1 ≤ ac / t := (Nat.one_le_div_iff (by omega)).mpr hta
  induction k with
  | zero => simp [range_start]
  | succ k ih =>
    rw [List.range_succ, List.map_append, List.map_append, List.sum_append, ih]
    simp only [List.map_cons, List.map_nil, List.sum_cons, List.sum_nil]
    have hsucc := range_start_succ ac t k
    rw [hsucc]
    generalize ac / t = s at hstep
    split <;> omega

/-- The workers of `search_parallel` emit at most `add_count` indices. -/
theorem search_parallel_length (req : SearchRequest) (tc : Nat) (b : Bool) (edb : EDB)
    (h64 : req.add_count < SIZE_MOD) (outs : List (Nat × List index_type)) (edb1 : EDB)
    (h : search_parallel gen req tc b edb = some (.ok (outs, edb1))) :
    (outs.map Prod.snd).flatten.length ≤ req.add_count := by
  unfold search_parallel at h
  split at h
  · simp only [Option.some.injEq, Except.ok.injEq, Prod.mk.injEq] at h
    rw [← h.1]
    simp
  · simp only at h
    split at h
    · cases h
    · next h0 hc =>
      have ht1 : 1 ≤ clamp_threads tc req.add_count := by omega
      have hta : clamp_threads tc req.add_count ≤ req.add_count := by
        unfold clamp_threads
        simp only
        have h1 : min (tc % 2 ^ 32) (req.add_count % 2 ^ 32) % 2 ^ 8
            ≤ min (tc % 2 ^ 32) (req.add_count % 2 ^ 32) := Nat.mod_le _ _
        have h2 : req.add_count % 2 ^ 32 ≤ req.add_count := Nat.mod_le _ _
        omega
      cases hr : run_jobs gen req b
          (thread_ranges req.add_count (clamp_threads tc req.add_count)) edb with
      | none => rw [hr] at h; simp at h
      | some r =>
        rw [hr] at h
        simp only [Option.some.injEq, Except.ok.injEq] at h
        subst h
        have := run_jobs_length gen req b _ edb outs edb1 hr
        rw [thread_ranges_eq _ _ ht1 hta h64, sum_thread_ranges _ _ hta ht1,
          range_start_self _ _ ht1] at this
        exact this

theorem foldl_sink_step (em : List index_type) :
    ∀ (pre rest : List index_type), em.length ≤ rest.length →
      pre.length + em.length < 2 ^ 64 →
      em.foldl sink_step (pre ++ rest, pre.length)
        = (pre ++ em ++ rest.drop em.length, pre.length + em.length) := by
  induction em with
  | nil => intro pre rest _ _; simp
  | cons x em ih =>
    intro pre rest h1 h2
    cases rest with
    | nil => simp at h1
    | cons y rest =>
      simp only [List.length_cons] at h1 h2
      rw [List.foldl_cons]
      have hs : sink_step (pre ++ y :: rest, pre.length) x
          = ((pre ++ [x]) ++ rest, (pre ++ [x]).length) := by
        unfold sink_step
        simp only
        rw [List.set_append_right _ _ (le_refl _), Nat.sub_self, List.set_cons_zero,
          Nat.mod_eq_of_lt (by omega)]
        simp
      rw [hs, ih (pre ++ [x]) rest (by omega) (by simp; omega)]
      simp only [List.length_append, List.length_singleton, List.append_assoc,
        List.singleton_append, List.length_cons, List.drop_succ_cons]
      congr 1
      simp only [List.length_nil]
      omega

theorem length_resize_results (results : List index_type) (ac : Nat) :
    (resize_results results ac).length = max results.length ac := by
  unfold resize_results
  split
  · simp only [List.length_append, List.length_replicate]; omega
  · omega

/-- C24. For the vector version of `search_parallel`, called with a 64-bit `add_count`: whenever
it returns, the vector has size `max(previous size, add_count)`; the `k` indices the workers
emitted, with `k ≤ add_count`, are at the positions `0, ..., k - 1`, written through the counter
`r_index` that ends at `k`, and the positions from `k` on hold what the vector held after the
resize: their previous content, or the value-initialised elements the resize added. -/
theorem search_parallel_vector_sink (req : SearchRequest) (tc : Nat)
    (results : List index_type) (b : Bool) (edb : EDB) (h64 : req.add_count < SIZE_MOD)
    (r : List index_type) (edb1 : EDB)
    (h : search_parallel_vector gen req tc results b edb = some (.ok (r, edb1))) :
    r.length = max results.length req.add_count
      ∧ ∃ outs, search_parallel gen req tc b edb = some (.ok (outs, edb1))
        ∧ (outs.map Prod.snd).flatten.length ≤ req.add_count
        ∧ ((outs.map Prod.snd).flatten.foldl sink_step
            (resize_results results req.add_count, 0)).2 = (outs.map Prod.snd).flatten.length
        ∧ r = (outs.map Prod.snd).flatten
            ++ (resize_results results req.add_count).drop (outs.map Prod.snd).flatten.length
        ∧ resize_results results req.add_count
            = results ++ List.replicate (req.add_count - results.length) 0 := by
  unfold search_parallel_vector at h
  simp only at h
  cases hp : search_parallel gen req tc b edb with
  | none => rw [hp] at h; simp at h
  | some res =>
    rw [hp] at h
    cases res with
    | error e => simp at h
    | ok v =>
      obtain ⟨outs, edb2⟩ := v
      simp only [Option.some.injEq, Except.ok.injEq, Prod.mk.injEq] at h
      obtain ⟨hr, he⟩ := h
      subst he
      have hlen := search_parallel_length gen req tc b edb h64 outs edb2 hp
      have hres := length_resize_results results req.add_count
      have hfold := foldl_sink_step (outs.map Prod.snd).flatten []
        (resize_results results req.add_count) (by rw [hres]; omega)
        (by simp only [List.length_nil, Nat.zero_add]; unfold SIZE_MOD at h64; omega)
      simp only [List.nil_append, List.length_nil, Nat.zero_add] at hfold
      rw [hfold] at hr
      simp only at hr
      refine ⟨?_, outs, rfl, hlen, by rw [hfold], hr.symm, ?_⟩
      · rw [← hr]
        simp only [List.length_append, List.length_drop]
        omega
      · unfold resize_results
        split
        · rfl
        · have : req.add_count - results.length = 0 := by omega
          rw [this]
          simp

theorem search_parallel_vector_sink_witness :
    sample_request.add_count < SIZE_MOD
      ∧ search_parallel_vector sample_gen sample_request 2 [50] false sample_edb
          = some (.ok ([2, 12, 0], sample_edb))
      ∧ ([2, 12, 0] : List index_type).length = max ([50] : List index_type).length
          sample_request.add_count :=
  have h : search_parallel_vector sample_gen sample_request 2 [50] false sample_edb
      = some (.ok ([2, 12, 0], sample_edb)) := rfl
  ⟨by decide, h,
    (search_parallel_vector_sink sample_gen sample_request 2 [50] false sample_edb
      (by decide) [2, 12, 0] sample_edb h).1⟩

end Diana

namespace Diana

variable (gen : search_token_key_type → update_token_type × index_type)

/-! ## The list version of `search_parallel` -/

theorem filter_id_map_range {α : Type} (f : Nat → α) (t c : Nat) :
    ((List.range c).map (fun j => (j, f j))).filter (fun o => decide (o.1 = t))
      = if t < c then [(t, f t)] else [] := by
  induction c with
  | zero => simp
  | succ c ih =>
    rw [List.range_succ, List.map_append, List.filter_append, ih]
    simp only [List.map_cons, List.map_nil, List.filter_cons, List.filter_nil]
    by_cases h1 : t < c
    · have h2 : ¬ c = t := by omega
      have h3 : t < c + 1 := by omega
      simp [h1, h2, h3]
    · by_cases h2 : c = t
      · subst h2
        simp
      · have h3 : ¬ t < c + 1 := by omega
        simp [h1, h2, h3]

theorem flatten_map_range_extend (f : Nat → List index_type) (c : Nat) :
    ∀ n, c ≤ n →
      ((List.range n).map (fun t => if t < c then f t else [])).flatten
        = ((List.range c).map f).flatten := by
  intro n hn
  induction n with
  | zero =>
    have : c = 0 := by omega
    subst this
    rfl
  | succ n ih =>
    rw [List.range_succ, List.map_append, List.flatten_append]
    by_cases hc : c ≤ n
    · rw [ih hc]
      have : ¬ n < c := by omega
      simp [this]
    · have hcn : c = n + 1 := by omega
      subst hcn
      rw [List.range_succ, List.map_append, List.flatten_append]
      congr 1
      · congr 1
        apply List.map_congr_left
        intro t ht
        have : t < n + 1 := by have := List.mem_range.mp ht; omega
        simp [this]
      · simp

/-- The lists of the workers `0, ..., c - 1`, spliced in the order of `threads_count ≥ c`
threads, are the outputs of the workers in the order of their ids. -/
theorem splice_result_lists (f : Nat → List index_type) (c n : Nat) (hcn : c ≤ n) :
    ((List.range n).map (result_list ((List.range c).map (fun j => (j, f j))))).flatten
      = ((List.range c).map f).flatten := by
  have h : ∀ t, result_list ((List.range c).map (fun j => (j, f j))) t
      = if t < c then f t else [] := by
    intro t
    unfold result_list
    rw [filter_id_map_range]
    split <;> simp
  rw [show (result_list ((List.range c).map (fun j => (j, f j))))
      = (fun t => if t < c then f t else []) from funext h]
  exact flatten_map_range_extend f c n hcn

/-- When the low 32 bits of `add_count` are not all zero, the list version of `search_parallel`
returns, element for element, the list `search` returns. -/
theorem search_parallel_list_eq_search (req : SearchRequest) (tc : Nat) (edb : EDB)
    (htc1 : 1 ≤ tc) (htc : tc ≤ 255) (h64 : req.add_count < SIZE_MOD)
    (hleaf : req.max_leaf + 1 = req.add_count) (h32 : req.add_count % 2 ^ 32 ≠ 0) :
    ∃ out, search_parallel_list gen req tc false edb = some (.ok (out, edb))
      ∧ search gen req false edb = some (out, edb) := by
  have hc := clamp_threads_eq tc req.add_count htc
  have hmodle : req.add_count % 2 ^ 32 ≤ req.add_count := Nat.mod_le _ _
  have ht1 : 1 ≤ clamp_threads tc req.add_count := by
    rw [hc]; exact Nat.le_min.mpr ⟨htc1, by omega⟩
  have hta : clamp_threads tc req.add_count ≤ req.add_count := by
    rw [hc]; exact le_trans (Nat.min_le_right _ _) hmodle
  have hct : clamp_threads tc req.add_count ≤ tc := by
    rw [hc]; exact Nat.min_le_left _ _
  have hp : search_parallel gen req tc false edb
      = some (.ok ((List.range (clamp_threads tc req.add_count)).map (fun j =>
          (j, (List.range' (range_start req.add_count (clamp_threads tc req.add_count) j)
            (range_start req.add_count (clamp_threads tc req.add_count) (j + 1)
              - range_start req.add_count (clamp_threads tc req.add_count) j)).filterMap
              (lookup gen req edb))), edb)) := by
    unfold search_parallel
    rw [if_neg (by omega)]
    simp only
    rw [if_neg (by omega), thread_ranges_eq _ _ ht1 hta h64,
      run_jobs_false gen req edb _ _ hta h64 _ (fun k hk => List.mem_range.mp hk)]
  obtain ⟨outs, out, hp2, hs, hflat, _⟩ :=
    search_parallel_eq_search_of_clamp_pos gen req tc edb htc1 htc h64 hleaf h32
  rw [hp] at hp2
  simp only [Option.some.injEq, Except.ok.injEq, Prod.mk.injEq, and_true] at hp2
  refine ⟨out, ?_, hs⟩
  unfold search_parallel_list
  rw [hp]
  simp only
  rw [splice_result_lists _ _ _ hct, ← hflat, ← hp2, List.map_map]
  rfl

theorem store_before_false (req : SearchRequest) (edb : EDB) (i : Nat) :
    store_before gen req false edb i = edb := by
  unfold store_before
  simp

/-- C29. For every `threads_count ≥ 1` (a `uint8_t`) and every request with
`max_leaf + 1 = add_count ≥ 1` (`add_count` a 32-bit count), with `delete_results = false` the
list version of `search_parallel` and `search` both return, and they return the same list,
element for element. -/
theorem search_parallel_list_equiv_search (req : SearchRequest) (threads_count : Nat)
    (edb : EDB) (htc1 : 1 ≤ threads_count) (htc : threads_count ≤ 255)
    (h32 : req.add_count < 2 ^ 32) (hleaf : req.max_leaf + 1 = req.add_count) :
    ∃ out, search_parallel_list gen req threads_count false edb = some (.ok (out, edb))
      ∧ search gen req false edb = some (out, edb)
      ∧ out = (List.range req.add_count).filterMap (lookup gen req edb) := by
  have h64 : req.add_count < SIZE_MOD := by unfold SIZE_MOD; omega
  have hne : req.add_count % 2 ^ 32 ≠ 0 := by
    rw [Nat.mod_eq_of_lt h32]; omega
  obtain ⟨out, a1, a2⟩ :=
    search_parallel_list_eq_search gen req threads_count edb htc1 htc h64 hleaf hne
  refine ⟨out, a1, a2, ?_⟩
  have hs : search gen req false edb
      = some ((List.range req.add_count).filterMap (lookup gen req edb), edb) := by
    unfold search leaf_range
    rw [if_neg (by omega)]
    simp only
    rw [foldl_leaf_step_false, hleaf, List.range_eq_range']
    simp
  rw [hs] at a2
  simp only [Option.some.injEq, Prod.mk.injEq, and_true] at a2
  exact a2.symm

theorem search_parallel_list_equiv_search_witness :
    (1 : Nat) ≤ 2 ∧ (2 : Nat) ≤ 255 ∧ sample_request.add_count < 2 ^ 32
      ∧ sample_request.max_leaf + 1 = sample_request.add_count
      ∧ search_parallel_list sample_gen sample_request 2 false sample_edb
          = some (.ok ([2, 12], sample_edb))
      ∧ ∃ out, search_parallel_list sample_gen sample_request 2 false sample_edb
            = some (.ok (out, sample_edb))
          ∧ search sample_gen sample_request false sample_edb = some (out, sample_edb)
          ∧ out = (List.range sample_request.add_count).filterMap
              (lookup sample_gen sample_request sample_edb) :=
  ⟨by decide, by decide, by decide, rfl, rfl,
    search_parallel_list_equiv_search sample_gen sample_request 2 sample_edb (by decide)
      (by decide) (by decide) rfl⟩

end Diana

namespace Diane

variable (derive_node : token_type → Nat → Nat → token_type)
variable (hash_token : token_type → Diana.update_token_type)
variable (hash_mask : token_type → Diana.index_type)

/-! ## The number of leaves `DianeServer::search` derives for a token -/

/-- Below depth 31 the loop bound is `2^depth`. -/
theorem count_of_lt (depth : Nat) (h : depth < 31) : count depth = some (2 ^ depth) := by
  unfold count shl_one_int
  rw [if_pos h]
  simp only [Option.map_some', Option.some.injEq]
  have h1 : (2 : Int) ^ depth < 2 ^ 64 :=
    pow_lt_pow_right₀ (by norm_num) (by omega)
  rw [Int.emod_eq_of_lt (by positivity) h1]
  have : ((2 : Int) ^ depth) = ((2 ^ depth : Nat) : Int) := by push_cast; rfl
  rw [this, Int.toNat_natCast]

theorem count_31 : count 31 = some (2 ^ 64 - 2 ^ 31) := by
  unfold count shl_one_int
  norm_num
  rfl

theorem count_of_gt (depth : Nat) (h : 31 < depth) : count depth = none := by
  unfold count shl_one_int
  rw [if_neg (by omega), if_neg (by omega)]
  rfl

theorem foldl_leaf_step_lookups (edb : Diana.EDB) (node : token_type) (depth : Nat)
    (ls : List Nat) :
    ∀ st : List Diana.index_type × List Diana.update_token_type,
      (ls.foldl (leaf_step derive_node hash_token hash_mask edb node depth) st).2
        = st.2 ++ ls.map (fun i => hash_token (derive_node node i depth)) := by
  induction ls with
  | nil => intro st; simp
  | cons i ls ih =>
    intro st
    rw [List.foldl_cons, ih]
    have : (leaf_step derive_node hash_token hash_mask edb node depth st i).2
        = st.2 ++ [hash_token (derive_node node i depth)] := by
      unfold leaf_step
      simp only
      split <;> rfl
    rw [this]
    simp

/-- When every depth of the token list is below 31, `search` returns, and the update tokens it
looks up are, entry after entry, those of the leaves `0, ..., 2^depth - 1` in increasing
order. -/
theorem search_tokens_lookups (edb : Diana.EDB) (tl : List (token_type × Nat))
    (hd : ∀ e ∈ tl, e.2 < 31) :
    ∀ st, ∃ r, search_tokens derive_node hash_token hash_mask edb tl st = .ok r
      ∧ r.2 = st.2
          ++ (tl.map (fun e => entry_lookups derive_node hash_token e.1 e.2 (2 ^ e.2))).flatten := by
  induction tl with
  | nil => intro st; exact ⟨st, rfl, by simp⟩
  | cons e rest ih =>
    intro st
    obtain ⟨node, depth⟩ := e
    have hc := count_of_lt depth (hd (node, depth) (List.mem_cons_self _ _))
    obtain ⟨r, hr, hr2⟩ := ih (fun x hx => hd x (List.mem_cons_of_mem _ hx))
      ((List.range (2 ^ depth)).foldl
        (leaf_step derive_node hash_token hash_mask edb node depth) st)
    refine ⟨r, ?_, ?_⟩
    · unfold search_tokens
      rw [hc]
      exact hr
    · rw [hr2, foldl_leaf_step_lookups]
      simp only [List.map_cons, List.flatten_cons, List.append_assoc]
      rfl

theorem length_entry_lookups (node : token_type) (depth c : Nat) :
    (entry_lookups derive_node hash_token node depth c).length = c := by
  unfold entry_lookups
  simp

/-- When every depth of the token list is below 31, the number of store lookups of `search` is
the sum of `2^depth` over the token list. -/
theorem search_lookups_length (req : SearchRequest) (edb : Diana.EDB)
    (hd : ∀ e ∈ req.token_list, e.2 < 31) :
    ∃ r, search derive_node hash_token hash_mask req edb = .ok r
      ∧ r.2.length = (req.token_list.map (fun e => 2 ^ e.2)).sum := by
  obtain ⟨r, hr, hr2⟩ := search_tokens_lookups derive_node hash_token hash_mask edb
    req.token_list hd ([], [])
  refine ⟨r, hr, ?_⟩
  rw [hr2]
  simp only [List.nil_append, List.length_flatten, List.map_map]
  congr 1
  apply List.map_congr_left
  intro e _
  exact length_entry_lookups derive_node hash_token e.1 e.2 _

/-- `search` on a single token-list entry whose loop bound is `c`. -/
theorem search_single_entry (kw_token : Nat) (node : token_type) (depth add_count c : Nat)
    (edb : Diana.EDB) (hc : count depth = some c) :
    ∃ r, search derive_node hash_token hash_mask ⟨kw_token, [(node, depth)], add_count⟩ edb
        = .ok r
      ∧ r.2 = entry_lookups derive_node hash_token node depth c ∧ r.2.length = c := by
  have hs : search derive_node hash_token hash_mask ⟨kw_token, [(node, depth)], add_count⟩ edb
      = .ok ((List.range c).foldl
          (leaf_step derive_node hash_token hash_mask edb node depth) ([], [])) := by
    unfold search
    simp only
    unfold search_tokens
    rw [hc]
    rfl
  refine ⟨_, hs, ?_, ?_⟩
  · rw [foldl_leaf_step_lookups]
    rfl
  · rw [foldl_leaf_step_lookups]
    simp only [List.nil_append, List.length_map, List.length_range]

theorem search_undefined_shift (kw_token : Nat) (node : token_type) (depth add_count : Nat)
    (edb : Diana.EDB) (hc : count depth = none) :
    search derive_node hash_token hash_mask ⟨kw_token, [(node, depth)], add_count⟩ edb
      = .error .undefined_shift := by
  unfold search
  simp only
  unfold search_tokens
  rw [hc]

/-- C31, at the failing inputs: for a token-list entry of depth 31 the loop bound `count` is
`2^64 - 2^31`, not `2^31`, and `search` looks up that many update tokens; for a depth of 32 (and
every depth up to 63) the shift `1 << depth` of the `int` literal is undefined and `search` has
no defined result. -/
theorem search_count_at_depth_31 (kw_token : Nat) (node : token_type) (edb : Diana.EDB) :
    count 31 = some (2 ^ 64 - 2 ^ 31)
      ∧ (2 ^ 64 - 2 ^ 31 : Nat) ≠ 2 ^ 31
      ∧ (∃ r, search derive_node hash_token hash_mask ⟨kw_token, [(node, 31)], 2 ^ 31⟩ edb
            = .ok r
          ∧ r.2 = entry_lookups derive_node hash_token node 31 (2 ^ 64 - 2 ^ 31)
          ∧ r.2.length = 2 ^ 64 - 2 ^ 31)
      ∧ count 32 = none ∧ count 63 = none
      ∧ search derive_node hash_token hash_mask ⟨kw_token, [(node, 32)], 2 ^ 32⟩ edb
          = .error .undefined_shift :=
  ⟨count_31, by norm_num,
    search_single_entry derive_node hash_token hash_mask kw_token node 31 (2 ^ 31)
      (2 ^ 64 - 2 ^ 31) edb count_31,
    count_of_gt 32 (by norm_num), count_of_gt 63 (by norm_num),
    search_undefined_shift derive_node hash_token hash_mask kw_token node 32 (2 ^ 32) edb
      (count_of_gt 32 (by norm_num))⟩

end Diane

namespace Diana

variable (gen : search_token_key_type → update_token_type × index_type)

/-! ## A search without `delete_results` leaves the store as it was -/

theorem retrieve_entry_keeps (edb : EDB) (key : update_token_type) (index : index_type)
    (delete_key : Bool) (h : delete_key = false ∨ edb.get key = none) :
    (retrieve_entry edb key index delete_key).2.2 = edb := by
  unfold retrieve_entry
  rcases h with h | h
  · subst h
    cases edb.get key <;> rfl
  · rw [h]

theorem job_false_edb (req : SearchRequest) (edb : EDB) (lo hi : Nat)
    (out : List index_type) (edb1 : EDB) (h : job gen req false edb lo hi = some (out, edb1)) :
    edb1 = edb := by
  unfold job at h
  split at h
  · cases h
  · rw [foldl_leaf_step_false] at h
    simp only [Option.some.injEq, Prod.mk.injEq] at h
    exact h.2.symm

theorem run_jobs_false_edb (req : SearchRequest) (jobs : List (Nat × Nat × Nat)) :
    ∀ edb outs edb1, run_jobs gen req false jobs edb = some (outs, edb1) → edb1 = edb := by
  induction jobs with
  | nil =>
    intro edb outs edb1 h
    simp only [run_jobs, Option.some.injEq, Prod.mk.injEq] at h
    exact h.2.symm
  | cons j rest ih =>
    intro edb outs edb1 h
    obtain ⟨t, lo, hi⟩ := j
    unfold run_jobs at h
    cases hj : job gen req false edb lo hi with
    | none => rw [hj] at h; simp at h
    | some r =>
      obtain ⟨out, edb2⟩ := r
      rw [hj] at h
      simp only at h
      cases hr : run_jobs gen req false rest edb2 with
      | none => rw [hr] at h; simp at h
      | some r2 =>
        obtain ⟨outs2, edb3⟩ := r2
        rw [hr] at h
        simp only [Option.some.injEq, Prod.mk.injEq] at h
        rw [← h.2, ih edb2 outs2 edb3 hr]
        exact job_false_edb gen req edb lo hi out edb2 hj

/-- C33. With `delete_results = false`, whenever `search` or `search_parallel` returns, the
store is the one it was before the call: `get` gives the same result for every token; and
`retrieve_entry` changes the store only when `delete_key` is set and the entry was found. -/
theorem search_keeps_store (req : SearchRequest) (threads_count : Nat) (edb : EDB) :
    (∀ out edb1, search gen req false edb = some (out, edb1) →
        ∀ token, edb1.get token = edb.get token)
      ∧ (∀ outs edb1, search_parallel gen req threads_count false edb = some (.ok (outs, edb1)) →
        ∀ token, edb1.get token = edb.get token)
      ∧ (∀ key index delete_key, delete_key = false ∨ edb.get key = none →
        (retrieve_entry edb key index delete_key).2.2 = edb) := by
  refine ⟨?_, ?_, fun key index delete_key h => retrieve_entry_keeps edb key index delete_key h⟩
  · intro out edb1 h token
    unfold search at h
    split at h
    · cases h
    · rw [foldl_leaf_step_false] at h
      simp only [Option.some.injEq, Prod.mk.injEq] at h
      rw [← h.2]
  · intro outs edb1 h token
    unfold search_parallel at h
    split at h
    · simp only [Option.some.injEq, Except.ok.injEq, Prod.mk.injEq] at h
      rw [← h.2]
    · simp only at h
      split at h
      · cases h
      · cases hr : run_jobs gen req false
            (thread_ranges req.add_count (clamp_threads threads_count req.add_count)) edb with
        | none => rw [hr] at h; simp at h
        | some r =>
          obtain ⟨outs2, edb2⟩ := r
          rw [hr] at h
          simp only [Option.some.injEq, Except.ok.injEq, Prod.mk.injEq] at h
          rw [← h.2, run_jobs_false_edb gen req _ edb outs2 edb2 hr]

end Diana

namespace Encoder

theorem size_sub_eq (a b : Nat) (ha : a < 2 ^ 64) (hb : b ≤ a) : size_sub a b = a - b := by
  unfold size_sub
  have hb' : b % 2 ^ 64 = b := Nat.mod_eq_of_lt (by omega)
  rw [hb']
  have : a + 2 ^ 64 - b = (a - b) + 2 ^ 64 := by omega
  rw [this, Nat.add_mod_right]
  exact Nat.mod_eq_of_lt (by omega)

theorem div_mod_chunk (E n d : Nat) (hd : d < E) :
    (n * E + d) / E = n ∧ (n * E + d) % E = d := by
  have hE : 0 < E := by omega
  constructor
  · rw [Nat.add_comm, Nat.add_mul_div_right _ _ hE, Nat.div_eq_of_lt hd, Nat.zero_add]
  · rw [Nat.add_comm, Nat.add_mul_mod_self_right, Nat.mod_eq_of_lt hd]

theorem foldl_copy_value (z : Sizes) (hE : 0 < z.sizeof_T) (values : List (List Nat))
    (s n : Nat) (b : Buffer) (off : Nat) :
    (List.range n).foldl (copy_value z values s) (b, off)
      = (fun a => if off ≤ a ∧ a < off + n * z.sizeof_T then
            (values.getD (s + (a - off) / z.sizeof_T) []).getD ((a - off) % z.sizeof_T) 0
          else b a,
         off + n * z.sizeof_T) := by
  induction n with
  | zero =>
    simp only [List.range_zero, List.foldl_nil, Nat.zero_mul, Nat.add_zero]
    congr 1
    funext a
    rw [if_neg (by omega)]
  | succ n ih =>
    rw [List.range_succ, List.foldl_append, ih]
    simp only [List.foldl_cons, List.foldl_nil, copy_value]
    congr 1
    · funext a
      unfold copy_bytes
      have hmul : (n + 1) * z.sizeof_T = n * z.sizeof_T + z.sizeof_T := Nat.succ_mul _ _
      by_cases h1 : off + n * z.sizeof_T ≤ a ∧ a < off + n * z.sizeof_T + z.sizeof_T
      · rw [if_pos h1, if_pos (by omega)]
        have hd : a - off = n * z.sizeof_T + (a - (off + n * z.sizeof_T)) := by omega
        obtain ⟨e1, e2⟩ := div_mod_chunk z.sizeof_T n (a - (off + n * z.sizeof_T)) (by omega)
        rw [hd, e1, e2]
      · rw [if_neg h1]
        beta_reduce
        by_cases h2 : off ≤ a ∧ a < off + n * z.sizeof_T
        · rw [if_pos h2, if_pos (by omega)]
        · rw [if_neg h2, if_neg (by omega)]
    · rw [Nat.succ_mul]; omega

theorem map_getD_range {α : Type} (l : List α) (d : α) (n : Nat) (h : l.length = n) :
    (List.range n).map (fun k => l.getD k d) = l := by
  apply List.ext_getElem
  · simp [h]
  · intro i h1 h2
    simp [List.getD_eq_getElem?_getD, List.getElem?_eq_getElem h2]

theorem map_getD_drop_take {α : Type} (l : List α) (d : α) (s n : Nat) (h : s + n ≤ l.length) :
    (List.range n).map (fun j => l.getD (s + j) d) = (l.drop s).take n := by
  apply List.ext_getElem
  · simp; omega
  · intro i h1 h2
    simp only [List.length_map, List.length_range] at h1
    have : s + i < l.length := by omega
    simp [List.getD_eq_getElem?_getD, List.getElem?_eq_getElem this]

/-- What `encode` leaves in the value area when it encodes: the `size` values starting at
`it_start`. -/
theorem written_values_fold (z : Sizes) (hE : 0 < z.sizeof_T) (values : List (List Nat))
    (hv : ∀ v ∈ values, v.length = z.sizeof_T) (s n : Nat) (hsn : s + n ≤ values.length)
    (b : Buffer) :
    let r := (List.range n).foldl (copy_value z values s)
      (b, (kAdditionalKeyEntriesNumber z + kListLengthEntriesNumber z) * z.sizeof_T)
    written_values z r.1 r.2 = (values.drop s).take n := by
  intro r
  have hr : r = _ := foldl_copy_value z hE values s n b _
  rw [hr]
  unfold written_values
  simp only
  have hcount : ((kAdditionalKeyEntriesNumber z + kListLengthEntriesNumber z) * z.sizeof_T
      + n * z.sizeof_T) / z.sizeof_T
      - (kAdditionalKeyEntriesNumber z + kListLengthEntriesNumber z) = n := by
    rw [← Nat.add_mul, Nat.mul_div_cancel _ hE]
    omega
  rw [hcount, ← map_getD_drop_take values [] s n hsn]
  apply List.map_congr_left
  intro j hj
  have hj' : j < n := List.mem_range.mp hj
  have hlen : (values.getD (s + j) []).length = z.sizeof_T := by
    apply hv
    have : s + j < values.length := by omega
    simp [List.getD_eq_getElem?_getD, List.getElem?_eq_getElem this]
  conv_rhs => rw [← map_getD_range (values.getD (s + j) []) 0 z.sizeof_T hlen]
  apply List.map_congr_left
  intro k hk
  have hk' : k < z.sizeof_T := List.mem_range.mp hk
  generalize kAdditionalKeyEntriesNumber z + kListLengthEntriesNumber z = H
  have hjn : j * z.sizeof_T + z.sizeof_T ≤ n * z.sizeof_T := by
    rw [← Nat.succ_mul]; exact Nat.mul_le_mul_right _ hj'
  have hadd : (H + j) * z.sizeof_T = H * z.sizeof_T + j * z.sizeof_T := Nat.add_mul _ _ _
  rw [if_pos (by omega)]
  have hd : (H + j) * z.sizeof_T + k - H * z.sizeof_T = j * z.sizeof_T + k := by omega
  obtain ⟨e1, e2⟩ := div_mod_chunk z.sizeof_T j k hk'
  rw [hd, e1, e2]

theorem written_values_zero (z : Sizes) (b : Buffer) : written_values z b 0 = [] := by
  simp [written_values]

/-- C5. Encoder round trip: with `H = K_e + L_e` and `C = 2 * H`, for every key, every list of
values of `sizeof(T)` bytes and every pair `(a0, a1)` of `size_t` with
`a0 + a1 = |values| + C`, the values `encode` writes for the outgoing bucket
(`assigned = a0`, `dual = a1`, `OutgoingEdge`) followed by the values it writes for the incoming
bucket (`assigned = a1`, `dual = a0`, `IncomingEdge`) are the input list: every value once, in
order. -/
theorem encode_round_trip (z : Sizes) (hE : 0 < z.sizeof_T) (buffer0 buffer1 : Buffer)
    (key : List Nat) (values : List (List Nat))
    (hv : ∀ v ∈ values, v.length = z.sizeof_T) (a0 a1 : Nat)
    (h0 : a0 < 2 ^ 64) (h1 : a1 < 2 ^ 64)
    (hsum : a0 + a1 = values.length + kControlBlockSizeEntries z) :
    written_values z
        (encode z buffer0 key values ⟨values.length, a0, a1, .OutgoingEdge⟩).1
        (encode z buffer0 key values ⟨values.length, a0, a1, .OutgoingEdge⟩).2
      ++ written_values z
        (encode z buffer1 key values ⟨values.length, a1, a0, .IncomingEdge⟩).1
        (encode z buffer1 key values ⟨values.length, a1, a0, .IncomingEdge⟩).2
      = values := by
  unfold kControlBlockSizeEntries at hsum
  unfold encode encoded_list_size encoded_list_offset
  simp only [reduceCtorEq, if_false, if_true]
  generalize hH : kAdditionalKeyEntriesNumber z + kListLengthEntriesNumber z = H at *
  by_cases c0 : a0 < H
  · -- the outgoing bucket encodes nothing, the incoming one the whole list
    have c1 : ¬ a1 < H := by omega
    rw [if_pos c0, if_neg c1, if_pos c0, if_pos c0]
    simp only [written_values_zero, List.nil_append]
    have e1 : size_sub (size_sub a1 H) (size_sub H a0) = values.length := by
      rw [size_sub_eq a1 H h1 (by omega), size_sub_eq H a0 (by omega) (by omega),
        size_sub_eq _ _ (by omega) (by omega)]
      omega
    rw [e1]
    have := written_values_fold z hE values hv 0 values.length (by omega)
    simp only [hH] at this
    rw [this]
    simp
  · rw [if_neg c0]
    by_cases c1 : a1 < H
    · -- the incoming bucket encodes nothing, the outgoing one the whole list
      rw [if_pos c1, if_pos c1]
      simp only [written_values_zero, List.append_nil]
      have e1 : size_sub (size_sub a0 H) (size_sub H a1) = values.length := by
        rw [size_sub_eq a0 H h0 (by omega), size_sub_eq H a1 (by omega) (by omega),
          size_sub_eq _ _ (by omega) (by omega)]
        omega
      rw [e1]
      have := written_values_fold z hE values hv 0 values.length (by omega)
      simp only [hH] at this
      rw [this]
      simp
    · rw [if_neg c1, if_neg c1, if_neg c0, if_neg c0]
      have e0 : size_sub a0 H = a0 - H := size_sub_eq a0 H h0 (by omega)
      have e1 : size_sub a1 H = a1 - H := size_sub_eq a1 H h1 (by omega)
      rw [e0, e1]
      have t0 := written_values_fold z hE values hv 0 (a0 - H) (by omega)
      have t1 := written_values_fold z hE values hv (a0 - H) (a1 - H) (by omega)
      simp only [hH] at t0 t1
      rw [t0, t1]
      simp only [List.drop_zero]
      have hlen : a1 - H = values.length - (a0 - H) := by omega
      rw [hlen, ← List.length_drop, List.take_length, List.take_append_drop]

/-- Witness of C5: two values of 8 bytes, one encoded in each bucket. -/
theorem encode_round_trip_witness :
    written_values sample_sizes
        (encode sample_sizes (fun _ => 0) (List.replicate 16 0) sample_values
          ⟨sample_values.length, 4, 4, .OutgoingEdge⟩).1
        (encode sample_sizes (fun _ => 0) (List.replicate 16 0) sample_values
          ⟨sample_values.length, 4, 4, .OutgoingEdge⟩).2
      ++ written_values sample_sizes
        (encode sample_sizes (fun _ => 0) (List.replicate 16 0) sample_values
          ⟨sample_values.length, 4, 4, .IncomingEdge⟩).1
        (encode sample_sizes (fun _ => 0) (List.replicate 16 0) sample_values
          ⟨sample_values.length, 4, 4, .IncomingEdge⟩).2
      = sample_values :=
  encode_round_trip sample_sizes (by decide) (fun _ => 0) (fun _ => 0) (List.replicate 16 0)
    sample_values (by decide) 4 4 (by decide) (by decide) (by decide)

end Encoder

namespace Encoder

/-! ## The number of values `encode` writes and the layout of a bucket -/

theorem encode_below_header (z : Sizes) (buffer : Buffer) (key : List Nat)
    (values : List (List Nat)) (infos : TethysAssignmentInfo)
    (h : infos.assigned_list_length
      < kAdditionalKeyEntriesNumber z + kListLengthEntriesNumber z) :
    encode z buffer key values infos = (buffer, 0) := by
  unfold encode
  simp only
  rw [if_pos h]

/-- When the two assignments cover the two headers (`assigned + dual ≥ 2 * H`, or `dual ≥ H`),
`encoded_list_size` is `assigned - H` reduced by `H - dual`, without wrap-around. -/
theorem encoded_list_size_eq (z : Sizes) (infos : TethysAssignmentInfo)
    (ha : infos.assigned_list_length < 2 ^ 64)
    (hH : kAdditionalKeyEntriesNumber z + kListLengthEntriesNumber z
      ≤ infos.assigned_list_length)
    (hsum : 2 * (kAdditionalKeyEntriesNumber z + kListLengthEntriesNumber z)
      ≤ infos.assigned_list_length + infos.dual_assigned_list_length
      ∨ kAdditionalKeyEntriesNumber z + kListLengthEntriesNumber z
        ≤ infos.dual_assigned_list_length) :
    encoded_list_size z infos
      = infos.assigned_list_length
        - (kAdditionalKeyEntriesNumber z + kListLengthEntriesNumber z)
        - (kAdditionalKeyEntriesNumber z + kListLengthEntriesNumber z
          - infos.dual_assigned_list_length) := by
  unfold encoded_list_size
  simp only
  generalize kAdditionalKeyEntriesNumber z + kListLengthEntriesNumber z = H at *
  rw [size_sub_eq _ _ ha hH]
  by_cases hd : infos.dual_assigned_list_length < H
  · rw [if_pos hd]
    rw [size_sub_eq H _ (by omega) (by omega)]
    rw [size_sub_eq _ _ (by omega) (by omega)]
  · rw [if_neg hd]
    omega

/-- The buffer `encode` leaves and the value it returns, when it encodes a list
(`assigned ≥ H`): the second `std::fill` writes the bytes `0x22` up to
`kControlBlockSizeEntries * sizeof(T)`, and the values then overwrite the entries from
`H * sizeof(T)` on. -/
theorem encode_eq (z : Sizes) (hE : 0 < z.sizeof_T) (buffer : Buffer) (key : List Nat)
    (values : List (List Nat)) (infos : TethysAssignmentInfo)
    (hH : ¬ infos.assigned_list_length
      < kAdditionalKeyEntriesNumber z + kListLengthEntriesNumber z) :
    encode z buffer key values infos
      = (fun a =>
          if (kAdditionalKeyEntriesNumber z + kListLengthEntriesNumber z) * z.sizeof_T ≤ a
              ∧ a < (kAdditionalKeyEntriesNumber z + kListLengthEntriesNumber z) * z.sizeof_T
                  + encoded_list_size z infos * z.sizeof_T then
            (values.getD (encoded_list_offset z infos
              + (a - (kAdditionalKeyEntriesNumber z + kListLengthEntriesNumber z) * z.sizeof_T)
                / z.sizeof_T) []).getD
              ((a - (kAdditionalKeyEntriesNumber z + kListLengthEntriesNumber z) * z.sizeof_T)
                % z.sizeof_T) 0
          else if kAdditionalKeyEntriesNumber z * z.sizeof_T + z.sizeof_assigned ≤ a
              ∧ a < kControlBlockSizeEntries z * z.sizeof_T then 0x22
          else if kAdditionalKeyEntriesNumber z * z.sizeof_T ≤ a
              ∧ a < kAdditionalKeyEntriesNumber z * z.sizeof_T + z.sizeof_assigned then
            (size_t_bytes (encoded_list_size z infos)).getD
              (a - kAdditionalKeyEntriesNumber z * z.sizeof_T) 0
          else if 0 + z.sizeof_Key ≤ a ∧ a < kAdditionalKeyEntriesNumber z * z.sizeof_T then 0x11
          else if 0 ≤ a ∧ a < 0 + z.sizeof_Key then key.getD (a - 0) 0
          else buffer a,
         (kAdditionalKeyEntriesNumber z + kListLengthEntriesNumber z) * z.sizeof_T
           + encoded_list_size z infos * z.sizeof_T) := by
  unfold encode
  simp only
  rw [if_neg hH, foldl_copy_value z hE]
  rfl

/-- C19, at the failing input: for the encoder of the test (`H = K_e + L_e = 3`), with
`assigned_list_length = 3` and `dual_assigned_list_length = 0`, `encode` does not take the early
return and the number of values its loop writes, `encoded_list_size`, is the wrapped-around
`size_t` value `2^64 - 3`, not `max(0, 0 - 3) = 0`. -/
theorem encoded_list_size_wraps :
    kAdditionalKeyEntriesNumber sample_sizes + kListLengthEntriesNumber sample_sizes = 3
      ∧ ¬ ((⟨0, 3, 0, .OutgoingEdge⟩ : TethysAssignmentInfo).assigned_list_length
            < kAdditionalKeyEntriesNumber sample_sizes + kListLengthEntriesNumber sample_sizes)
      ∧ encoded_list_size sample_sizes ⟨0, 3, 0, .OutgoingEdge⟩ = 2 ^ 64 - 3 := by
  refine ⟨by decide, by decide, ?_⟩
  unfold encoded_list_size size_sub
  norm_num [kAdditionalKeyEntriesNumber, kListLengthEntriesNumber, sample_sizes]

/-- C20, at the failing input: for the encoder of the test (`sizeof(Key) = 16`, `sizeof(T) = 8`,
`H = 3`), a buffer of zero bytes and one value with `assigned_list_length = 4` and
`dual_assigned_list_length = 4`, `encode` returns 32 (`(H + 1) * 8`) and writes the value at the
offsets 24 to 31, but the bytes at the offsets 32 to 47 of the buffer are `0x22`: the padding
goes further than `(K_e + L_e) * sizeof(T) = 24`, and further than the value returned. -/
theorem encode_fills_past_control_block :
    (kAdditionalKeyEntriesNumber sample_sizes + kListLengthEntriesNumber sample_sizes)
        * sample_sizes.sizeof_T = 24
      ∧ (encode sample_sizes (fun _ => 0) (List.replicate 16 0) [[1, 2, 3, 4, 5, 6, 7, 8]]
          ⟨1, 4, 4, .OutgoingEdge⟩).2 = 32
      ∧ (List.range 8).map (fun k =>
          (encode sample_sizes (fun _ => 0) (List.replicate 16 0) [[1, 2, 3, 4, 5, 6, 7, 8]]
            ⟨1, 4, 4, .OutgoingEdge⟩).1 (24 + k)) = [1, 2, 3, 4, 5, 6, 7, 8]
      ∧ (List.range 16).map (fun k =>
          (encode sample_sizes (fun _ => 0) (List.replicate 16 0) [[1, 2, 3, 4, 5, 6, 7, 8]]
            ⟨1, 4, 4, .OutgoingEdge⟩).1 (32 + k)) = List.replicate 16 0x22 := by
  refine ⟨by decide, ?_, ?_, ?_⟩ <;> rfl

end Encoder

namespace Encoder

/-- C28, at the failing input: for the encoder of the test (`sizeof(T) = 8`, `H = 3`), a buffer
of zero bytes, an empty list of values and `assigned_list_length = 3`,
`dual_assigned_list_length = 3`, `encode` returns 24, which is also `assigned * sizeof(T)`, and
the 24 bytes at the offsets 24 to 47, not below the value returned, are overwritten with
`0x22`. -/
theorem encode_writes_past_return :
    (encode sample_sizes (fun _ => 0) (List.replicate 16 0) [] ⟨0, 3, 3, .OutgoingEdge⟩).2 = 24
      ∧ (⟨0, 3, 3, .OutgoingEdge⟩ : TethysAssignmentInfo).assigned_list_length
          * sample_sizes.sizeof_T = 24
      ∧ (List.range 24).map (fun k =>
          (encode sample_sizes (fun _ => 0) (List.replicate 16 0) []
            ⟨0, 3, 3, .OutgoingEdge⟩).1 (24 + k)) = List.replicate 24 0x22
      ∧ (List.range 24).map (fun k => (fun _ => 0 : Buffer) (24 + k)) = List.replicate 24 0 := by
  refine ⟨?_, ?_, ?_, ?_⟩ <;> rfl

/-- The bytes `encode` leaves between the end of the values and
`kControlBlockSizeEntries * sizeof(T)` are `0x22`, whatever the buffer held: when fewer than `H`
values are encoded these bytes are not below the value returned. -/
theorem encode_padding_after_values (z : Sizes) (hE : 0 < z.sizeof_T) (buffer : Buffer)
    (key : List Nat) (values : List (List Nat)) (infos : TethysAssignmentInfo)
    (hH : ¬ infos.assigned_list_length
      < kAdditionalKeyEntriesNumber z + kListLengthEntriesNumber z)
    (hL : z.sizeof_assigned ≤ kListLengthEntriesNumber z * z.sizeof_T) (a : Nat)
    (h1 : (encode z buffer key values infos).2 ≤ a)
    (h2 : a < kControlBlockSizeEntries z * z.sizeof_T) :
    (encode z buffer key values infos).1 a = 0x22 := by
  rw [encode_eq z hE buffer key values infos hH] at h1 ⊢
  simp only at h1 ⊢
  rw [if_neg (by omega), if_pos]
  refine ⟨?_, h2⟩
  have : kAdditionalKeyEntriesNumber z * z.sizeof_T + kListLengthEntriesNumber z * z.sizeof_T
      = (kAdditionalKeyEntriesNumber z + kListLengthEntriesNumber z) * z.sizeof_T := by ring
  have h3 : (kAdditionalKeyEntriesNumber z + kListLengthEntriesNumber z) * z.sizeof_T ≤ a :=
    le_trans (Nat.le_add_right _ _) h1
  omega

end Encoder

namespace Janus

/-! ## The requests of the JANUS client -/

theorem insertion_request_prfs {S : Type} (x : Collaborators S) (c : JanusClient S)
    (kw : String) (ind : index_type) :
    (insertion_request x c kw ind).2.tag_prf_ = c.tag_prf_
      ∧ (insertion_request x c kw ind).2.punct_enc_master_prf_ = c.punct_enc_master_prf_
      ∧ (insertion_request x c kw ind).2.deletion_client_ = c.deletion_client_ :=
  ⟨rfl, rfl, rfl⟩

/-- C12. For every keyword `kw` and index `ind` there are a key, derived from `kw` alone by
`punct_enc_master_prf_`, and a tag, `tag_prf_` of `keyword_doc_string(kw, ind)`, such that
`insertion_request(kw, ind)` sends the encryption of `ind` under this key and this tag, and
`deletion_request(kw, ind)`, called on the same client or on the client the insertion left,
sends the key share obtained by puncturing this key on this same tag. -/
theorem deletion_punctures_insertion_tag {S : Type} (x : Collaborators S) (c : JanusClient S)
    (kw : String) (ind : index_type) :
    ∃ key tag n,
      key = c.punct_enc_master_prf_ kw
      ∧ tag = c.tag_prf_ (keyword_doc_string x.hex_string kw ind)
      ∧ n = (x.get_match_count c.deletion_client_ kw % 2 ^ 32 + 1) % 2 ^ 32
      ∧ (insertion_request x c kw ind).1
          = (x.insertion_update_request c.insertion_client_ kw (x.encrypt key ind tag)).1
      ∧ (deletion_request x c kw ind).1
          = (x.deletion_update_request c.deletion_client_ kw (x.inc_puncture key n tag)).1
      ∧ (deletion_request x (insertion_request x c kw ind).2 kw ind).1
          = (x.deletion_update_request c.deletion_client_ kw (x.inc_puncture key n tag)).1 :=
  ⟨_, _, _, rfl, rfl, rfl, rfl, rfl, rfl⟩

end Janus

namespace Janus

/-- C25. `JanusClient::search_request` returns a request for every keyword and every pair of
counts: its `insertion_search_request` and `deletion_search_request` are the requests of the
insertion client and of the deletion client (the latter asked not to log a missing keyword), its
`first_key_share` is `initial_keyshare` of the deletion `add_count` under the key derived from
the keyword, and an insertion `add_count` smaller than the deletion `add_count` only decides
whether the error line is logged. -/
theorem search_request_never_fails {S : Type} (x : SearchCollaborators S) (c : JanusClient S)
    (keyword : String) (keyword_token : Nat) :
    (search_request x c keyword keyword_token).1.insertion_search_request
        = x.insertion_search_request c.insertion_client_ keyword
      ∧ (search_request x c keyword keyword_token).1.deletion_search_request
        = x.deletion_search_request c.deletion_client_ keyword false
      ∧ (search_request x c keyword keyword_token).1.first_key_share
        = x.initial_keyshare (c.punct_enc_master_prf_ keyword)
            (x.deletion_search_request c.deletion_client_ keyword false).add_count
      ∧ ((search_request x c keyword keyword_token).2 = true
        ↔ (x.insertion_search_request c.insertion_client_ keyword).add_count
            < (x.deletion_search_request c.deletion_client_ keyword false).add_count) :=
  ⟨rfl, rfl, rfl, by simp [search_request]⟩

end Janus

namespace Janus

/-! ## `keyword_doc_string` is injective -/

/-- Two lists that agree, each cut at an occurrence of `a` before which `a` does not occur,
have the same parts before and after the cut. -/
theorem append_sep_inj {α : Type} (a : α) :
    ∀ (l1 l2 r1 r2 : List α), a ∉ l1 → a ∉ l2 → l1 ++ a :: r1 = l2 ++ a :: r2 →
      l1 = l2 ∧ r1 = r2 := by
  intro l1
  induction l1 with
  | nil =>
    intro l2 r1 r2 _ h2 h
    cases l2 with
    | nil =>
      simp only [List.nil_append, List.cons.injEq, true_and] at h
      exact ⟨rfl, h⟩
    | cons b l2 =>
      simp only [List.nil_append, List.cons_append, List.cons.injEq] at h
      exact absurd (h.1 ▸ List.mem_cons_self b l2) h2
  | cons x l1 ih =>
    intro l2 r1 r2 h1 h2 h
    cases l2 with
    | nil =>
      simp only [List.nil_append, List.cons_append, List.cons.injEq] at h
      exact absurd (h.1 ▸ List.mem_cons_self x l1) h1
    | cons b l2 =>
      simp only [List.cons_append, List.cons.injEq] at h
      obtain ⟨e1, e2⟩ := ih l2 r1 r2 (fun c => h1 (List.mem_cons_of_mem _ c))
        (fun c => h2 (List.mem_cons_of_mem _ c)) h.2
      exact ⟨by rw [h.1, e1], e2⟩

theorem keyword_doc_string_data (hex_string : index_type → String) (kw : String)
    (ind : index_type) :
    (keyword_doc_string hex_string kw ind).data = (hex_string ind).data ++ '|' :: '|' :: kw.data := by
  unfold keyword_doc_string
  simp only [String.data_append, List.append_assoc]
  rfl

theorem bar_not_hex (s : String) (h : ∀ c ∈ s.data, IsHexDigit c) : '|' ∉ s.data := by
  intro hc
  have := h _ hc
  unfold IsHexDigit at this
  revert this
  decide

/-- C32. `keyword_doc_string` is injective: when `hex_string` is injective on the indices (the
values of a `uint64_t`) and outputs only hexadecimal digits, for all keywords `kw1`, `kw2` and
indices `i1`, `i2`, `keyword_doc_string(kw1, i1) = keyword_doc_string(kw2, i2)` implies
`kw1 = kw2` and `i1 = i2`. -/
theorem keyword_doc_string_injective (hex_string : index_type → String)
    (hinj : ∀ i1 i2, i1 < 2 ^ 64 → i2 < 2 ^ 64 → hex_string i1 = hex_string i2 → i1 = i2)
    (hhex : ∀ i, i < 2 ^ 64 → ∀ c ∈ (hex_string i).data, IsHexDigit c)
    (kw1 kw2 : String) (i1 i2 : index_type) (h1 : i1 < 2 ^ 64) (h2 : i2 < 2 ^ 64)
    (h : keyword_doc_string hex_string kw1 i1 = keyword_doc_string hex_string kw2 i2) :
    kw1 = kw2 ∧ i1 = i2 := by
  have hd := congrArg String.data h
  rw [keyword_doc_string_data, keyword_doc_string_data] at hd
  obtain ⟨e1, e2⟩ := append_sep_inj '|' _ _ _ _ (bar_not_hex _ (hhex i1 h1))
    (bar_not_hex _ (hhex i2 h2)) hd
  simp only [List.cons.injEq, true_and] at e2
  exact ⟨String.ext e2, hinj i1 i2 h1 h2 (String.ext e1)⟩

theorem digitChar_injOn :
    ∀ a, a < 16 → ∀ b, b < 16 → Nat.digitChar a = Nat.digitChar b → a = b := by
  decide

theorem digitChar_hex : ∀ a, a < 16 → IsHexDigit (Nat.digitChar a) := by
  unfold IsHexDigit
  decide

theorem map_digitChar_inj :
    ∀ (l1 l2 : List Nat), (∀ x ∈ l1, x < 16) → (∀ x ∈ l2, x < 16) →
      l1.map Nat.digitChar = l2.map Nat.digitChar → l1 = l2 := by
  intro l1
  induction l1 with
  | nil =>
    intro l2 _ _ h
    cases l2 with
    | nil => rfl
    | cons b l2 => simp at h
  | cons a l1 ih =>
    intro l2 h1 h2 h
    cases l2 with
    | nil => simp at h
    | cons b l2 =>
      simp only [List.map_cons, List.cons.injEq] at h
      have hab := digitChar_injOn a (h1 a (List.mem_cons_self _ _)) b
        (h2 b (List.mem_cons_self _ _)) h.1
      rw [hab, ih l2 (fun x hx => h1 x (List.mem_cons_of_mem _ hx))
        (fun x hx => h2 x (List.mem_cons_of_mem _ hx)) h.2]

theorem sample_hex_string_injective (i1 i2 : index_type)
    (h : sample_hex_string i1 = sample_hex_string i2) : i1 = i2 := by
  unfold sample_hex_string at h
  have hd : (Nat.digits 16 i1).reverse.map Nat.digitChar
      = (Nat.digits 16 i2).reverse.map Nat.digitChar := congrArg String.data h
  have hlt : ∀ i, ∀ x ∈ (Nat.digits 16 i).reverse, x < 16 := by
    intro i x hx
    exact Nat.digits_lt_base (by norm_num) (List.mem_reverse.mp hx)
  have := map_digitChar_inj _ _ (hlt i1) (hlt i2) hd
  exact Nat.digits_inj_iff.mp (List.reverse_injective this)

theorem sample_hex_string_hex (i : index_type) :
    ∀ c ∈ (sample_hex_string i).data, IsHexDigit c := by
  intro c hc
  unfold sample_hex_string at hc
  obtain ⟨x, hx, rfl⟩ := List.mem_map.mp hc
  exact digitChar_hex x (Nat.digits_lt_base (by norm_num) (List.mem_reverse.mp hx))

theorem sample_doc_string : keyword_doc_string sample_hex_string "a||b" 42 = "2a||a||b" := by
  apply String.ext
  rw [keyword_doc_string_data]
  unfold sample_hex_string
  norm_num
  decide

theorem keyword_doc_string_injective_witness :
    (42 : Nat) < 2 ^ 64
      ∧ keyword_doc_string sample_hex_string "a||b" 42
          = keyword_doc_string sample_hex_string "a||b" 42
      ∧ ("a||b" = "a||b" ∧ 42 = 42)
      ∧ keyword_doc_string sample_hex_string "a||b" 42
          ≠ keyword_doc_string sample_hex_string "b" 42 :=
  ⟨by norm_num, rfl,
    keyword_doc_string_injective sample_hex_string
      (fun i1 i2 _ _ e => sample_hex_string_injective i1 i2 e)
      (fun i _ => sample_hex_string_hex i) "a||b" "a||b" 42 42 (by norm_num) (by norm_num) rfl,
    fun h => absurd (keyword_doc_string_injective sample_hex_string
      (fun i1 i2 _ _ e => sample_hex_string_injective i1 i2 e)
      (fun i _ => sample_hex_string_hex i) "a||b" "b" 42 42 (by norm_num) (by norm_num) h).1
      (by decide)⟩

end Janus
